import Mathlib

/-!
scrot: command-line option handling (`src/options.c`).

A shallow embedding of the option handlers of `options.c` and the properties
proved about them.

Conventions of the embedding.

* A C string is the list of its characters before the terminating NUL; a
  `char*` that may be `NULL` is an `Option (List Char)`.
* A C `int` is an `Int`; every value stored in one below comes out of
  `parseRequiredNumber`, which only returns values in `[INT_MIN, INT_MAX]`.
* The global `opt` is passed in and returned explicitly.
* A handler that can leave through `errx`, `err`, `exit`, `assert` or by
  touching memory outside an object returns `Except Failure _`; the
  constructor of `Failure` tells which exit was taken.
* The C library routines the handlers call (`strtol`, `strncmp`, `strtok`,
  `getsubopt`, `getopt_long`, `malloc`, `strncpy`, `strcat`, `snprintf`) are
  modelled after ISO C / POSIX and the GNU C library. `strdup` and `strndup`
  are taken to succeed.
* `scrotNoteNew` (note module) is a parameter of `optionsParse`.
-/

namespace Scrot

/-! ## Failures -/

/-- The ways a handler can end without returning to its caller. -/
inductive Failure where
  /-- `assert(...)` failed (the process aborts). -/
  | assertion
  /-- `errx`: "the option is not a number: %s". -/
  | notANumber
  /-- `err`: "error strtol" (label `range_error`). -/
  | errorStrtol
  /-- `errx`: "option --select: Unknown value for suboption '%s'". -/
  | selectUnknownValue
  /-- `errx`: "Missing value for suboption '%s'", with the key. -/
  | missingValue (key : List Char)
  /-- `errx`: "Unknown value for suboption '%s': %s", with the key. -/
  | unknownValue (key : List Char)
  /-- `errx`: "Value of the range (1..8) for suboption '%s': %d". -/
  | widthRange
  /-- `errx`: "No match found for token: '%s'". -/
  | noMatch
  /-- `errx`: "option 'autoselect' require 4 arguments". -/
  | autoselectArguments
  /-- `errx`: "invalid format for option -- 'autoselect'". -/
  | autoselectFormat
  /-- `err`: "Unable to allocate thumbnail". -/
  | allocateThumbnail
  /-- `err`: "Unable to allocate display". -/
  | allocateDisplay
  /-- `errx`: "output filename too long, must be less than %d characters". -/
  | filenameTooLong
  /-- `errx`: "Required arguments for --note.". -/
  | noteRequired
  /-- `exit(EXIT_FAILURE)` after `getopt_long` reported `'?'`. -/
  | unknownOption
  /-- `showUsage` / `showVersion`: text printed, `exit(0)`. -/
  | exitSuccess
  /-- A read or write outside the bounds of an object (undefined behaviour). -/
  | outOfBounds
  /-- The iteration bound of a modelled loop ran out (never happens: each loop
  is started with a bound it cannot exceed). -/
  | loopBound
  deriving DecidableEq, Repr

deriving instance DecidableEq for Except

/-- A fatal error in the sense of the specification: the process prints a
diagnostic and terminates with `EXIT_FAILURE` through `errx`, `err` or `exit`. -/
def Failure.isFatal : Failure → Bool
  | .assertion => false
  | .exitSuccess => false
  | .outOfBounds => false
  | .loopBound => false
  | _ => true

/-! ## The C library -/

/-- The NUL character. -/
def NUL : Char := Char.ofNat 0

/-- `isspace` in the C locale: space and the control characters 9 to 13. -/
def isspace (c : Char) : Bool :=
  c.toNat = 32 || (9 ≤ c.toNat && c.toNat ≤ 13)

/-- The value of a character read as a digit (`0-9`, `a-z`, `A-Z`), or 36 when
it is no digit in any base. -/
def digitValue (c : Char) : Nat :=
  if 48 ≤ c.toNat ∧ c.toNat ≤ 57 then c.toNat - 48
  else if 97 ≤ c.toNat ∧ c.toNat ≤ 122 then c.toNat - 87
  else if 65 ≤ c.toNat ∧ c.toNat ≤ 90 then c.toNat - 55
  else 36

def LONG_MAX : Int := 9223372036854775807
def LONG_MIN : Int := -9223372036854775808
def INT_MAX : Int := 2147483647
def INT_MIN : Int := -2147483648
def ERANGE : Nat := 34
def EINVAL : Nat := 22

/-- What `strtol(str, &end, base)` leaves behind: the returned `long`, the
offset `end - str`, and `errno` (which the caller cleared beforehand). -/
structure StrtolResult where
  ret : Int
  endOffset : Nat
  errno : Nat
  deriving DecidableEq, Repr

/-- The number of sign characters at the head of a string (0 or 1). -/
def signLength : List Char → Nat
  | c :: _ => if c = '-' ∨ c = '+' then 1 else 0
  | [] => 0

/-- Whether a string starts with `0x` or `0X` followed by a hexadecimal digit. -/
def hasHexPrefix : List Char → Bool
  | z :: x :: d :: _ => z = '0' && (x = 'x' || x = 'X') && digitValue d < 16
  | _ => false

/-- The function `strtol` past the leading white space, of which there were `ws`
characters: an optional sign, the base (for base 0 and 16 an `0x` prefix,
for base 0 a leading `0` meaning octal), then the longest run of digits of
that base. Without any digit nothing is consumed (`end == str`) and 0 is
returned; a value outside `long` is replaced by `LONG_MAX` / `LONG_MIN` with
`errno = ERANGE`. -/
def strtolFrom (s1 : List Char) (base ws : Nat) : StrtolResult :=
  let negative := s1.head? = some '-'
  let sg := signLength s1
  let s2 := s1.drop sg
  let hex := (base = 0 ∨ base = 16) ∧ hasHexPrefix s2 = true
  let b := if base = 0 then (if hex then 16 else if s2.head? = some '0' then 8 else 10) else base
  let pre := if hex then 2 else 0
  let ds := (s2.drop pre).takeWhile (fun c => digitValue c < b)
  if ds = [] then ⟨0, 0, 0⟩
  else
    let magnitude : Nat := ds.foldl (fun a c => a * b + digitValue c) 0
    let v : Int := if negative then - (magnitude : Int) else magnitude
    let e := ws + sg + pre + ds.length
    if v > LONG_MAX then ⟨LONG_MAX, e, ERANGE⟩
    else if v < LONG_MIN then ⟨LONG_MIN, e, ERANGE⟩
    else ⟨v, e, 0⟩

/-- The function `strtol` of the C library on an LP64 platform: a base other than 0 and 2 to 36
gives `EINVAL`; otherwise the leading white space is skipped and the number
read as `strtolFrom` describes. -/
def strtol (str : List Char) (base : Nat) : StrtolResult :=
  if base = 1 ∨ 36 < base then ⟨0, 0, EINVAL⟩
  else
    strtolFrom (str.drop (str.takeWhile isspace).length) base (str.takeWhile isspace).length

/-- The function `strncmp` of the C library, up to the sign of the result: 0 when the first `n`
characters agree (or both strings end before that), negative or positive
otherwise. The end of a string compares below every character. -/
def strncmp : List Char → List Char → Nat → Int
  | _, _, 0 => 0
  | [], [], _ + 1 => 0
  | [], _ :: _, _ + 1 => -1
  | _ :: _, [], _ + 1 => 1
  | a :: as, b :: bs, n + 1 =>
    if a = b then strncmp as bs n else if a < b then -1 else 1

/-- The function `strchr(s, c) != NULL` of the C library: the character occurs in the string. -/
def strchr (s : List Char) (c : Char) : Bool := decide (c ∈ s)

/-! ## `options.c`: numbers -/

/-- Source: `parseRequiredNumber` (options.c:58-84). -/
def parseRequiredNumber (str : Option (List Char)) (base : Nat) : Except Failure Int :=
  match str with
  | none => .error .assertion
  | some s =>
    let r := strtol s base
    if r.errno ≠ 0 then .error .errorStrtol
    else if r.endOffset = 0 then .error .notANumber
    else if r.ret > INT_MAX ∨ r.ret < INT_MIN then .error .errorStrtol
    else .ok r.ret

/-- Source: `optionsParseRequiredDecimal` (options.c:86-89). -/
def optionsParseRequiredDecimal (str : Option (List Char)) : Except Failure Int :=
  parseRequiredNumber str 10

/-- Source: `optionsParseRequiredNumber` (options.c:91-95). -/
def optionsParseRequiredNumber (str : Option (List Char)) : Except Failure Int :=
  parseRequiredNumber str 0

/-- Source: `nonNegativeNumber` (options.c:97-100). -/
def nonNegativeNumber (number : Int) : Int :=
  if number < 0 then 0 else number

/-- Source: `optionsParseRequireRange` (options.c:102-105). -/
def optionsParseRequireRange (n lo hi : Int) : Int :=
  if n < lo then lo else if n > hi then hi else n

/-- Source: `optionsParseIsString` (options.c:107-110). -/
def optionsParseIsString (str : Option (List Char)) : Bool :=
  match str with
  | none => false
  | some s => s ≠ []

/-! ## The configuration record -/

/-- Modelled from the spec: the selection modes `SELECTION_MODE_CAPTURE`,
`SELECTION_MODE_HIDE` and `SELECTION_MODE_HOLE` of the header `options.h`,
which is not among the sources (spec §3: `select | enum {capture, hide, hole}`). -/
inductive SelectionMode where
  | capture
  | hide
  | hole
  deriving DecidableEq, Repr

/-- Xlib `LineSolid` (X.h). -/
def LineSolid : Int := 0
/-- Xlib `LineOnOffDash` (X.h). -/
def LineOnOffDash : Int := 1

/-- Modelled from the spec: the macro `LINE_MODE_CLASSIC` of the header (spec §4.3, `classic`). -/
def LINE_MODE_CLASSIC : List Char := "classic".toList
/-- Modelled from the spec: the macro `LINE_MODE_CLASSIC_LEN` of the header, the length of
the constant it goes with (spec §4.3, "fixed-length constants"). -/
def LINE_MODE_CLASSIC_LEN : Nat := 7
/-- Modelled from the spec: the macro `LINE_MODE_EDGE` of the header (spec §4.3, `edge`). -/
def LINE_MODE_EDGE : List Char := "edge".toList
/-- Modelled from the spec: the macro `LINE_MODE_EDGE_LEN` of the header. -/
def LINE_MODE_EDGE_LEN : Nat := 4

def MAX_LEN_WINDOW_CLASS_NAME : Nat := 80
def MAX_OUTPUT_FILENAME : Nat := 256
def MAX_DISPLAY_NAME : Nat := 256

/-- Modelled from the spec: the record type `ScrotOptions` of the header `options.h`,
which is not among the sources; the fields are those `options.c` reads or
writes (spec §3). An `int` field is an `Int`, a `char*` field an optional
string (`none` is `NULL`), `select` is `none` until a mode is stored. -/
structure ScrotOptions where
  delay : Int
  countdown : Int
  focused : Int
  quality : Int
  border : Int
  silent : Int
  multidisp : Int
  thumb : Int
  thumbWidth : Int
  thumbHeight : Int
  pointer : Int
  freeze : Int
  overwrite : Int
  lineStyle : Int
  lineWidth : Int
  lineOpacity : Int
  lineColor : Option (List Char)
  lineMode : Option (List Char)
  stack : Int
  outputFile : Option (List Char)
  thumbFile : Option (List Char)
  exec : Option (List Char)
  display : Option (List Char)
  note : Option (List Char)
  window : Int
  windowClassName : Option (List Char)
  script : Option (List Char)
  autoselect : Int
  autoselectX : Int
  autoselectY : Int
  autoselectW : Int
  autoselectH : Int
  select : Option SelectionMode
  deriving DecidableEq

/-- Source: the initialiser of the global `opt` (options.c:50-56); the fields
it does not name are zero. -/
def opt : ScrotOptions where
  delay := 0
  countdown := 0
  focused := 0
  quality := 75
  border := 0
  silent := 0
  multidisp := 0
  thumb := 0
  thumbWidth := 0
  thumbHeight := 0
  pointer := 0
  freeze := 0
  overwrite := 0
  lineStyle := LineSolid
  lineWidth := 1
  lineOpacity := 100
  lineColor := none
  lineMode := some LINE_MODE_CLASSIC
  stack := 0
  outputFile := none
  thumbFile := none
  exec := none
  display := none
  note := none
  window := 0
  windowClassName := none
  script := none
  autoselect := 0
  autoselectX := 0
  autoselectY := 0
  autoselectW := 0
  autoselectH := 0
  select := none

/-! ## `options.c`: `--select` -/

/-- Source: `optionsParseSelection` (options.c:112-135). `strchr(optarg, '=')`
points at the first `=`; `value` is what follows it, or the whole argument
when there is none. -/
def optionsParseSelection (optarg : Option (List Char)) (o : ScrotOptions) :
    Except Failure ScrotOptions :=
  match optarg with
  | none => .ok { o with select := some .capture }
  | some arg =>
    let value := if strchr arg '=' then (arg.dropWhile (fun c => c ≠ '=')).drop 1 else arg
    if strncmp value "capture".toList 7 = 0 then .ok { o with select := some .capture }
    else if strncmp value "hide".toList 4 = 0 then .ok { o with select := some .hide }
    else if strncmp value "hole".toList 4 = 0 then .ok { o with select := some .hole }
    else .error .selectUnknownValue

/-! ## `options.c`: `--line` -/

/-- What a call of `getsubopt(&subopts, token, &value)` leaves behind: the
returned index (`none` for -1), `value`, and the string `subopts` now points at. -/
structure SuboptResult where
  index : Option Nat
  value : Option (List Char)
  subopts : List Char
  deriving DecidableEq, Repr

/-- The search loop of `getsubopt`: the index of the first token equal to the
name, `none` when the `NULL` that ends the array is reached. -/
def matchToken : List (List Char) → List Char → Option Nat
  | [], _ => none
  | t :: ts, name => if name = t then some 0 else (matchToken ts name).map (fun cnt => cnt + 1)

/-- The function `getsubopt` of POSIX, as in the GNU C library. The suboption runs up to the next
comma, its name up to the first `=` in it; the name has to equal one of the
tokens. On a match `value` is the text after that `=` (`NULL` without one),
otherwise -1 is returned and `value` is the whole suboption. `subopts` moves
past the comma. On an empty string -1 is returned and nothing is changed. -/
def getsubopt (subopts : List Char) (tokens : List (List Char)) (value : Option (List Char)) :
    SuboptResult :=
  if subopts = [] then ⟨none, value, subopts⟩
  else
    let suboption := subopts.takeWhile (fun c => c ≠ ',')
    let rest := (subopts.dropWhile (fun c => c ≠ ',')).drop 1
    let name := suboption.takeWhile (fun c => c ≠ '=')
    match matchToken tokens name with
    | some cnt =>
      ⟨some cnt,
       if '=' ∈ suboption then some ((suboption.dropWhile (fun c => c ≠ '=')).drop 1) else none,
       rest⟩
    | none => ⟨none, some suboption, rest⟩

/-- Source: the array `token` of `optionsParseLine` (options.c:147-154), in the
order of the enumeration `Style, Width, Color, Opacity, Mode`. -/
def token : List (List Char) :=
  ["style".toList, "width".toList, "color".toList, "opacity".toList, "mode".toList]

/-- Source: the `switch` in the loop of `optionsParseLine` (options.c:160-216),
on the index and value `getsubopt` produced. -/
def optionsParseLineCase (index : Option Nat) (value : Option (List Char)) (o : ScrotOptions) :
    Except Failure ScrotOptions :=
  match index with
  | some 0 =>
    if ¬ optionsParseIsString value then .error (.missingValue "style".toList)
    else if strncmp (value.getD []) "dash".toList 4 = 0 then
      .ok { o with lineStyle := LineOnOffDash }
    else if strncmp (value.getD []) "solid".toList 5 = 0 then
      .ok { o with lineStyle := LineSolid }
    else .error (.unknownValue "style".toList)
  | some 1 =>
    if ¬ optionsParseIsString value then .error (.missingValue "width".toList)
    else
      match optionsParseRequiredDecimal value with
      | .error e => .error e
      | .ok lineWidth =>
        if lineWidth ≤ 0 ∨ lineWidth > 8 then .error .widthRange
        else .ok { o with lineWidth := lineWidth }
  | some 2 =>
    if ¬ optionsParseIsString value then .error (.missingValue "color".toList)
    else .ok { o with lineColor := value }
  | some 4 =>
    if ¬ optionsParseIsString value then .error (.missingValue "mode".toList)
    else
      let isValidMode :=
        strncmp (value.getD []) LINE_MODE_CLASSIC LINE_MODE_CLASSIC_LEN = 0
          ∨ strncmp (value.getD []) LINE_MODE_EDGE LINE_MODE_EDGE_LEN = 0
      if ¬ isValidMode then .error (.unknownValue "mode".toList)
      else .ok { o with lineMode := value }
  | some 3 =>
    if ¬ optionsParseIsString value then .error (.missingValue "opacity".toList)
    else
      match optionsParseRequiredDecimal value with
      | .error e => .error e
      | .ok lineOpacity => .ok { o with lineOpacity := lineOpacity }
  | _ => .error .noMatch

/-- Source: the `while` loop of `optionsParseLine` (options.c:159-217), with a
bound on the number of iterations. -/
def optionsParseLineLoop :
    Nat → List Char → Option (List Char) → ScrotOptions → Except Failure ScrotOptions
  | 0, subopts, _, o => if subopts = [] then .ok o else .error .loopBound
  | bound + 1, subopts, value, o =>
    if subopts = [] then .ok o
    else
      let r := getsubopt subopts token value
      match optionsParseLineCase r.index r.value o with
      | .error e => .error e
      | .ok o1 => optionsParseLineLoop bound r.subopts r.value o1

/-- Source: `optionsParseLine` (options.c:137-218). Every iteration consumes
a character, so the length of the argument bounds the loop. -/
def optionsParseLine (optarg : List Char) (o : ScrotOptions) : Except Failure ScrotOptions :=
  optionsParseLineLoop optarg.length optarg none o

/-! ## `options.c`: `--class` -/

/-- Source: `optionsParseWindowClassName` (options.c:220-226); `strndup`
keeps at most `MAX_LEN_WINDOW_CLASS_NAME` characters. -/
def optionsParseWindowClassName (windowClassName : Option (List Char)) (o : ScrotOptions) :
    Except Failure ScrotOptions :=
  match windowClassName with
  | none => .error .assertion
  | some name =>
    if name ≠ [] then .ok { o with windowClassName := some (name.take MAX_LEN_WINDOW_CLASS_NAME) }
    else .ok o

/-! ## `strtok` -/

/-- What a call of `strtok` leaves behind: the returned token (`none` for
`NULL`), the string at the position saved for the next `strtok(NULL, ..)`,
and the string now read at the pointer the scan started from (`strtok`
overwrites the delimiter that ends the token with NUL). -/
structure StrtokResult where
  token : Option (List Char)
  save : List Char
  start : List Char
  deriving DecidableEq, Repr

/-- The function `strtok` of the C library, applied to the string `s` (the first argument of the
first call, the saved position of a later one): skip the delimiters at the
head; if nothing is left return `NULL`; otherwise the token runs up to the
next delimiter, which is overwritten with NUL, and the saved position is the
character after it. -/
def strtok (s : List Char) (delim : List Char) : StrtokResult :=
  let s1 := s.dropWhile (fun c => decide (c ∈ delim))
  if s1 = [] then ⟨none, [], s⟩
  else
    let tok := s1.takeWhile (fun c => decide (c ∉ delim))
    ⟨some tok, (s1.dropWhile (fun c => decide (c ∉ delim))).drop 1,
     s.takeWhile (fun c => decide (c ∈ delim)) ++ tok⟩

/-! ## `options.c`: thumbnail file name -/

/-- The function `malloc(size)` of the C library. The argument `heap` stands for the allocator:
`none` when it has no memory to give (`NULL` is returned), otherwise the
bytes that happen to lie in the block it hands out, which `malloc` does not
clear. -/
def malloc (heap : Option (Nat → Char)) (size : Nat) : Option (List Char) :=
  heap.map (fun bytes => (List.range size).map bytes)

/-- The string a character array holds: its characters up to the first NUL. -/
def cstring (buffer : List Char) : List Char :=
  buffer.takeWhile (fun c => c ≠ NUL)

/-- The function `strrchr(s, c)` of the C library, as the offset of the last `c` in `s`
(`none` for `NULL`). -/
def strrchr : List Char → Char → Option Nat
  | [], _ => none
  | a :: as, c =>
    match strrchr as c with
    | some k => some (k + 1)
    | none => if a = c then some 0 else none

/-- The function `strncpy(dst, src, n)` of the C library on the array `dst`: exactly `n` bytes are
written, the first `n` characters of `src`, padded with NUL when `src` is
shorter. No NUL is written when `src` has `n` or more characters. -/
def strncpy (dst src : List Char) (n : Nat) : Except Failure (List Char) :=
  if n ≤ dst.length then
    .ok (src.take n ++ List.replicate (n - src.length) NUL ++ dst.drop n)
  else .error .outOfBounds

/-- The function `strcat(dst, src)` of the C library on the array `dst`: `src` and a NUL are written
from the first NUL of `dst` on. Finding no NUL inside the array, or not
having room for `src` and its NUL, leaves the array. -/
def strcat (dst src : List Char) : Except Failure (List Char) :=
  let k := (cstring dst).length
  if k + src.length + 1 ≤ dst.length then
    .ok (dst.take k ++ src ++ NUL :: dst.drop (k + src.length + 1))
  else .error .outOfBounds

/-- The call `snprintf(dst, size, "%s-thumb", name)` on the array `dst`: at most `size - 1`
characters of the text and a NUL are written. -/
def snprintfThumb (dst : List Char) (size : Nat) (name : List Char) : List Char :=
  let text := (name ++ "-thumb".toList).take (size - 1)
  text ++ NUL :: dst.drop (text.length + 1)

/-- Source: `nameThumbnail` (options.c:365-389). `heap` is the allocator
`malloc` draws on. -/
def nameThumbnail (heap : Option (Nat → Char)) (name : List Char) : Except Failure (List Char) :=
  let length := name.length + 7
  match malloc heap length with
  | none => .error .allocateThumbnail
  | some newTitle =>
    match strrchr name '.' with
    | some diff =>
      match strncpy newTitle name diff with
      | .error e => .error e
      | .ok t1 =>
        match strcat t1 "-thumb".toList with
        | .error e => .error e
        | .ok t2 =>
          match strcat t2 (name.drop diff) with
          | .error e => .error e
          | .ok t3 => .ok (cstring t3)
    | none => .ok (cstring (snprintfThumb newTitle length name))

/-! ## `options.c`: `--autoselect` -/

/-- Source: the loop `while ((token = strtok(NULL, tokenDelimiter)))` of
`optionsParseAutoselect` (options.c:400-401), with a bound on the number of
iterations. `dimensions` holds the values stored so far, so `i` is its
length; the array has room for 4. -/
def optionsParseAutoselectLoop : Nat → List Char → List Int → Except Failure (List Int)
  | 0, _, _ => .error .loopBound
  | bound + 1, save, dimensions =>
    let r := strtok save [',']
    match r.token with
    | none => .ok dimensions
    | some tok =>
      match optionsParseRequiredDecimal (some tok) with
      | .error e => .error e
      | .ok v =>
        if 4 ≤ dimensions.length then .error .outOfBounds
        else optionsParseAutoselectLoop bound r.save (dimensions ++ [v])

/-- Source: `optionsParseAutoselect` (options.c:391-412). The fields are read
from `dimensions` before `i` is compared with 4; when `i` is less the
process ends in `errx`, so the values read from the unset slots are lost. -/
def optionsParseAutoselect (optarg : List Char) (o : ScrotOptions) : Except Failure ScrotOptions :=
  if strchr optarg ',' then
    let r := strtok optarg [',']
    match optionsParseRequiredDecimal r.token with
    | .error e => .error e
    | .ok v =>
      match optionsParseAutoselectLoop (r.save.length + 1) r.save [v] with
      | .error e => .error e
      | .ok dimensions =>
        match dimensions with
        | [x, y, w, h] =>
          .ok { o with autoselect := 1, autoselectX := x, autoselectY := y,
                       autoselectW := w, autoselectH := h }
        | _ => .error .autoselectArguments
  else .error .autoselectFormat

/-! ## `options.c`: `--display`, `--thumb` -/

/-- Source: `optionsParseDisplay` (options.c:414-419); `strndup` is taken to
succeed. -/
def optionsParseDisplay (optarg : List Char) (o : ScrotOptions) : Except Failure ScrotOptions :=
  .ok { o with display := some (optarg.take MAX_DISPLAY_NAME) }

/-- Source: `optionsParseThumbnail` (options.c:421-450). After the first
`strtok` the argument is read again through `optarg`, which by then ends
where the first token ends. -/
def optionsParseThumbnail (optarg : List Char) (o : ScrotOptions) : Except Failure ScrotOptions :=
  if strchr optarg 'x' then
    let r1 := strtok optarg ['x']
    match optionsParseRequiredDecimal r1.token with
    | .error e => .error e
    | .ok w1 =>
      let o1 := { o with thumbWidth := w1 }
      let r2 := strtok r1.save ['x']
      match r2.token with
      | some tok =>
        match optionsParseRequiredDecimal (some r1.start) with
        | .error e => .error e
        | .ok w =>
          match optionsParseRequiredDecimal (some tok) with
          | .error e => .error e
          | .ok h =>
            let thumbWidth := if w < 0 then 1 else w
            let thumbHeight := if h < 0 then 1 else h
            .ok { o1 with thumbWidth := thumbWidth, thumbHeight := thumbHeight,
                          thumb := if thumbWidth = 0 ∧ thumbHeight = 0 then 0 else 1 }
      | none => .ok o1
  else
    match optionsParseRequiredDecimal (some optarg) with
    | .error e => .error e
    | .ok thumb =>
      .ok { o with thumb := if thumb < 1 then 1 else if thumb > 100 then 100 else thumb }

/-! ## Decimal numerals (specification side) -/

/-- The character of the decimal digit `d`. -/
def digitChar (d : Nat) : Char := Char.ofNat (48 + d)

/-- The optional sign of a numeral. -/
inductive Sign where
  | none
  | plus
  | minus
  deriving DecidableEq, Repr

/-- The characters of a sign. -/
def Sign.chars : Sign → List Char
  | .none => []
  | .plus => ['+']
  | .minus => ['-']

/-- The decimal numeral with the given sign and digits (most significant
digit first): the sign, if any, followed by the digit characters. -/
def numeral (sg : Sign) (ds : List Nat) : List Char :=
  sg.chars ++ ds.map digitChar

/-- The integer a decimal numeral denotes. -/
def numeralValue (sg : Sign) (ds : List Nat) : Int :=
  match sg with
  | .minus => - ((Nat.ofDigits 10 ds.reverse : Nat) : Int)
  | _ => ((Nat.ofDigits 10 ds.reverse : Nat) : Int)

/-- The digits of `n` in base 10, most significant first, `[0]` for 0; the
first argument bounds the number of digits. -/
def decimalDigits : Nat → Nat → List Nat
  | 0, _ => []
  | bound + 1, n => if n < 10 then [n] else decimalDigits bound (n / 10) ++ [n % 10]

/-- The decimal rendering of an integer, as `printf("%d")` gives it: a `-`
for a negative number, then the digits without leading zeros. -/
def decimal (z : Int) : List Char :=
  numeral (if z < 0 then .minus else .none) (decimalDigits (z.natAbs + 1) z.natAbs)

/-- A string begins with a decimal integer of value `v`: after white space,
if any, comes a decimal numeral that denotes `v`, and what follows the
numeral does not go on with a digit. -/
def beginsWithInteger (t : List Char) (v : Int) : Prop :=
  ∃ ws sg ds rest, (∀ c ∈ ws, isspace c = true) ∧ ds ≠ [] ∧ (∀ d ∈ ds, d < 10)
    ∧ (∀ c ∈ rest.head?, ¬ digitValue c < 10)
    ∧ t = ws ++ (numeral sg ds ++ rest) ∧ numeralValue sg ds = v

/-! ## Comma-separated suboptions (specification side) -/

/-- The pieces of a string between its commas: `a,b` has the pieces `a` and
`b`, `a,` the pieces `a` and the empty string, the empty string one empty
piece. -/
def commaPieces : List Char → List (List Char)
  | [] => [[]]
  | c :: cs =>
    if c = ',' then [] :: commaPieces cs
    else
      match commaPieces cs with
      | p :: ps => (c :: p) :: ps
      | [] => [[c]]

/-- The pieces of a string between its commas, an empty piece at the very
end left out. -/
def suboptions (arg : List Char) : List (List Char) :=
  if (commaPieces arg).getLast? = some [] then (commaPieces arg).dropLast else commaPieces arg

/-- The key of a suboption: its text up to the first `=`. -/
def suboptionKey (t : List Char) : List Char :=
  t.takeWhile (fun c => c ≠ '=')

/-- The value of a suboption: its text after the first `=`. -/
def suboptionValue (t : List Char) : List Char :=
  (t.dropWhile (fun c => c ≠ '=')).drop 1

/-- A suboption is ill-formed when its key is not one of `style`, `width`, `color`,
`opacity`, `mode`, or when it has such a key but no `=` or nothing after the
`=`. -/
def illFormed (t : List Char) : Prop :=
  suboptionKey t ∉ token ∨ (suboptionKey t ∈ token ∧ ('=' ∉ t ∨ suboptionValue t = []))

instance (t : List Char) : Decidable (illFormed t) := by
  unfold illFormed
  infer_instance

/-- The fields of a string: the non-empty pieces between its commas. -/
def fields (arg : List Char) : List (List Char) :=
  (commaPieces arg).filter (fun t => t ≠ [])

/-- The stores `dimensions[i++] = optionsParseRequiredDecimal(token)` for a
list of tokens in turn, from the values stored so far: what the loop of
`optionsParseAutoselect` comes to once the tokens are known. -/
def storeDimensions : List (List Char) → List Int → Except Failure (List Int)
  | [], dimensions => .ok dimensions
  | t :: ts, dimensions =>
    match optionsParseRequiredDecimal (some t) with
    | .error e => .error e
    | .ok v =>
      if 4 ≤ dimensions.length then .error .outOfBounds
      else storeDimensions ts (dimensions ++ [v])

/-! ## `--select` values (specification side) -/

/-- The text after the first `=` of a string. -/
def afterFirstEquals (arg : List Char) : List Char :=
  (arg.dropWhile (fun c => c ≠ '=')).drop 1

/-- The text after the last `=` of a string (the whole string when it has
none). -/
def afterLastEquals (arg : List Char) : List Char :=
  match strrchr arg '=' with
  | some k => arg.drop (k + 1)
  | none => arg

/-- A value names a selection mode: it begins with `capture`, `hide` or
`hole`. -/
def namesMode (value : List Char) : Prop :=
  "capture".toList <+: value ∨ "hide".toList <+: value ∨ "hole".toList <+: value

instance (value : List Char) : Decidable (namesMode value) := by
  unfold namesMode
  infer_instance

/-- The function `isdigit` of the C library: the character is one of `0` to `9`. -/
def isdigit (c : Char) : Bool :=
  decide (48 ≤ c.toNat ∧ c.toNat ≤ 57)

/-- A stored line mode names a mode when it is a string that begins with
`classic` or with `edge`. -/
def namesLineMode (lineMode : Option (List Char)) : Prop :=
  ∃ v, lineMode = some v ∧ ("classic".toList <+: v ∨ "edge".toList <+: v)

/-! ## Thumbnail names (specification side) -/

/-- The thumbnail name of a file name: `-thumb` inserted before the last `.`,
or appended when the name has no `.`. -/
def thumbnailName (name : List Char) : List Char :=
  match strrchr name '.' with
  | some k => name.take k ++ "-thumb".toList ++ name.drop k
  | none => name ++ "-thumb".toList

/-! ## `getopt_long` -/

/-- The field `has_arg` of `struct option` (getopt.h). -/
inductive HasArg where
  | no_argument
  | required_argument
  | optional_argument
  deriving DecidableEq, Repr

/-- An entry `struct option` of the table of long options; the field `flag` is 0 in
every entry of `lopts`, so `getopt_long` returns `val`. -/
structure LongOption where
  name : List Char
  has_arg : HasArg
  val : Char
  deriving DecidableEq, Repr

/-- What a call of `getopt_long` returns that is not `EOF`: the option
character (`?` for an error) and `optarg`. -/
structure GetoptReturn where
  optch : Char
  optarg : Option (List Char)
  deriving DecidableEq, Repr

/-- How `getopt` reads an option character in the option string: `none` when
the character is no option (not in the string, or `:` or `;`), otherwise
whether it takes an argument (`c:`), an optional one (`c::`) or none. -/
def shortHasArg : List Char → Char → Option HasArg
  | [], _ => none
  | o :: rest, c =>
    if c = ':' ∨ c = ';' then none
    else if o = c then
      match rest with
      | ':' :: ':' :: _ => some .optional_argument
      | ':' :: _ => some .required_argument
      | _ => some .no_argument
    else shortHasArg rest c

/-- How `getopt_long` finds a long option by name: an entry with exactly that
name if there is one; otherwise the entries the name abbreviates, which have
to agree in `has_arg` and `val` (else the name is ambiguous); `none` when the
name is unknown or ambiguous. -/
def findLong (longopts : List LongOption) (name : List Char) : Option LongOption :=
  match longopts.find? (fun p => p.name = name) with
  | some p => some p
  | none =>
    match longopts.filter (fun p => name <+: p.name) with
    | [] => none
    | p :: ps => if ps.all (fun q => q.has_arg = p.has_arg ∧ q.val = p.val) then some p else none

/-- The returns of `getopt_long` for one element `--body` of the argument
vector, and whether the element after it was taken as the argument. `body` is
`name` or `name=value`. -/
def scanLong (longopts : List LongOption) (body : List Char) (next : Option (List Char)) :
    GetoptReturn × Bool :=
  let name := body.takeWhile (fun c => c ≠ '=')
  let value := (body.dropWhile (fun c => c ≠ '=')).drop 1
  match findLong longopts name with
  | none => (⟨'?', none⟩, false)
  | some p =>
    match p.has_arg with
    | .no_argument => if '=' ∈ body then (⟨'?', none⟩, false) else (⟨p.val, none⟩, false)
    | .required_argument =>
      if '=' ∈ body then (⟨p.val, some value⟩, false)
      else
        match next with
        | some a => (⟨p.val, some a⟩, true)
        | none => (⟨'?', none⟩, false)
    | .optional_argument =>
      if '=' ∈ body then (⟨p.val, some value⟩, false) else (⟨p.val, none⟩, false)

/-- The returns of `getopt_long` for the option characters of one element
`-abc` of the argument vector (the characters after the `-`), and whether the
element after it was taken as the argument of the last one. -/
def scanShort (optstring : List Char) : List Char → Option (List Char) →
    List GetoptReturn × Bool
  | [], _ => ([], false)
  | c :: rest, next =>
    match shortHasArg optstring c with
    | none => (⟨'?', none⟩ :: (scanShort optstring rest next).1, (scanShort optstring rest next).2)
    | some .no_argument =>
      (⟨c, none⟩ :: (scanShort optstring rest next).1, (scanShort optstring rest next).2)
    | some .required_argument =>
      if rest ≠ [] then ([⟨c, some rest⟩], false)
      else
        match next with
        | some a => ([⟨c, some a⟩], true)
        | none => ([⟨'?', none⟩], false)
    | some .optional_argument =>
      if rest ≠ [] then ([⟨c, some rest⟩], false) else ([⟨c, none⟩], false)

/-- The function `getopt_long` of the GNU C library, called until it returns `EOF`, on the
elements of the argument vector after the program name: the sequence of its
returns, and the elements left at `argv[optind]` and after when it is done.
An element `--` ends the options; `--name...` is a long option; `-c...` with
a character after the `-` holds option characters; any other element is not
an option and is moved behind the options. The flag says that the element at
the head was taken as the argument of the option before it. -/
def getoptScan (optstring : List Char) (longopts : List LongOption) :
    Bool → List (List Char) → List GetoptReturn × List (List Char)
  | _, [] => ([], [])
  | true, _ :: rest => getoptScan optstring longopts false rest
  | false, arg :: rest =>
    if arg = ['-', '-'] then ([], rest)
    else
      match arg with
      | '-' :: '-' :: body =>
        let r := scanLong longopts body rest.head?
        (r.1 :: (getoptScan optstring longopts r.2 rest).1,
         (getoptScan optstring longopts r.2 rest).2)
      | '-' :: c :: cs =>
        let r := scanShort optstring (c :: cs) rest.head?
        (r.1 ++ (getoptScan optstring longopts r.2 rest).1,
         (getoptScan optstring longopts r.2 rest).2)
      | _ =>
        ((getoptScan optstring longopts false rest).1,
         arg :: (getoptScan optstring longopts false rest).2)

/-! ## `options.c`: `optionsParse` -/

/-- Source: `stropts` (options.c:230). -/
def stropts : List Char := "a:ofpbcd:e:hmq:s::t:uvw:zn:l:D:kC:S:".toList

/-- Source: `lopts` (options.c:232-260). -/
def lopts : List LongOption :=
  [⟨"help".toList, .no_argument, 'h'⟩,
   ⟨"version".toList, .no_argument, 'v'⟩,
   ⟨"count".toList, .no_argument, 'c'⟩,
   ⟨"focused".toList, .no_argument, 'u'⟩,
   ⟨"focussed".toList, .no_argument, 'u'⟩,
   ⟨"border".toList, .no_argument, 'b'⟩,
   ⟨"multidisp".toList, .no_argument, 'm'⟩,
   ⟨"silent".toList, .no_argument, 'z'⟩,
   ⟨"pointer".toList, .no_argument, 'p'⟩,
   ⟨"freeze".toList, .no_argument, 'f'⟩,
   ⟨"overwrite".toList, .no_argument, 'o'⟩,
   ⟨"stack".toList, .no_argument, 'k'⟩,
   ⟨"window".toList, .required_argument, 'w'⟩,
   ⟨"select".toList, .optional_argument, 's'⟩,
   ⟨"thumb".toList, .required_argument, 't'⟩,
   ⟨"delay".toList, .required_argument, 'd'⟩,
   ⟨"quality".toList, .required_argument, 'q'⟩,
   ⟨"exec".toList, .required_argument, 'e'⟩,
   ⟨"autoselect".toList, .required_argument, 'a'⟩,
   ⟨"display".toList, .required_argument, 'D'⟩,
   ⟨"note".toList, .required_argument, 'n'⟩,
   ⟨"line".toList, .required_argument, 'l'⟩,
   ⟨"class".toList, .required_argument, 'C'⟩,
   ⟨"script".toList, .required_argument, 'S'⟩]

/-- A handler that reads through `optarg` (`strdup(optarg)`, `strchr(optarg, ..)`): with
a `NULL` it would read outside any object. `getopt_long` never leaves `NULL`
for an option that requires an argument. -/
def withOptarg {α : Type} (optarg : Option (List Char)) (f : List Char → Except Failure α) :
    Except Failure α :=
  match optarg with
  | some a => f a
  | none => .error .outOfBounds

/-- Source: `optionsParseNote` (options.c:452-463). `strdup` is taken to
succeed. `scrotNoteNew` belongs to the note module, which is not among the
sources: it is a parameter that tells, for a note text, whether the call
returns (`none`) or ends the process; it does not touch `opt`. -/
def optionsParseNote (scrotNoteNew : List Char → Option Failure) (optarg : List Char)
    (o : ScrotOptions) : Except Failure ScrotOptions :=
  if optarg = [] then .error .noteRequired
  else
    match scrotNoteNew optarg with
    | some e => .error e
    | none => .ok { o with note := some optarg }

/-- Source: the `switch (optch)` of `optionsParse` (options.c:265-341), on
one return of `getopt_long`. `strdup` is taken to succeed. -/
def optionsParseSwitch (scrotNoteNew : List Char → Option Failure) (r : GetoptReturn)
    (o : ScrotOptions) : Except Failure ScrotOptions :=
  if r.optch = 'h' then .error .exitSuccess
  else if r.optch = 'v' then .error .exitSuccess
  else if r.optch = 'b' then .ok { o with border := 1 }
  else if r.optch = 'd' then
    match optionsParseRequiredDecimal r.optarg with
    | .error e => .error e
    | .ok n => .ok { o with delay := nonNegativeNumber n }
  else if r.optch = 'e' then withOptarg r.optarg (fun a => .ok { o with exec := some a })
  else if r.optch = 'm' then .ok { o with multidisp := 1 }
  else if r.optch = 'q' then
    match optionsParseRequiredDecimal r.optarg with
    | .error e => .error e
    | .ok n => .ok { o with quality := n }
  else if r.optch = 's' then optionsParseSelection r.optarg o
  else if r.optch = 'u' then .ok { o with focused := 1 }
  else if r.optch = 'c' then .ok { o with countdown := 1 }
  else if r.optch = 't' then withOptarg r.optarg (fun a => optionsParseThumbnail a o)
  else if r.optch = 'z' then .ok { o with silent := 1 }
  else if r.optch = 'p' then .ok { o with pointer := 1 }
  else if r.optch = 'f' then .ok { o with freeze := 1 }
  else if r.optch = 'o' then .ok { o with overwrite := 1 }
  else if r.optch = 'a' then withOptarg r.optarg (fun a => optionsParseAutoselect a o)
  else if r.optch = 'D' then withOptarg r.optarg (fun a => optionsParseDisplay a o)
  else if r.optch = 'n' then withOptarg r.optarg (fun a => optionsParseNote scrotNoteNew a o)
  else if r.optch = 'l' then withOptarg r.optarg (fun a => optionsParseLine a o)
  else if r.optch = 'k' then .ok { o with stack := 1 }
  else if r.optch = 'C' then optionsParseWindowClassName r.optarg o
  else if r.optch = 'S' then withOptarg r.optarg (fun a => .ok { o with script := some a })
  else if r.optch = 'w' then
    match optionsParseRequiredNumber r.optarg with
    | .error e => .error e
    | .ok n => .ok { o with window := n }
  else if r.optch = '?' then .error .unknownOption
  else .ok o

/-- Source: the loop `while ((optch = getopt_long(...)) != EOF)` of
`optionsParse` (options.c:264-342), over the returns of `getopt_long`. -/
def optionsParseOptions (scrotNoteNew : List Char → Option Failure) :
    List GetoptReturn → ScrotOptions → Except Failure ScrotOptions
  | [], o => .ok o
  | r :: rs, o =>
    match optionsParseSwitch scrotNoteNew r o with
    | .error e => .error e
    | .ok o1 => optionsParseOptions scrotNoteNew rs o1

/-- Source: the loop over the leftovers of `optionsParse` (options.c:345-359),
with the arguments `warnx` has reported so far. -/
def optionsParseLeftovers (heap : Option (Nat → Char)) :
    List (List Char) → ScrotOptions → List (List Char) →
      Except Failure (ScrotOptions × List (List Char))
  | [], o, warned => .ok (o, warned)
  | arg :: rest, o, warned =>
    match o.outputFile with
    | none =>
      if arg.length > MAX_OUTPUT_FILENAME then .error .filenameTooLong
      else if o.thumb ≠ 0 then
        match nameThumbnail heap arg with
        | .error e => .error e
        | .ok thumbFile =>
          optionsParseLeftovers heap rest
            { o with outputFile := some arg, thumbFile := some thumbFile } warned
      else optionsParseLeftovers heap rest { o with outputFile := some arg } warned
    | some _ => optionsParseLeftovers heap rest o (warned ++ [arg])

/-- Source: `optionsParse` (options.c:228-363). `argv` is the argument vector
with the program name at its head, `heap` what `malloc` will hand out; the
result is the configuration and the arguments reported as unrecognised.
Each call scans the vector from its first argument (`optind = 1` at the end
of the call before). -/
def optionsParse (heap : Option (Nat → Char)) (scrotNoteNew : List Char → Option Failure)
    (argv : List (List Char)) (o : ScrotOptions) :
    Except Failure (ScrotOptions × List (List Char)) :=
  match optionsParseOptions scrotNoteNew (getoptScan stropts lopts false (argv.drop 1)).1 o with
  | .error e => .error e
  | .ok o1 => optionsParseLeftovers heap (getoptScan stropts lopts false (argv.drop 1)).2 o1 []

/-! ## Last write wins (specification side) -/

/-- The rule for one field when the same arguments are parsed from two
configurations: either both runs end with the same value in the field (the
arguments supply it, and what was there before does not matter), or each run
ends with the value it started with (the arguments do not supply it). -/
def fieldRule {α : Type} (x y x2 y2 : α) : Prop :=
  x2 = y2 ∨ (x2 = x ∧ y2 = y)

/-- Last write wins, field by field: `c2` and `d2` are related to `c` and `d`
by `fieldRule` in every field other than `outputFile` and `thumbFile`. -/
structure LastWriteWins (c d c2 d2 : ScrotOptions) : Prop where
  delay : fieldRule c.delay d.delay c2.delay d2.delay
  countdown : fieldRule c.countdown d.countdown c2.countdown d2.countdown
  focused : fieldRule c.focused d.focused c2.focused d2.focused
  quality : fieldRule c.quality d.quality c2.quality d2.quality
  border : fieldRule c.border d.border c2.border d2.border
  silent : fieldRule c.silent d.silent c2.silent d2.silent
  multidisp : fieldRule c.multidisp d.multidisp c2.multidisp d2.multidisp
  thumb : fieldRule c.thumb d.thumb c2.thumb d2.thumb
  thumbWidth : fieldRule c.thumbWidth d.thumbWidth c2.thumbWidth d2.thumbWidth
  thumbHeight : fieldRule c.thumbHeight d.thumbHeight c2.thumbHeight d2.thumbHeight
  pointer : fieldRule c.pointer d.pointer c2.pointer d2.pointer
  freeze : fieldRule c.freeze d.freeze c2.freeze d2.freeze
  overwrite : fieldRule c.overwrite d.overwrite c2.overwrite d2.overwrite
  lineStyle : fieldRule c.lineStyle d.lineStyle c2.lineStyle d2.lineStyle
  lineWidth : fieldRule c.lineWidth d.lineWidth c2.lineWidth d2.lineWidth
  lineOpacity : fieldRule c.lineOpacity d.lineOpacity c2.lineOpacity d2.lineOpacity
  lineColor : fieldRule c.lineColor d.lineColor c2.lineColor d2.lineColor
  lineMode : fieldRule c.lineMode d.lineMode c2.lineMode d2.lineMode
  stack : fieldRule c.stack d.stack c2.stack d2.stack
  exec : fieldRule c.exec d.exec c2.exec d2.exec
  display : fieldRule c.display d.display c2.display d2.display
  note : fieldRule c.note d.note c2.note d2.note
  window : fieldRule c.window d.window c2.window d2.window
  windowClassName : fieldRule c.windowClassName d.windowClassName c2.windowClassName d2.windowClassName
  script : fieldRule c.script d.script c2.script d2.script
  autoselect : fieldRule c.autoselect d.autoselect c2.autoselect d2.autoselect
  autoselectX : fieldRule c.autoselectX d.autoselectX c2.autoselectX d2.autoselectX
  autoselectY : fieldRule c.autoselectY d.autoselectY c2.autoselectY d2.autoselectY
  autoselectW : fieldRule c.autoselectW d.autoselectW c2.autoselectW d2.autoselectW
  autoselectH : fieldRule c.autoselectH d.autoselectH c2.autoselectH d2.autoselectH
  select : fieldRule c.select d.select c2.select d2.select

/-- The relation `LastWriteWins` between two runs that, besides, leave `outputFile` and
`thumbFile` as they were. -/
def Overwrites (c d c2 d2 : ScrotOptions) : Prop :=
  LastWriteWins c d c2 d2 ∧ c2.outputFile = c.outputFile ∧ c2.thumbFile = c.thumbFile
    ∧ d2.outputFile = d.outputFile ∧ d2.thumbFile = d.thumbFile

/-! ## What the options supply (specification side) -/

/-- The fields of the configuration that the options store into: all of them
but `outputFile` and `thumbFile`. -/
inductive Field where
  | delay
  | countdown
  | focused
  | quality
  | border
  | silent
  | multidisp
  | thumb
  | thumbWidth
  | thumbHeight
  | pointer
  | freeze
  | overwrite
  | lineStyle
  | lineWidth
  | lineOpacity
  | lineColor
  | lineMode
  | stack
  | exec
  | display
  | note
  | window
  | windowClassName
  | script
  | autoselect
  | autoselectX
  | autoselectY
  | autoselectW
  | autoselectH
  | select
  deriving DecidableEq

/-- A field of the configuration together with a value for it. -/
inductive Assignment where
  | delay (v : Int)
  | countdown (v : Int)
  | focused (v : Int)
  | quality (v : Int)
  | border (v : Int)
  | silent (v : Int)
  | multidisp (v : Int)
  | thumb (v : Int)
  | thumbWidth (v : Int)
  | thumbHeight (v : Int)
  | pointer (v : Int)
  | freeze (v : Int)
  | overwrite (v : Int)
  | lineStyle (v : Int)
  | lineWidth (v : Int)
  | lineOpacity (v : Int)
  | lineColor (v : Option (List Char))
  | lineMode (v : Option (List Char))
  | stack (v : Int)
  | exec (v : Option (List Char))
  | display (v : Option (List Char))
  | note (v : Option (List Char))
  | window (v : Int)
  | windowClassName (v : Option (List Char))
  | script (v : Option (List Char))
  | autoselect (v : Int)
  | autoselectX (v : Int)
  | autoselectY (v : Int)
  | autoselectW (v : Int)
  | autoselectH (v : Int)
  | select (v : Option SelectionMode)

/-- The field an assignment is for. -/
def Assignment.field : Assignment → Field
  | .delay _ => .delay
  | .countdown _ => .countdown
  | .focused _ => .focused
  | .quality _ => .quality
  | .border _ => .border
  | .silent _ => .silent
  | .multidisp _ => .multidisp
  | .thumb _ => .thumb
  | .thumbWidth _ => .thumbWidth
  | .thumbHeight _ => .thumbHeight
  | .pointer _ => .pointer
  | .freeze _ => .freeze
  | .overwrite _ => .overwrite
  | .lineStyle _ => .lineStyle
  | .lineWidth _ => .lineWidth
  | .lineOpacity _ => .lineOpacity
  | .lineColor _ => .lineColor
  | .lineMode _ => .lineMode
  | .stack _ => .stack
  | .exec _ => .exec
  | .display _ => .display
  | .note _ => .note
  | .window _ => .window
  | .windowClassName _ => .windowClassName
  | .script _ => .script
  | .autoselect _ => .autoselect
  | .autoselectX _ => .autoselectX
  | .autoselectY _ => .autoselectY
  | .autoselectW _ => .autoselectW
  | .autoselectH _ => .autoselectH
  | .select _ => .select

/-- The configuration after an assignment: the field holds the value, every
other field is as before. -/
def Assignment.set : Assignment → ScrotOptions → ScrotOptions
  | .delay v, o => { o with delay := v }
  | .countdown v, o => { o with countdown := v }
  | .focused v, o => { o with focused := v }
  | .quality v, o => { o with quality := v }
  | .border v, o => { o with border := v }
  | .silent v, o => { o with silent := v }
  | .multidisp v, o => { o with multidisp := v }
  | .thumb v, o => { o with thumb := v }
  | .thumbWidth v, o => { o with thumbWidth := v }
  | .thumbHeight v, o => { o with thumbHeight := v }
  | .pointer v, o => { o with pointer := v }
  | .freeze v, o => { o with freeze := v }
  | .overwrite v, o => { o with overwrite := v }
  | .lineStyle v, o => { o with lineStyle := v }
  | .lineWidth v, o => { o with lineWidth := v }
  | .lineOpacity v, o => { o with lineOpacity := v }
  | .lineColor v, o => { o with lineColor := v }
  | .lineMode v, o => { o with lineMode := v }
  | .stack v, o => { o with stack := v }
  | .exec v, o => { o with exec := v }
  | .display v, o => { o with display := v }
  | .note v, o => { o with note := v }
  | .window v, o => { o with window := v }
  | .windowClassName v, o => { o with windowClassName := v }
  | .script v, o => { o with script := v }
  | .autoselect v, o => { o with autoselect := v }
  | .autoselectX v, o => { o with autoselectX := v }
  | .autoselectY v, o => { o with autoselectY := v }
  | .autoselectW v, o => { o with autoselectW := v }
  | .autoselectH v, o => { o with autoselectH := v }
  | .select v, o => { o with select := v }

/-- The field of the assignment holds its value in the configuration. -/
def Assignment.holds : Assignment → ScrotOptions → Prop
  | .delay v, o => o.delay = v
  | .countdown v, o => o.countdown = v
  | .focused v, o => o.focused = v
  | .quality v, o => o.quality = v
  | .border v, o => o.border = v
  | .silent v, o => o.silent = v
  | .multidisp v, o => o.multidisp = v
  | .thumb v, o => o.thumb = v
  | .thumbWidth v, o => o.thumbWidth = v
  | .thumbHeight v, o => o.thumbHeight = v
  | .pointer v, o => o.pointer = v
  | .freeze v, o => o.freeze = v
  | .overwrite v, o => o.overwrite = v
  | .lineStyle v, o => o.lineStyle = v
  | .lineWidth v, o => o.lineWidth = v
  | .lineOpacity v, o => o.lineOpacity = v
  | .lineColor v, o => o.lineColor = v
  | .lineMode v, o => o.lineMode = v
  | .stack v, o => o.stack = v
  | .exec v, o => o.exec = v
  | .display v, o => o.display = v
  | .note v, o => o.note = v
  | .window v, o => o.window = v
  | .windowClassName v, o => o.windowClassName = v
  | .script v, o => o.script = v
  | .autoselect v, o => o.autoselect = v
  | .autoselectX v, o => o.autoselectX = v
  | .autoselectY v, o => o.autoselectY = v
  | .autoselectW v, o => o.autoselectW = v
  | .autoselectH v, o => o.autoselectH = v
  | .select v, o => o.select = v

/-- The field has the same value in two configurations. -/
def Field.kept : Field → ScrotOptions → ScrotOptions → Prop
  | .delay, x, y => y.delay = x.delay
  | .countdown, x, y => y.countdown = x.countdown
  | .focused, x, y => y.focused = x.focused
  | .quality, x, y => y.quality = x.quality
  | .border, x, y => y.border = x.border
  | .silent, x, y => y.silent = x.silent
  | .multidisp, x, y => y.multidisp = x.multidisp
  | .thumb, x, y => y.thumb = x.thumb
  | .thumbWidth, x, y => y.thumbWidth = x.thumbWidth
  | .thumbHeight, x, y => y.thumbHeight = x.thumbHeight
  | .pointer, x, y => y.pointer = x.pointer
  | .freeze, x, y => y.freeze = x.freeze
  | .overwrite, x, y => y.overwrite = x.overwrite
  | .lineStyle, x, y => y.lineStyle = x.lineStyle
  | .lineWidth, x, y => y.lineWidth = x.lineWidth
  | .lineOpacity, x, y => y.lineOpacity = x.lineOpacity
  | .lineColor, x, y => y.lineColor = x.lineColor
  | .lineMode, x, y => y.lineMode = x.lineMode
  | .stack, x, y => y.stack = x.stack
  | .exec, x, y => y.exec = x.exec
  | .display, x, y => y.display = x.display
  | .note, x, y => y.note = x.note
  | .window, x, y => y.window = x.window
  | .windowClassName, x, y => y.windowClassName = x.windowClassName
  | .script, x, y => y.script = x.script
  | .autoselect, x, y => y.autoselect = x.autoselect
  | .autoselectX, x, y => y.autoselectX = x.autoselectX
  | .autoselectY, x, y => y.autoselectY = x.autoselectY
  | .autoselectW, x, y => y.autoselectW = x.autoselectW
  | .autoselectH, x, y => y.autoselectH = x.autoselectH
  | .select, x, y => y.select = x.select

/-- The configuration after a list of assignments, made in turn. -/
def assign (l : List Assignment) (o : ScrotOptions) : ScrotOptions :=
  l.foldl (fun x a => a.set x) o

/-- What one suboption `key=value` of `--line` supplies (spec §4.3): `style`
the line style its value names (`dash`, `solid`), `width` and `opacity` the
number the numeric parser reads from the value, `color` and `mode` the value
as it is written. -/
def suboptionSupplies (t : List Char) : List Assignment :=
  if suboptionKey t = "style".toList then
    if "dash".toList <+: suboptionValue t then [.lineStyle LineOnOffDash]
    else if "solid".toList <+: suboptionValue t then [.lineStyle LineSolid]
    else []
  else if suboptionKey t = "width".toList then
    match optionsParseRequiredDecimal (some (suboptionValue t)) with
    | .ok n => [.lineWidth n]
    | .error _ => []
  else if suboptionKey t = "color".toList then [.lineColor (some (suboptionValue t))]
  else if suboptionKey t = "opacity".toList then
    match optionsParseRequiredDecimal (some (suboptionValue t)) with
    | .ok n => [.lineOpacity n]
    | .error _ => []
  else if suboptionKey t = "mode".toList then [.lineMode (some (suboptionValue t))]
  else []

/-- What the argument of `--line` supplies: what the suboptions between its
commas supply, from left to right. -/
def lineSupplies (arg : List Char) : List Assignment :=
  (commaPieces arg).flatMap suboptionSupplies

/-- What the argument of `--select` supplies (spec §4.4): the mode `capture`
without an argument, otherwise the mode the value begins with, the value
being the text after the first `=` of the argument (the whole argument when
it has none). -/
def selectSupplies (optarg : Option (List Char)) : List Assignment :=
  match optarg with
  | none => [.select (some .capture)]
  | some arg =>
    if "capture".toList <+: (if '=' ∈ arg then afterFirstEquals arg else arg) then
      [.select (some .capture)]
    else if "hide".toList <+: (if '=' ∈ arg then afterFirstEquals arg else arg) then
      [.select (some .hide)]
    else if "hole".toList <+: (if '=' ∈ arg then afterFirstEquals arg else arg) then
      [.select (some .hole)]
    else []

/-- What the argument of `--thumb` supplies (spec §4.4). Without an `x`: the
percentage, brought into 1..100, in `thumb`. With an `x`, the first two texts
between the `x` being numbers `W` and `H`: `thumbWidth` and `thumbHeight`
(1 for a negative number) and `thumb` (0 when both are 0, otherwise 1); when
there is only one such text, `thumbWidth` alone. -/
def thumbSupplies (arg : List Char) : List Assignment :=
  if 'x' ∈ arg then
    match (strtok (strtok arg ['x']).save ['x']).token with
    | some tok =>
      match optionsParseRequiredDecimal (some (strtok arg ['x']).start),
        optionsParseRequiredDecimal (some tok) with
      | .ok w, .ok h =>
        [.thumbWidth (if w < 0 then 1 else w), .thumbHeight (if h < 0 then 1 else h),
         .thumb (if w = 0 ∧ h = 0 then 0 else 1)]
      | _, _ => []
    | none =>
      match optionsParseRequiredDecimal (strtok arg ['x']).token with
      | .ok w => [.thumbWidth w]
      | .error _ => []
  else
    match optionsParseRequiredDecimal (some arg) with
    | .ok p => [.thumb (max 1 (min p 100))]
    | .error _ => []

/-- What the argument of `--autoselect` supplies (spec §4.4): when its fields
are four numbers, the enabled flag and the four numbers. -/
def autoselectSupplies (arg : List Char) : List Assignment :=
  match (fields arg).map (fun t => optionsParseRequiredDecimal (some t)) with
  | [.ok x, .ok y, .ok w, .ok h] =>
    [.autoselect 1, .autoselectX x, .autoselectY y, .autoselectW w, .autoselectH h]
  | _ => []

/-- What one option of the command line supplies (spec §6, the column
"Effect", and §4.4): a flag the value 1 in its field; `-d`, `-q` and `-w` the
number the numeric parser reads from the argument (`-d`: not below 0; `-w`:
with base 0); `-e`, `-S` and `-n` the argument; `-D` its first 256
characters; `-C` its first 80 characters, nothing when it is empty; `-s`,
`-t`, `-a` and `-l` what their arguments supply. -/
def supplies (r : GetoptReturn) : List Assignment :=
  if r.optch = 'b' then [.border 1]
  else if r.optch = 'd' then
    match optionsParseRequiredDecimal r.optarg with
    | .ok n => [.delay (max n 0)]
    | .error _ => []
  else if r.optch = 'e' then [.exec r.optarg]
  else if r.optch = 'm' then [.multidisp 1]
  else if r.optch = 'q' then
    match optionsParseRequiredDecimal r.optarg with
    | .ok n => [.quality n]
    | .error _ => []
  else if r.optch = 's' then selectSupplies r.optarg
  else if r.optch = 'u' then [.focused 1]
  else if r.optch = 'c' then [.countdown 1]
  else if r.optch = 't' then thumbSupplies (r.optarg.getD [])
  else if r.optch = 'z' then [.silent 1]
  else if r.optch = 'p' then [.pointer 1]
  else if r.optch = 'f' then [.freeze 1]
  else if r.optch = 'o' then [.overwrite 1]
  else if r.optch = 'a' then autoselectSupplies (r.optarg.getD [])
  else if r.optch = 'D' then [.display (r.optarg.map (fun a => a.take 256))]
  else if r.optch = 'n' then [.note r.optarg]
  else if r.optch = 'l' then lineSupplies (r.optarg.getD [])
  else if r.optch = 'k' then [.stack 1]
  else if r.optch = 'C' then
    match r.optarg with
    | some name => if name ≠ [] then [.windowClassName (some (name.take 80))] else []
    | none => []
  else if r.optch = 'S' then [.script r.optarg]
  else if r.optch = 'w' then
    match optionsParseRequiredNumber r.optarg with
    | .ok n => [.window n]
    | .error _ => []
  else []

/-- What the options of an argument vector supply, in the order of the
vector: the assignments of the returns of `getopt_long`. -/
def vectorSupplies (argv : List (List Char)) : List Assignment :=
  (getoptScan stropts lopts false (argv.drop 1)).1.flatMap supplies

/-! ## Lemmas: digits and `strtol` -/

theorem digitChar_toNat {d : Nat} (h : d < 10) : (digitChar d).toNat = 48 + d := by
  interval_cases d <;> rfl

theorem digitValue_digitChar {d : Nat} (h : d < 10) : digitValue (digitChar d) = d := by
  interval_cases d <;> rfl

theorem isspace_digitChar {d : Nat} (h : d < 10) : isspace (digitChar d) = false := by
  interval_cases d <;> rfl

theorem digitChar_ne_of_toNat {d : Nat} (h : d < 10) {c : Char}
    (hc : c.toNat < 48 ∨ 57 < c.toNat) : digitChar d ≠ c := by
  intro he
  have := digitChar_toNat h
  rw [he] at this
  omega

theorem takeWhile_append_stop {α : Type} (p : α → Bool) (l rest : List α)
    (hl : ∀ x ∈ l, p x = true) (hr : ∀ x ∈ rest.head?, p x = false) :
    (l ++ rest).takeWhile p = l := by
  induction l with
  | nil =>
    cases rest with
    | nil => rfl
    | cons x xs => simp [List.takeWhile_cons, hr x (by simp)]
  | cons a l ih =>
    simp only [List.cons_append, List.takeWhile_cons, hl a (List.mem_cons_self _ _), if_true]
    rw [ih (fun x hx => hl x (List.mem_cons_of_mem _ hx))]

theorem dropWhile_append_stop {α : Type} (p : α → Bool) (l rest : List α)
    (hl : ∀ x ∈ l, p x = true) (hr : ∀ x ∈ rest.head?, p x = false) :
    (l ++ rest).dropWhile p = rest := by
  induction l with
  | nil =>
    cases rest with
    | nil => rfl
    | cons x xs => simp [List.dropWhile_cons, hr x (by simp)]
  | cons a l ih =>
    simp only [List.cons_append, List.dropWhile_cons, hl a (List.mem_cons_self _ _), if_true]
    exact ih (fun x hx => hl x (List.mem_cons_of_mem _ hx))

theorem foldl_digitChars (ds : List Nat) (hd : ∀ d ∈ ds, d < 10) (a : Nat) :
    (ds.map digitChar).foldl (fun a c => a * 10 + digitValue c) a
      = a * 10 ^ ds.length + Nat.ofDigits 10 ds.reverse := by
  induction ds generalizing a with
  | nil => simp
  | cons d ds ih =>
    have hd0 : d < 10 := hd d (List.mem_cons_self _ _)
    simp only [List.map_cons, List.foldl_cons, digitValue_digitChar hd0, List.reverse_cons,
      List.length_cons]
    rw [ih (fun x hx => hd x (List.mem_cons_of_mem _ hx)), Nat.ofDigits_append]
    simp only [List.length_reverse, Nat.ofDigits_singleton]
    ring

theorem takeWhile_digits (ds : List Nat) (rest : List Char) (hd : ∀ d ∈ ds, d < 10)
    (hr : ∀ c ∈ rest.head?, ¬ digitValue c < 10) :
    (ds.map digitChar ++ rest).takeWhile (fun c => decide (digitValue c < 10)) = ds.map digitChar := by
  apply takeWhile_append_stop
  · intro c hc
    obtain ⟨d, hdm, rfl⟩ := List.mem_map.1 hc
    simp [digitValue_digitChar (hd d hdm), hd d hdm]
  · intro c hc
    simpa using hr c hc

/-- The function `strtol` in base 10 on a string that starts with digits. -/
theorem strtol_digits (ds : List Nat) (rest : List Char) (hne : ds ≠ [])
    (hd : ∀ d ∈ ds, d < 10) (hr : ∀ c ∈ rest.head?, ¬ digitValue c < 10) :
    strtol (ds.map digitChar ++ rest) 10 =
      if ((Nat.ofDigits 10 ds.reverse : Nat) : Int) > LONG_MAX then ⟨LONG_MAX, ds.length, ERANGE⟩
      else ⟨((Nat.ofDigits 10 ds.reverse : Nat) : Int), ds.length, 0⟩ := by
  obtain ⟨d, ds1, rfl⟩ := List.exists_cons_of_ne_nil hne
  have hd0 : d < 10 := hd d (List.mem_cons_self _ _)
  have htw := takeWhile_digits (d :: ds1) rest hd hr
  have hfold := foldl_digitChars (d :: ds1) hd 0
  have hsp : isspace (digitChar d) = false := isspace_digitChar hd0
  have hm : digitChar d ≠ '-' := digitChar_ne_of_toNat hd0 (Or.inl (by decide))
  have hp : digitChar d ≠ '+' := digitChar_ne_of_toNat hd0 (Or.inl (by decide))
  have hsg : signLength (digitChar d :: (ds1.map digitChar ++ rest)) = 0 := by
    simp [signLength, hm, hp]
  have hws : (digitChar d :: (ds1.map digitChar ++ rest)).takeWhile isspace = [] := by
    simp [List.takeWhile_cons, hsp]
  simp only [List.map_cons, List.cons_append] at htw hfold ⊢
  simp only [strtol, strtolFrom, hws, List.length_nil, List.drop_zero, hsg]
  simp [htw, hfold, hm, LONG_MIN]
  split_ifs <;> first | rfl | omega

/-- The function `strtol` in base 10 on a decimal numeral followed by text that does not
start with a digit: the numeral is consumed, its value returned when it fits
a `long`. -/
theorem strtol_numeral (sg : Sign) (ds : List Nat) (rest : List Char) (hne : ds ≠ [])
    (hd : ∀ d ∈ ds, d < 10) (hr : ∀ c ∈ rest.head?, ¬ digitValue c < 10) :
    strtol (numeral sg ds ++ rest) 10 =
      if numeralValue sg ds > LONG_MAX then ⟨LONG_MAX, (numeral sg ds).length, ERANGE⟩
      else if numeralValue sg ds < LONG_MIN then ⟨LONG_MIN, (numeral sg ds).length, ERANGE⟩
      else ⟨numeralValue sg ds, (numeral sg ds).length, 0⟩ := by
  have htw := takeWhile_digits ds rest hd hr
  have hfold := foldl_digitChars ds hd 0
  have hlen : 0 < ds.length := List.length_pos.2 hne
  have hnil : ds.map digitChar ≠ [] := by simpa using hne
  cases sg with
  | none =>
    have h := strtol_digits ds rest hne hd hr
    simp only [numeral, Sign.chars, List.nil_append, numeralValue, List.length_map] at h ⊢
    rw [h]
    simp only [LONG_MIN, LONG_MAX]
    split_ifs <;> first | rfl | omega
  | plus =>
    have hws : ('+' :: (ds.map digitChar ++ rest)).takeWhile isspace = [] := by
      simp [List.takeWhile_cons, isspace]
    simp only [numeral, Sign.chars, List.cons_append, List.nil_append, numeralValue,
      List.length_cons, List.length_map]
    simp only [strtol, strtolFrom, hws, List.length_nil, List.drop_zero, signLength]
    simp [htw, hfold, hnil, LONG_MIN, LONG_MAX, Nat.add_comm 1]
  | minus =>
    have hws : ('-' :: (ds.map digitChar ++ rest)).takeWhile isspace = [] := by
      simp [List.takeWhile_cons, isspace]
    simp only [numeral, Sign.chars, List.cons_append, List.nil_append, numeralValue,
      List.length_cons, List.length_map]
    simp only [strtol, strtolFrom, hws, List.length_nil, List.drop_zero, signLength]
    simp [htw, hfold, hnil, LONG_MIN, LONG_MAX, Nat.add_comm 1]

/-- The decimal parser on a decimal numeral followed by text that does not
start with a digit. -/
theorem parse_numeral (sg : Sign) (ds : List Nat) (rest : List Char) (hne : ds ≠ [])
    (hd : ∀ d ∈ ds, d < 10) (hr : ∀ c ∈ rest.head?, ¬ digitValue c < 10) :
    optionsParseRequiredDecimal (some (numeral sg ds ++ rest)) =
      if INT_MIN ≤ numeralValue sg ds ∧ numeralValue sg ds ≤ INT_MAX then
        .ok (numeralValue sg ds)
      else .error .errorStrtol := by
  have hlen : (numeral sg ds).length ≠ 0 := by
    have : 0 < ds.length := List.length_pos.2 hne
    simp only [numeral, List.length_append, List.length_map]
    omega
  simp only [optionsParseRequiredDecimal, parseRequiredNumber, strtol_numeral sg ds rest hne hd hr]
  generalize numeralValue sg ds = v
  generalize (numeral sg ds).length = n at hlen
  simp only [LONG_MAX, LONG_MIN, INT_MAX, INT_MIN, ERANGE]
  split_ifs <;> simp_all <;> omega

theorem decimalDigits_spec (bound n : Nat) (h : n < bound) :
    decimalDigits bound n ≠ [] ∧ (∀ d ∈ decimalDigits bound n, d < 10)
      ∧ Nat.ofDigits 10 (decimalDigits bound n).reverse = n := by
  induction bound generalizing n with
  | zero => omega
  | succ b ih =>
    unfold decimalDigits
    split_ifs with h10
    · refine ⟨by simp, ?_, by simp⟩
      intro d hdm
      simp only [List.mem_singleton] at hdm
      omega
    · obtain ⟨_, h2, h3⟩ := ih (n / 10) (by omega)
      refine ⟨by simp, ?_, ?_⟩
      · intro d hdm
        rcases List.mem_append.1 hdm with hm | hm
        · exact h2 d hm
        · simp only [List.mem_singleton] at hm
          omega
      · simp only [List.reverse_append, List.reverse_singleton, List.singleton_append,
          Nat.ofDigits_cons, h3]
        omega

/-- The rendering of an integer is a decimal numeral that denotes it. -/
theorem decimal_spec (z : Int) :
    ∃ sg ds, decimal z = numeral sg ds ∧ ds ≠ [] ∧ (∀ d ∈ ds, d < 10) ∧ numeralValue sg ds = z := by
  obtain ⟨h1, h2, h3⟩ := decimalDigits_spec (z.natAbs + 1) z.natAbs (by omega)
  refine ⟨_, _, rfl, h1, h2, ?_⟩
  split_ifs with hz
  · simp only [numeralValue, h3]
    omega
  · simp only [numeralValue, h3]
    omega

/-- The decimal parser on the rendering of a 32-bit integer, followed by text
that does not start with a digit, returns that integer. -/
theorem parse_decimal (z : Int) (rest : List Char) (hz : INT_MIN ≤ z ∧ z ≤ INT_MAX)
    (hr : ∀ c ∈ rest.head?, ¬ digitValue c < 10) :
    optionsParseRequiredDecimal (some (decimal z ++ rest)) = .ok z := by
  obtain ⟨sg, ds, he, hne, hd, hv⟩ := decimal_spec z
  rw [he, parse_numeral sg ds rest hne hd hr, hv, if_pos hz]

/-- A numeral holds sign and digit characters only. -/
theorem numeral_chars (sg : Sign) (ds : List Nat) (hd : ∀ d ∈ ds, d < 10) :
    ∀ c ∈ numeral sg ds, c = '+' ∨ c = '-' ∨ (48 ≤ c.toNat ∧ c.toNat ≤ 57) := by
  intro c hc
  rcases List.mem_append.1 hc with h | h
  · cases sg <;> simp [Sign.chars] at h <;> simp [h]
  · obtain ⟨d, hdm, rfl⟩ := List.mem_map.1 h
    have hlt := hd d hdm
    have := digitChar_toNat hlt
    right; right
    omega

theorem numeral_ne_nil (sg : Sign) (ds : List Nat) (hne : ds ≠ []) : numeral sg ds ≠ [] := by
  simp [numeral, hne]

theorem decimal_chars (z : Int) :
    ∀ c ∈ decimal z, c = '+' ∨ c = '-' ∨ (48 ≤ c.toNat ∧ c.toNat ≤ 57) := by
  obtain ⟨sg, ds, he, _, hd, _⟩ := decimal_spec z
  rw [he]
  exact numeral_chars sg ds hd

theorem decimal_ne_nil (z : Int) : decimal z ≠ [] := by
  obtain ⟨sg, ds, he, hne, _, _⟩ := decimal_spec z
  rw [he]
  exact numeral_ne_nil sg ds hne

/-- A character that is neither a sign nor a decimal digit does not occur in
a numeral. -/
theorem not_mem_numeral (sg : Sign) (ds : List Nat) (hd : ∀ d ∈ ds, d < 10) (c : Char)
    (h1 : c ≠ '+') (h2 : c ≠ '-') (h3 : c.toNat < 48 ∨ 57 < c.toNat) : c ∉ numeral sg ds := by
  intro hc
  rcases numeral_chars sg ds hd c hc with h | h | h
  · exact h1 h
  · exact h2 h
  · omega

theorem not_mem_decimal (z : Int) (c : Char)
    (h1 : c ≠ '+') (h2 : c ≠ '-') (h3 : c.toNat < 48 ∨ 57 < c.toNat) : c ∉ decimal z := by
  intro hc
  rcases decimal_chars z c hc with h | h | h
  · exact h1 h
  · exact h2 h
  · omega

/-! ## Lemmas: which strings the decimal parser accepts -/

theorem takeWhile_append_all {α : Type} (p : α → Bool) (l x : List α)
    (hl : ∀ a ∈ l, p a = true) : (l ++ x).takeWhile p = l ++ x.takeWhile p := by
  induction l with
  | nil => rfl
  | cons a l ih =>
    simp only [List.cons_append, List.takeWhile_cons, hl a (List.mem_cons_self _ _), if_true]
    rw [ih (fun b hb => hl b (List.mem_cons_of_mem _ hb))]

theorem strtol_result_offset (v : Int) (w1 w2 a b n : Nat) (hn : 0 < n) :
    (if v > LONG_MAX then (⟨LONG_MAX, w1 + a + b + n, ERANGE⟩ : StrtolResult)
      else if v < LONG_MIN then ⟨LONG_MIN, w1 + a + b + n, ERANGE⟩
      else ⟨v, w1 + a + b + n, 0⟩).ret
      = (if v > LONG_MAX then (⟨LONG_MAX, w2 + a + b + n, ERANGE⟩ : StrtolResult)
          else if v < LONG_MIN then ⟨LONG_MIN, w2 + a + b + n, ERANGE⟩
          else ⟨v, w2 + a + b + n, 0⟩).ret
    ∧ (if v > LONG_MAX then (⟨LONG_MAX, w1 + a + b + n, ERANGE⟩ : StrtolResult)
        else if v < LONG_MIN then ⟨LONG_MIN, w1 + a + b + n, ERANGE⟩
        else ⟨v, w1 + a + b + n, 0⟩).errno
      = (if v > LONG_MAX then (⟨LONG_MAX, w2 + a + b + n, ERANGE⟩ : StrtolResult)
          else if v < LONG_MIN then ⟨LONG_MIN, w2 + a + b + n, ERANGE⟩
          else ⟨v, w2 + a + b + n, 0⟩).errno
    ∧ ((if v > LONG_MAX then (⟨LONG_MAX, w1 + a + b + n, ERANGE⟩ : StrtolResult)
        else if v < LONG_MIN then ⟨LONG_MIN, w1 + a + b + n, ERANGE⟩
        else ⟨v, w1 + a + b + n, 0⟩).endOffset = 0
      ↔ (if v > LONG_MAX then (⟨LONG_MAX, w2 + a + b + n, ERANGE⟩ : StrtolResult)
          else if v < LONG_MIN then ⟨LONG_MIN, w2 + a + b + n, ERANGE⟩
          else ⟨v, w2 + a + b + n, 0⟩).endOffset = 0) := by
  split_ifs <;> refine ⟨rfl, rfl, ?_⟩ <;> constructor <;> intro h <;>
    simp only [] at h <;> omega

theorem strtolFrom_offset (s1 : List Char) (base w1 w2 : Nat) :
    (strtolFrom s1 base w1).ret = (strtolFrom s1 base w2).ret
    ∧ (strtolFrom s1 base w1).errno = (strtolFrom s1 base w2).errno
    ∧ ((strtolFrom s1 base w1).endOffset = 0 ↔ (strtolFrom s1 base w2).endOffset = 0) := by
  unfold strtolFrom
  dsimp only
  generalize (List.drop _ (List.drop (signLength s1) s1)).takeWhile _ = ds
  by_cases hds : ds = []
  · simp [hds]
  · have hl : 0 < ds.length := List.length_pos.2 hds
    simp only [hds, if_false]
    exact strtol_result_offset _ w1 w2 _ _ _ hl

/-- Leading white space changes nothing in what `strtol` returns, and nothing
in whether it converts anything. -/
theorem strtol_whitespace (ws x : List Char) (base : Nat) (hws : ∀ c ∈ ws, isspace c = true) :
    (strtol (ws ++ x) base).ret = (strtol x base).ret
    ∧ (strtol (ws ++ x) base).errno = (strtol x base).errno
    ∧ ((strtol (ws ++ x) base).endOffset = 0 ↔ (strtol x base).endOffset = 0) := by
  have h1 : (ws ++ x).takeWhile isspace = ws ++ x.takeWhile isspace :=
    takeWhile_append_all isspace ws x hws
  have h2 : (ws ++ x).drop (ws ++ x.takeWhile isspace).length
      = x.drop (x.takeWhile isspace).length := by
    rw [List.length_append, List.drop_append]
  unfold strtol
  rw [h1, h2]
  split_ifs
  · exact ⟨rfl, rfl, Iff.rfl⟩
  · exact strtolFrom_offset _ base _ _

theorem parse_whitespace (ws x : List Char) (base : Nat) (hws : ∀ c ∈ ws, isspace c = true) :
    parseRequiredNumber (some (ws ++ x)) base = parseRequiredNumber (some x) base := by
  obtain ⟨h1, h2, h3⟩ := strtol_whitespace ws x base hws
  simp only [parseRequiredNumber, h1, h2]
  by_cases h0 : (strtol x base).endOffset = 0
  · simp [h0, h3.2 h0]
  · have h4 : ¬ (strtol (ws ++ x) base).endOffset = 0 := fun h => h0 (h3.1 h)
    simp [h0, h4]

/-- The decimal parser returns the value of the integer a string begins with,
when that value fits an `int`. -/
theorem parse_beginsWithInteger (t : List Char) (v : Int) (h : beginsWithInteger t v) :
    optionsParseRequiredDecimal (some t) =
      if INT_MIN ≤ v ∧ v ≤ INT_MAX then .ok v else .error .errorStrtol := by
  obtain ⟨ws, sg, ds, rest, hws, hne, hd, hr, rfl, rfl⟩ := h
  unfold optionsParseRequiredDecimal
  rw [parse_whitespace ws _ 10 hws]
  exact parse_numeral sg ds rest hne hd hr

theorem char_eq_digitChar (c : Char) (h : digitValue c < 10) : c = digitChar (c.toNat - 48) := by
  have hc : 48 ≤ c.toNat ∧ c.toNat ≤ 57 := by
    unfold digitValue at h
    split_ifs at h with h1 h2 h3
    · exact h1
    · omega
    · omega
    · omega
  unfold digitChar
  have : 48 + (c.toNat - 48) = c.toNat := by omega
  rw [this, Char.ofNat_toNat]

theorem digitValue_lt_ten (c : Char) (h : digitValue c < 10) : c.toNat - 48 < 10 := by
  unfold digitValue at h
  split_ifs at h <;> omega

/-- A non-empty run of decimal digit characters at the head of a string is a
numeral without sign. -/
theorem digits_of_takeWhile (s : List Char) :
    ∃ ds : List Nat, (∀ d ∈ ds, d < 10)
      ∧ s.takeWhile (fun c => decide (digitValue c < 10)) = ds.map digitChar := by
  refine ⟨(s.takeWhile (fun c => decide (digitValue c < 10))).map (fun c => c.toNat - 48), ?_, ?_⟩
  · intro d hd
    obtain ⟨c, hc, rfl⟩ := List.mem_map.1 hd
    have := List.mem_takeWhile_imp hc
    exact digitValue_lt_ten c (by simpa using this)
  · rw [List.map_map]
    conv_lhs => rw [← List.map_id (s.takeWhile (fun c => decide (digitValue c < 10)))]
    apply List.map_congr_left
    intro c hc
    have := List.mem_takeWhile_imp hc
    simpa using char_eq_digitChar c (by simpa using this)

theorem strtol_no_digits (x : List Char) (hsp : x.takeWhile isspace = [])
    (hnd : (x.drop (signLength x)).takeWhile (fun c => decide (digitValue c < 10)) = []) :
    strtol x 10 = ⟨0, 0, 0⟩ := by
  unfold strtol strtolFrom
  simp [hsp, hnd]

theorem sign_split (x : List Char) : ∃ sg : Sign, x = sg.chars ++ x.drop (signLength x) := by
  cases x with
  | nil => exact ⟨.none, rfl⟩
  | cons c cs =>
    by_cases hm : c = '-'
    · exact ⟨.minus, by simp [signLength, hm, Sign.chars]⟩
    · by_cases hp : c = '+'
      · exact ⟨.plus, by simp [signLength, hp, Sign.chars]⟩
      · exact ⟨.none, by simp [signLength, hm, hp, Sign.chars]⟩

/-- What the decimal parser accepts begins with a decimal integer that fits
an `int`, and the parser returns its value. -/
theorem beginsWithInteger_of_parse (t : List Char) (v : Int)
    (h : optionsParseRequiredDecimal (some t) = .ok v) :
    beginsWithInteger t v ∧ INT_MIN ≤ v ∧ v ≤ INT_MAX := by
  have ht := List.takeWhile_append_dropWhile isspace t
  have hws : ∀ c ∈ t.takeWhile isspace, isspace c = true :=
    fun c hc => List.mem_takeWhile_imp hc
  have hx : (t.dropWhile isspace).takeWhile isspace = [] := by
    cases hd : t.dropWhile isspace with
    | nil => rfl
    | cons c cs =>
      have := List.head_dropWhile_not isspace t (by rw [hd]; simp)
      simp only [hd, List.head_cons] at this
      simp [List.takeWhile_cons, this]
  generalize t.dropWhile isspace = x at ht hx
  generalize t.takeWhile isspace = ws at ht hws
  subst ht
  unfold optionsParseRequiredDecimal at h
  rw [parse_whitespace ws x 10 hws] at h
  obtain ⟨sg, hsg⟩ := sign_split x
  obtain ⟨dl, hdl, hds⟩ := digits_of_takeWhile (x.drop (signLength x))
  have hsplit := List.takeWhile_append_dropWhile (fun c => decide (digitValue c < 10))
    (x.drop (signLength x))
  by_cases hnil : dl = []
  · rw [hnil] at hds
    simp only [List.map_nil] at hds
    simp [parseRequiredNumber, strtol_no_digits x hx hds] at h
  · have hrest : ∀ c ∈ ((x.drop (signLength x)).dropWhile
        (fun c => decide (digitValue c < 10))).head?, ¬ digitValue c < 10 := by
      intro c hc
      cases hd : (x.drop (signLength x)).dropWhile (fun c => decide (digitValue c < 10)) with
      | nil => rw [hd] at hc; simp at hc
      | cons a as =>
        have := List.head_dropWhile_not (fun c => decide (digitValue c < 10))
          (x.drop (signLength x)) (by rw [hd]; simp)
        simp only [hd, List.head_cons] at this
        rw [hd] at hc
        simp only [List.head?_cons, Option.mem_def, Option.some.injEq] at hc
        rw [← hc]
        simpa using this
    rw [hds] at hsplit
    have hxe : x = numeral sg dl ++ (x.drop (signLength x)).dropWhile
        (fun c => decide (digitValue c < 10)) := by
      rw [numeral, List.append_assoc, hsplit]
      exact hsg
    have hp := parse_numeral sg dl _ hnil hdl hrest
    rw [← hxe] at hp
    unfold optionsParseRequiredDecimal at hp
    rw [hp] at h
    split_ifs at h with hr
    simp only [Except.ok.injEq] at h
    exact ⟨⟨ws, sg, dl, _, hws, hnil, hdl, hrest, by rw [← hxe], h⟩, h ▸ hr⟩

/-- The decimal parser accepts a string exactly when the string begins with a
decimal integer that fits an `int`, whose value it then returns. -/
theorem parse_ok_iff (t : List Char) (v : Int) :
    optionsParseRequiredDecimal (some t) = .ok v
      ↔ beginsWithInteger t v ∧ INT_MIN ≤ v ∧ v ≤ INT_MAX := by
  constructor
  · exact beginsWithInteger_of_parse t v
  · rintro ⟨h1, h2⟩
    rw [parse_beginsWithInteger t v h1, if_pos h2]

/-! ## Lemmas: `getsubopt` and the loop of `optionsParseLine` -/

theorem length_dropWhile_drop_lt {α : Type} (p : α → Bool) (s : List α) (h : s ≠ []) :
    ((s.dropWhile p).drop 1).length < s.length := by
  have h1 : (s.dropWhile p).length ≤ s.length := (List.dropWhile_sublist p).length_le
  have h2 : 0 < s.length := List.length_pos.2 h
  rw [List.length_drop]
  omega

theorem getsubopt_length (s : List Char) (t : List (List Char)) (v : Option (List Char))
    (h : s ≠ []) : (getsubopt s t v).subopts.length < s.length := by
  unfold getsubopt
  rw [if_neg h]
  dsimp only
  split <;> exact length_dropWhile_drop_lt _ s h

theorem getsubopt_value_irrelevant (s : List Char) (t : List (List Char))
    (v w : Option (List Char)) (h : s ≠ []) : getsubopt s t v = getsubopt s t w := by
  unfold getsubopt
  rw [if_neg h, if_neg h]

theorem optionsParseLineLoop_nil (b : Nat) (v : Option (List Char)) (o : ScrotOptions) :
    optionsParseLineLoop b [] v o = .ok o := by
  cases b <;> simp [optionsParseLineLoop]

theorem optionsParseLineLoop_succ (b : Nat) (s : List Char) (v : Option (List Char))
    (o : ScrotOptions) (h : s ≠ []) :
    optionsParseLineLoop (b + 1) s v o =
      match optionsParseLineCase (getsubopt s token v).index (getsubopt s token v).value o with
      | .error e => .error e
      | .ok o1 =>
        optionsParseLineLoop b (getsubopt s token v).subopts (getsubopt s token v).value o1 := by
  rw [optionsParseLineLoop, if_neg h]

/-- The loop does not depend on its bound, once the bound covers the length
of the string, nor on the value `value` holds on entry. -/
theorem optionsParseLineLoop_bound (b1 : Nat) :
    ∀ (b2 : Nat) (s : List Char) (v w : Option (List Char)) (o : ScrotOptions),
      s.length ≤ b1 → s.length ≤ b2 →
      optionsParseLineLoop b1 s v o = optionsParseLineLoop b2 s w o := by
  induction b1 with
  | zero =>
    intro b2 s v w o h1 _
    have hs : s = [] := List.length_eq_zero.1 (by omega)
    subst hs
    rw [optionsParseLineLoop_nil, optionsParseLineLoop_nil]
  | succ b ih =>
    intro b2 s v w o h1 h2
    by_cases hs : s = []
    · subst hs
      rw [optionsParseLineLoop_nil, optionsParseLineLoop_nil]
    · cases b2 with
      | zero =>
        exact absurd (List.length_eq_zero.1 (by omega)) hs
      | succ c =>
        have hl := getsubopt_length s token w hs
        rw [optionsParseLineLoop_succ b s v o hs, optionsParseLineLoop_succ c s w o hs,
          getsubopt_value_irrelevant s token v w hs]
        cases optionsParseLineCase (getsubopt s token w).index (getsubopt s token w).value o with
        | error e => rfl
        | ok o1 => exact ih c _ _ _ o1 (by omega) (by omega)

theorem optionsParseLine_nil (o : ScrotOptions) : optionsParseLine [] o = .ok o := by
  simp [optionsParseLine, optionsParseLineLoop_nil]

/-- One turn of the loop of `optionsParseLine`: the first suboption is
handled, then the rest of the string is parsed. -/
theorem optionsParseLine_step (s : List Char) (o : ScrotOptions) (h : s ≠ []) :
    optionsParseLine s o =
      match optionsParseLineCase (getsubopt s token none).index
          (getsubopt s token none).value o with
      | .error e => .error e
      | .ok o1 => optionsParseLine (getsubopt s token none).subopts o1 := by
  have hl := getsubopt_length s token none h
  obtain ⟨n, hn⟩ : ∃ n, s.length = n + 1 :=
    ⟨s.length - 1, by have := List.length_pos.2 h; omega⟩
  unfold optionsParseLine
  rw [hn, optionsParseLineLoop_succ n s none o h]
  cases optionsParseLineCase (getsubopt s token none).index (getsubopt s token none).value o with
  | error e => rfl
  | ok o1 => exact optionsParseLineLoop_bound n _ _ _ _ o1 (by omega) (by omega)

/-- The outcome of `getsubopt` on a suboption `name=value` whose name is the
token of index `i`, followed by the end of the string or by a comma. -/
theorem getsubopt_name_value (i : Nat) (name value rest : List Char)
    (hi : matchToken token name = some i) (hn : '=' ∉ name) (hc1 : ',' ∉ name)
    (hc2 : ',' ∉ value) (more : Bool) :
    getsubopt (name ++ '=' :: value ++ (if more then ',' :: rest else [])) token none
      = ⟨some i, some value, if more then rest else []⟩ := by
  have hsub : ∀ x ∈ name ++ '=' :: value, (fun c => decide (c ≠ ',')) x = true := by
    intro x hx
    have : x ≠ ',' := by
      rintro rfl
      rcases List.mem_append.1 hx with h | h
      · exact hc1 h
      · rcases List.mem_cons.1 h with h | h
        · exact absurd h (by decide)
        · exact hc2 h
    simpa using this
  have hstop : ∀ x ∈ (if more then ',' :: rest else []).head?,
      (fun c => decide (c ≠ ',')) x = false := by
    intro x hx
    cases more <;> simp at hx
    simp [← hx]
  have htake := takeWhile_append_stop _ _ _ hsub hstop
  have hdrop := dropWhile_append_stop _ _ _ hsub hstop
  have hname : (name ++ '=' :: value).takeWhile (fun c => decide (c ≠ '=')) = name :=
    takeWhile_append_stop _ name ('=' :: value)
      (fun x hx => by
        have : x ≠ '=' := fun he => hn (he ▸ hx)
        simpa using this)
      (fun x hx => by simp at hx; simp [← hx])
  have hval : (name ++ '=' :: value).dropWhile (fun c => decide (c ≠ '=')) = '=' :: value :=
    dropWhile_append_stop _ name ('=' :: value)
      (fun x hx => by
        have : x ≠ '=' := fun he => hn (he ▸ hx)
        simpa using this)
      (fun x hx => by simp at hx; simp [← hx])
  have hne : name ++ '=' :: value ++ (if more then ',' :: rest else []) ≠ [] := by simp
  unfold getsubopt
  rw [if_neg hne]
  simp only [htake, hdrop, hname, hval, hi]
  cases more <;> simp

/-- One turn of `optionsParseLine` on a string that starts with the suboption
`name=value`, `name` being the token of index `i`. -/
theorem optionsParseLine_name_value (i : Nat) (name value rest : List Char)
    (hi : matchToken token name = some i) (hn : '=' ∉ name) (hc1 : ',' ∉ name)
    (hc2 : ',' ∉ value) (more : Bool) (o : ScrotOptions) :
    optionsParseLine (name ++ '=' :: value ++ (if more then ',' :: rest else [])) o =
      match optionsParseLineCase (some i) (some value) o with
      | .error e => .error e
      | .ok o1 => optionsParseLine (if more then rest else []) o1 := by
  rw [optionsParseLine_step _ o (by simp),
    getsubopt_name_value i name value rest hi hn hc1 hc2 more]

/-- One turn of `optionsParseLine` on `name=value,rest`. -/
theorem optionsParseLine_comma (i : Nat) (name value rest : List Char)
    (hi : matchToken token name = some i) (hn : '=' ∉ name) (hc1 : ',' ∉ name)
    (hc2 : ',' ∉ value) (o : ScrotOptions) :
    optionsParseLine (name ++ '=' :: value ++ ',' :: rest) o =
      match optionsParseLineCase (some i) (some value) o with
      | .error e => .error e
      | .ok o1 => optionsParseLine rest o1 :=
  optionsParseLine_name_value i name value rest hi hn hc1 hc2 true o

/-- The last turn of `optionsParseLine`, on `name=value`. -/
theorem optionsParseLine_last (i : Nat) (name value : List Char)
    (hi : matchToken token name = some i) (hn : '=' ∉ name) (hc1 : ',' ∉ name)
    (hc2 : ',' ∉ value) (o : ScrotOptions) :
    optionsParseLine (name ++ '=' :: value) o = optionsParseLineCase (some i) (some value) o := by
  have h := optionsParseLine_name_value i name value [] hi hn hc1 hc2 false o
  simp only [Bool.false_eq_true, if_false, List.append_nil] at h
  rw [h]
  cases optionsParseLineCase (some i) (some value) o with
  | error e => rfl
  | ok o1 => exact optionsParseLine_nil o1

/-- The `width` case on a numeral. -/
theorem optionsParseLineCase_width (sg : Sign) (ds : List Nat) (hne : ds ≠ [])
    (hd : ∀ d ∈ ds, d < 10)
    (hv : INT_MIN ≤ numeralValue sg ds ∧ numeralValue sg ds ≤ INT_MAX) (o : ScrotOptions) :
    optionsParseLineCase (some 1) (some (numeral sg ds)) o =
      if numeralValue sg ds ≤ 0 ∨ numeralValue sg ds > 8 then .error .widthRange
      else .ok { o with lineWidth := numeralValue sg ds } := by
  have h := parse_numeral sg ds [] hne hd (by simp)
  rw [List.append_nil, if_pos hv] at h
  simp only [optionsParseLineCase, optionsParseIsString, h]
  simp [numeral_ne_nil sg ds hne]

/-- The `opacity` case on a numeral. -/
theorem optionsParseLineCase_opacity (sg : Sign) (ds : List Nat) (hne : ds ≠ [])
    (hd : ∀ d ∈ ds, d < 10)
    (hv : INT_MIN ≤ numeralValue sg ds ∧ numeralValue sg ds ≤ INT_MAX) (o : ScrotOptions) :
    optionsParseLineCase (some 3) (some (numeral sg ds)) o =
      .ok { o with lineOpacity := numeralValue sg ds } := by
  have h := parse_numeral sg ds [] hne hd (by simp)
  rw [List.append_nil, if_pos hv] at h
  simp only [optionsParseLineCase, optionsParseIsString, h]
  simp [numeral_ne_nil sg ds hne]

theorem optionsParseLineCase_style_dash (o : ScrotOptions) :
    optionsParseLineCase (some 0) (some "dash".toList) o = .ok { o with lineStyle := LineOnOffDash } := by
  simp [optionsParseLineCase, optionsParseIsString, strncmp]

/-! ## Lemmas: suboptions -/

theorem commaPieces_ne_nil (s : List Char) : commaPieces s ≠ [] := by
  cases s with
  | nil => simp [commaPieces]
  | cons c cs =>
    unfold commaPieces
    split_ifs
    · simp
    · split <;> simp

theorem commaPieces_no_comma (p : List Char) (h : ',' ∉ p) : commaPieces p = [p] := by
  induction p with
  | nil => rfl
  | cons c cs ih =>
    have hc : c ≠ ',' := fun he => h (he ▸ List.mem_cons_self _ _)
    have hcs : ',' ∉ cs := fun hm => h (List.mem_cons_of_mem _ hm)
    rw [commaPieces, if_neg hc, ih hcs]

theorem commaPieces_comma (p rest : List Char) (h : ',' ∉ p) :
    commaPieces (p ++ ',' :: rest) = p :: commaPieces rest := by
  induction p with
  | nil => simp [commaPieces]
  | cons c cs ih =>
    have hc : c ≠ ',' := fun he => h (he ▸ List.mem_cons_self _ _)
    have hcs : ',' ∉ cs := fun hm => h (List.mem_cons_of_mem _ hm)
    rw [List.cons_append, commaPieces, if_neg hc, ih hcs]

theorem takeWhile_no_comma (s : List Char) : ',' ∉ s.takeWhile (fun c => decide (c ≠ ',')) := by
  intro h
  have := List.mem_takeWhile_imp h
  simp at this

theorem dropWhile_comma_cases (s : List Char) :
    s.dropWhile (fun c => decide (c ≠ ',')) = []
      ∨ ∃ rest, s.dropWhile (fun c => decide (c ≠ ',')) = ',' :: rest := by
  cases h : s.dropWhile (fun c => decide (c ≠ ',')) with
  | nil => exact Or.inl rfl
  | cons c rest =>
    right
    have := List.head_dropWhile_not (fun c => decide (c ≠ ',')) s (by rw [h]; simp)
    simp only [h, List.head_cons] at this
    have hc : c = ',' := by simpa using this
    exact ⟨rest, by rw [hc]⟩

/-- The suboptions of a non-empty string: the text up to the first comma,
then the suboptions of what follows that comma. -/
theorem suboptions_step (s : List Char) (h : s ≠ []) :
    suboptions s = s.takeWhile (fun c => decide (c ≠ ','))
      :: suboptions ((s.dropWhile (fun c => decide (c ≠ ','))).drop 1) := by
  have hsplit := List.takeWhile_append_dropWhile (fun c => decide (c ≠ ',')) s
  have hno := takeWhile_no_comma s
  rcases dropWhile_comma_cases s with hd | ⟨rest, hd⟩
  · rw [hd] at hsplit ⊢
    rw [List.append_nil] at hsplit
    rw [hsplit] at hno ⊢
    have hs : (some s = some []) = False := by simp [h]
    simp [suboptions, commaPieces_no_comma s hno, commaPieces, hs]
  · rw [hd] at hsplit ⊢
    have hne := commaPieces_ne_nil rest
    conv_lhs => rw [← hsplit]
    simp only [suboptions, commaPieces_comma _ rest hno, List.drop_one, List.tail_cons]
    obtain ⟨q, qs, hq⟩ := List.exists_cons_of_ne_nil hne
    rw [hq]
    simp only [List.getLast?_cons_cons, List.dropLast_cons₂]
    split_ifs <;> rfl

theorem matchToken_isSome_iff (ts : List (List Char)) (name : List Char) :
    (∃ i, matchToken ts name = some i) ↔ name ∈ ts := by
  induction ts with
  | nil => simp [matchToken]
  | cons t ts ih =>
    by_cases hb : name = t
    · simp [matchToken, hb]
    · simp only [matchToken, hb, if_false, List.mem_cons, false_or, Option.map_eq_some']
      rw [← ih]
      constructor
      · rintro ⟨_, k, hk, _⟩
        exact ⟨k, hk⟩
      · rintro ⟨k, hk⟩
        exact ⟨k + 1, k, hk, rfl⟩

theorem matchToken_token_lt (name : List Char) (i : Nat) (h : matchToken token name = some i) :
    i < 5 := by
  simp only [token, matchToken] at h
  split_ifs at h <;> simp at h <;> omega

/-! ## Lemmas: the failures of `optionsParseLine` -/

theorem parseRequiredNumber_some_error (v : List Char) (b : Nat) (e : Failure)
    (h : parseRequiredNumber (some v) b = .error e) : e = .errorStrtol ∨ e = .notANumber := by
  simp only [parseRequiredNumber] at h
  split_ifs at h <;> simp at h <;> simp [← h]

theorem parseRequiredNumber_error_fatal (v : List Char) (b : Nat) (e : Failure)
    (h : parseRequiredNumber (some v) b = .error e) : e.isFatal = true := by
  rcases parseRequiredNumber_some_error v b e h with rfl | rfl <;> rfl

/-- Every failure of the `switch` of `optionsParseLine` is a fatal error. -/
theorem optionsParseLineCase_error_fatal (index : Option Nat) (value : Option (List Char))
    (o : ScrotOptions) (e : Failure) (h : optionsParseLineCase index value o = .error e) :
    e.isFatal = true := by
  cases value with
  | none =>
    unfold optionsParseLineCase at h
    split at h <;> simp [optionsParseIsString] at h <;> simp [← h, Failure.isFatal]
  | some v =>
    unfold optionsParseLineCase at h
    split at h
    all_goals try dsimp only at h
    all_goals try split_ifs at h
    all_goals try first
      | (simp at h; done)
      | (simp at h; simp [← h, Failure.isFatal]; done)
    all_goals
      cases hp : optionsParseRequiredDecimal (some v) with
      | error e1 =>
        rw [hp] at h
        simp only [Except.error.injEq] at h
        rw [← h]
        exact parseRequiredNumber_error_fatal v 10 e1 hp
      | ok w =>
        rw [hp] at h
        simp only at h
        try split_ifs at h
        all_goals first
          | (simp at h; done)
          | (simp at h; simp [← h, Failure.isFatal])

/-- The `switch` of `optionsParseLine` only succeeds on the index of a token
and a value that is present and not empty. -/
theorem optionsParseLineCase_ok (index : Option Nat) (value : Option (List Char))
    (o o1 : ScrotOptions) (h : optionsParseLineCase index value o = .ok o1) :
    (∃ i, index = some i) ∧ ∃ v, value = some v ∧ v ≠ [] := by
  cases value with
  | none =>
    unfold optionsParseLineCase at h
    split at h <;> simp [optionsParseIsString] at h
  | some v =>
    have hv : v ≠ [] := by
      intro hv
      subst hv
      unfold optionsParseLineCase at h
      split at h <;> simp [optionsParseIsString] at h
    refine ⟨?_, v, rfl, hv⟩
    cases index with
    | none => simp [optionsParseLineCase] at h
    | some i => exact ⟨i, rfl⟩

/-- What `getsubopt` returns on a non-empty string, in terms of its first
suboption. -/
theorem getsubopt_spec (s : List Char) (h : s ≠ []) :
    (getsubopt s token none).index
        = matchToken token (suboptionKey (s.takeWhile (fun c => decide (c ≠ ','))))
    ∧ (getsubopt s token none).subopts = (s.dropWhile (fun c => decide (c ≠ ','))).drop 1
    ∧ ((∃ i, (getsubopt s token none).index = some i) →
        (getsubopt s token none).value
          = if '=' ∈ s.takeWhile (fun c => decide (c ≠ ',')) then
              some (suboptionValue (s.takeWhile (fun c => decide (c ≠ ','))))
            else none) := by
  unfold getsubopt
  rw [if_neg h]
  simp only [suboptionKey, suboptionValue]
  cases hm : matchToken token
      (List.takeWhile (fun c => decide (c ≠ '=')) (List.takeWhile (fun c => decide (c ≠ ',')) s)) with
  | none => simp
  | some i => simp

/-- Every failure of `optionsParseLine` is a fatal error. -/
theorem optionsParseLine_error_fatal (n : Nat) :
    ∀ (s : List Char) (o : ScrotOptions) (e : Failure), s.length ≤ n →
      optionsParseLine s o = .error e → e.isFatal = true := by
  induction n with
  | zero =>
    intro s o e hl h
    have hs : s = [] := List.length_eq_zero.1 (by omega)
    subst hs
    simp [optionsParseLine_nil] at h
  | succ n ih =>
    intro s o e hl h
    by_cases hs : s = []
    · subst hs
      simp [optionsParseLine_nil] at h
    · rw [optionsParseLine_step s o hs] at h
      have hlen := getsubopt_length s token none hs
      cases hc : optionsParseLineCase (getsubopt s token none).index
          (getsubopt s token none).value o with
      | error e1 =>
        rw [hc] at h
        simp only [Except.error.injEq] at h
        rw [← h]
        exact optionsParseLineCase_error_fatal _ _ o e1 hc
      | ok o1 =>
        rw [hc] at h
        exact ih _ o1 e (by omega) h

/-- When `optionsParseLine` succeeds, no suboption of its argument is
ill-formed. -/
theorem optionsParseLine_ok_wellFormed (n : Nat) :
    ∀ (s : List Char) (o o2 : ScrotOptions), s.length ≤ n →
      optionsParseLine s o = .ok o2 → ∀ t ∈ suboptions s, ¬ illFormed t := by
  induction n with
  | zero =>
    intro s o o2 hl _ t ht
    have hs : s = [] := List.length_eq_zero.1 (by omega)
    subst hs
    simp [suboptions, commaPieces] at ht
  | succ n ih =>
    intro s o o2 hl h t ht
    by_cases hs : s = []
    · subst hs
      simp [suboptions, commaPieces] at ht
    · rw [optionsParseLine_step s o hs] at h
      have hlen := getsubopt_length s token none hs
      obtain ⟨hidx, hsub, hval⟩ := getsubopt_spec s hs
      cases hc : optionsParseLineCase (getsubopt s token none).index
          (getsubopt s token none).value o with
      | error e1 =>
        rw [hc] at h
        simp at h
      | ok o1 =>
        rw [hc] at h
        simp only at h
        rw [suboptions_step s hs] at ht
        rcases List.mem_cons.1 ht with rfl | ht
        · obtain ⟨⟨i, hi⟩, v, hv, hvne⟩ := optionsParseLineCase_ok _ _ o o1 hc
          have hkey : suboptionKey (s.takeWhile (fun c => decide (c ≠ ','))) ∈ token :=
            (matchToken_isSome_iff token _).1 ⟨i, by rw [← hidx, hi]⟩
          rw [hval ⟨i, hi⟩] at hv
          rintro (hbad | ⟨_, hbad | hbad⟩)
          · exact hbad hkey
          · rw [if_neg hbad] at hv
            simp at hv
          · split_ifs at hv
            · simp only [Option.some.injEq] at hv
              exact hvne (hv ▸ hbad)
        · rw [← hsub] at ht
          exact ih _ o1 o2 (by omega) h t ht

/-! ## Lemmas: `strtok` and `optionsParseAutoselect` -/

theorem fields_nil : fields [] = [] := by
  simp [fields, commaPieces]

theorem fields_comma (rest : List Char) : fields (',' :: rest) = fields rest := by
  simp [fields, commaPieces]

theorem fields_dropWhile_comma (s : List Char) :
    fields (s.dropWhile (fun c => decide (c ∈ [','])))  = fields s := by
  induction s with
  | nil => rfl
  | cons c cs ih =>
    by_cases hc : c = ','
    · subst hc
      simp only [List.dropWhile_cons, List.mem_singleton, decide_True, if_true, fields_comma]
      simpa using ih
    · simp [List.dropWhile_cons, hc]

theorem delim_comma_eq :
    (fun c => decide (c ∉ [','])) = (fun c : Char => decide (c ≠ ',')) := by
  funext c
  simp

/-- The token `strtok` returns is the first field of the string, and the
position it saves leaves the remaining fields. -/
theorem strtok_fields (s : List Char) :
    match fields s with
    | [] => (strtok s [',']).token = none
    | t :: ts => (strtok s [',']).token = some t ∧ fields (strtok s [',']).save = ts
        ∧ (strtok s [',']).save.length < s.length := by
  have hf := fields_dropWhile_comma s
  have hlen : (s.dropWhile (fun c => decide (c ∈ [',']))).length ≤ s.length :=
    (List.dropWhile_sublist _).length_le
  have hhead : ∀ c cs, s.dropWhile (fun c => decide (c ∈ [','])) = c :: cs → c ≠ ',' := by
    intro c cs h
    have := List.head_dropWhile_not (fun c => decide (c ∈ [','])) s (by rw [h]; simp)
    simp only [h, List.head_cons] at this
    simpa using this
  unfold strtok
  generalize s.dropWhile (fun c => decide (c ∈ [','])) = s1 at hf hlen hhead
  rw [← hf]
  by_cases h1 : s1 = []
  · subst h1
    simp [fields_nil]
  · rw [if_neg h1, delim_comma_eq]
    have hsplit := List.takeWhile_append_dropWhile (fun c => decide (c ≠ ',')) s1
    have hno := takeWhile_no_comma s1
    have hl2 := length_dropWhile_drop_lt (fun c => decide (c ≠ ',')) s1 h1
    have htne : s1.takeWhile (fun c => decide (c ≠ ',')) ≠ [] := by
      obtain ⟨c, cs, rfl⟩ := List.exists_cons_of_ne_nil h1
      have hc : c ≠ ',' := hhead c cs rfl
      simp [List.takeWhile_cons, hc]
    rcases dropWhile_comma_cases s1 with hd | ⟨rest, hd⟩
    · rw [hd] at hsplit ⊢
      rw [List.append_nil] at hsplit
      rw [hsplit] at hno htne ⊢
      have hlen1 : 0 < s1.length := List.length_pos.2 h1
      simp only [fields, commaPieces_no_comma s1 hno, List.drop_nil, commaPieces]
      rw [List.filter_cons_of_pos (by simpa using htne)]
      simp
      omega
    · rw [hd] at hsplit hl2 ⊢
      have hcp := commaPieces_comma _ rest hno
      rw [hsplit] at hcp
      simp only [List.drop_one, List.tail_cons] at hl2 ⊢
      simp only [fields, hcp]
      rw [List.filter_cons_of_pos (by simpa using htne)]
      simp only [true_and]
      omega

/-- The loop of `optionsParseAutoselect` stores the remaining fields in turn;
its bound is never reached. -/
theorem optionsParseAutoselectLoop_fields (b : Nat) :
    ∀ (save : List Char) (dims : List Int), save.length < b →
      optionsParseAutoselectLoop b save dims = storeDimensions (fields save) dims := by
  induction b with
  | zero => intro save dims h; omega
  | succ b ih =>
    intro save dims h
    have hs := strtok_fields save
    rw [optionsParseAutoselectLoop]
    cases hf : fields save with
    | nil =>
      rw [hf] at hs
      simp only at hs
      simp [hs, storeDimensions]
    | cons t ts =>
      rw [hf] at hs
      obtain ⟨h1, h2, h3⟩ := hs
      simp only [h1, storeDimensions]
      cases optionsParseRequiredDecimal (some t) with
      | error e => rfl
      | ok v =>
        simp only
        split_ifs
        · rfl
        · rw [ih _ _ (by omega), h2]

/-- The handler `optionsParseAutoselect` in terms of the fields of its argument. -/
theorem optionsParseAutoselect_fields (arg : List Char) (o : ScrotOptions) :
    optionsParseAutoselect arg o =
      if ',' ∈ arg then
        match fields arg with
        | [] => .error .assertion
        | t :: ts =>
          match optionsParseRequiredDecimal (some t) with
          | .error e => .error e
          | .ok v =>
            match storeDimensions ts [v] with
            | .error e => .error e
            | .ok dimensions =>
              match dimensions with
              | [x, y, w, h] =>
                .ok { o with autoselect := 1, autoselectX := x, autoselectY := y,
                             autoselectW := w, autoselectH := h }
              | _ => .error .autoselectArguments
      else .error .autoselectFormat := by
  unfold optionsParseAutoselect
  by_cases hc : ',' ∈ arg
  · simp only [strchr, hc, decide_True, if_true]
    have hs := strtok_fields arg
    cases hf : fields arg with
    | nil =>
      rw [hf] at hs
      simp only at hs
      simp [hs, optionsParseRequiredDecimal, parseRequiredNumber]
    | cons t ts =>
      rw [hf] at hs
      obtain ⟨h1, h2, h3⟩ := hs
      simp only [h1]
      cases optionsParseRequiredDecimal (some t) with
      | error e => rfl
      | ok v =>
        simp only
        rw [optionsParseAutoselectLoop_fields _ _ _ (by omega), h2]
  · simp [strchr, hc]

theorem storeDimensions_ok (ts : List (List Char)) :
    ∀ (dims out : List Int), storeDimensions ts dims = .ok out →
      out.length = dims.length + ts.length
        ∧ ∀ t ∈ ts, ∃ v, optionsParseRequiredDecimal (some t) = .ok v := by
  induction ts with
  | nil =>
    intro dims out h
    simp only [storeDimensions, Except.ok.injEq] at h
    simp [h]
  | cons t ts ih =>
    intro dims out h
    rw [storeDimensions] at h
    cases hp : optionsParseRequiredDecimal (some t) with
    | error e => rw [hp] at h; simp at h
    | ok v =>
      rw [hp] at h
      simp only at h
      split_ifs at h
      obtain ⟨h1, h2⟩ := ih _ _ h
      refine ⟨by simp at h1 ⊢; omega, ?_⟩
      intro u hu
      rcases List.mem_cons.1 hu with rfl | hu
      · exact ⟨v, hp⟩
      · exact h2 u hu

theorem storeDimensions_error_fatal (ts : List (List Char)) :
    ∀ (dims : List Int) (e : Failure), storeDimensions ts dims = .error e →
      dims.length + ts.length ≤ 4 → e.isFatal = true := by
  induction ts with
  | nil =>
    intro dims e h
    simp [storeDimensions] at h
  | cons t ts ih =>
    intro dims e h hl
    rw [storeDimensions] at h
    cases hp : optionsParseRequiredDecimal (some t) with
    | error e1 =>
      rw [hp] at h
      simp only [Except.error.injEq] at h
      rw [← h]
      exact parseRequiredNumber_error_fatal t 10 e1 hp
    | ok v =>
      rw [hp] at h
      simp only at h
      simp only [List.length_cons] at hl
      rw [if_neg (by omega)] at h
      exact ih _ e h (by simp; omega)

theorem parse_decimal_exact (z : Int) (hz : -2147483648 ≤ z ∧ z ≤ 2147483647) :
    optionsParseRequiredDecimal (some (decimal z)) = .ok z := by
  have h := parse_decimal z [] (by simpa [INT_MIN, INT_MAX] using hz) (by simp)
  rwa [List.append_nil] at h

theorem comma_not_mem_decimal (z : Int) : ',' ∉ decimal z :=
  not_mem_decimal z ',' (by decide) (by decide) (Or.inl (by decide))

theorem fields_four (a b c d : List Char) (ha : ',' ∉ a) (hb : ',' ∉ b) (hc : ',' ∉ c)
    (hd : ',' ∉ d) (ha0 : a ≠ []) (hb0 : b ≠ []) (hc0 : c ≠ []) (hd0 : d ≠ []) :
    fields (a ++ ',' :: (b ++ ',' :: (c ++ ',' :: d))) = [a, b, c, d] := by
  simp [fields, commaPieces_comma _ _ ha, commaPieces_comma _ _ hb, commaPieces_comma _ _ hc,
    commaPieces_no_comma _ hd, ha0, hb0, hc0, hd0]

/-! ## Lemmas: `strtok` on one delimiter, `strncmp` -/

theorem strtok_token_delim (d : Char) (a b : List Char) (ha : d ∉ a) (ha0 : a ≠ []) :
    strtok (a ++ d :: b) [d] = ⟨some a, b, a⟩ := by
  obtain ⟨c, cs, rfl⟩ := List.exists_cons_of_ne_nil ha0
  have hc : c ≠ d := fun he => ha (he ▸ List.mem_cons_self _ _)
  have hin : ∀ x ∈ c :: cs, (fun c => decide (c ∉ [d])) x = true := by
    intro x hx
    have : x ≠ d := fun he => ha (he ▸ hx)
    simpa using this
  have hstop : ∀ x ∈ (d :: b).head?, (fun c => decide (c ∉ [d])) x = false := by
    intro x hx
    simp at hx
    simp [← hx]
  have h1 : ((c :: cs) ++ d :: b).dropWhile (fun c => decide (c ∈ [d])) = (c :: cs) ++ d :: b := by
    simp [List.dropWhile_cons, hc]
  have h2 : ((c :: cs) ++ d :: b).takeWhile (fun c => decide (c ∈ [d])) = [] := by
    simp [List.takeWhile_cons, hc]
  have h3 := takeWhile_append_stop _ (c :: cs) (d :: b) hin hstop
  have h4 := dropWhile_append_stop _ (c :: cs) (d :: b) hin hstop
  unfold strtok
  simp only [h1, h2, h3, h4]
  simp

theorem strtok_token_end (d : Char) (a : List Char) (ha : d ∉ a) (ha0 : a ≠ []) :
    strtok a [d] = ⟨some a, [], a⟩ := by
  obtain ⟨c, cs, rfl⟩ := List.exists_cons_of_ne_nil ha0
  have hc : c ≠ d := fun he => ha (he ▸ List.mem_cons_self _ _)
  have hin : ∀ x ∈ c :: cs, (fun c => decide (c ∉ [d])) x = true := by
    intro x hx
    have : x ≠ d := fun he => ha (he ▸ hx)
    simpa using this
  have h1 : (c :: cs).dropWhile (fun c => decide (c ∈ [d])) = c :: cs := by
    simp [List.dropWhile_cons, hc]
  have h2 : (c :: cs).takeWhile (fun c => decide (c ∈ [d])) = [] := by
    simp [List.takeWhile_cons, hc]
  have h3 := takeWhile_append_stop _ (c :: cs) [] hin (by simp)
  have h4 := dropWhile_append_stop _ (c :: cs) [] hin (by simp)
  rw [List.append_nil] at h3 h4
  unfold strtok
  simp only [h1, h2, h3, h4]
  simp

theorem strncmp_eq_zero_iff (n : Nat) :
    ∀ (a b : List Char), strncmp a b n = 0 ↔ a.take n = b.take n := by
  induction n with
  | zero => intro a b; simp [strncmp]
  | succ n ih =>
    intro a b
    cases a with
    | nil => cases b <;> simp [strncmp]
    | cons x xs =>
      cases b with
      | nil => simp [strncmp]
      | cons y ys =>
        by_cases hxy : x = y
        · simp [strncmp, hxy, ih]
        · simp only [strncmp, hxy, if_false, List.take_succ_cons, List.cons.injEq, false_and,
            iff_false]
          split_ifs <;> decide

/-- A comparison `!strncmp(value, word, strlen(word))` tests whether `value` begins with
`word`. -/
theorem strncmp_word (value word : List Char) :
    strncmp value word word.length = 0 ↔ word <+: value := by
  rw [strncmp_eq_zero_iff, List.take_length, List.prefix_iff_eq_take]
  exact eq_comm

/-! ## Lemmas: `optionsParseSelection` -/

theorem capture_excludes_hide (v : List Char) (h1 : "capture".toList <+: v) :
    ¬ "hide".toList <+: v := by
  intro h2
  have a1 := List.prefix_iff_eq_take.1 h1
  have a2 := List.prefix_iff_eq_take.1 h2
  have e7 : "capture".toList.length = 7 := rfl
  have e4 : "hide".toList.length = 4 := rfl
  rw [e7] at a1
  rw [e4] at a2
  have : (v.take 7).take 4 = v.take 4 := by rw [List.take_take]; rfl
  rw [← a1, ← a2] at this
  exact absurd this (by decide)

theorem capture_excludes_hole (v : List Char) (h1 : "capture".toList <+: v) :
    ¬ "hole".toList <+: v := by
  intro h2
  have a1 := List.prefix_iff_eq_take.1 h1
  have a2 := List.prefix_iff_eq_take.1 h2
  have e7 : "capture".toList.length = 7 := rfl
  have e4 : "hole".toList.length = 4 := rfl
  rw [e7] at a1
  rw [e4] at a2
  have : (v.take 7).take 4 = v.take 4 := by rw [List.take_take]; rfl
  rw [← a1, ← a2] at this
  exact absurd this (by decide)

theorem hide_excludes_hole (v : List Char) (h1 : "hide".toList <+: v) :
    ¬ "hole".toList <+: v := by
  intro h2
  have a1 := List.prefix_iff_eq_take.1 h1
  have a2 := List.prefix_iff_eq_take.1 h2
  have e4a : "hide".toList.length = 4 := rfl
  have e4b : "hole".toList.length = 4 := rfl
  rw [e4a] at a1
  rw [e4b] at a2
  rw [← a2] at a1
  exact absurd a1 (by decide)

/-- The handler `optionsParseSelection` on an argument with an `=`: the text after the
first `=` decides. -/
theorem optionsParseSelection_equals (arg : List Char) (o : ScrotOptions) (h : '=' ∈ arg) :
    optionsParseSelection (some arg) o =
      if "capture".toList <+: afterFirstEquals arg then .ok { o with select := some .capture }
      else if "hide".toList <+: afterFirstEquals arg then .ok { o with select := some .hide }
      else if "hole".toList <+: afterFirstEquals arg then .ok { o with select := some .hole }
      else .error .selectUnknownValue := by
  have h7 := strncmp_word (afterFirstEquals arg) "capture".toList
  have h4a := strncmp_word (afterFirstEquals arg) "hide".toList
  have h4b := strncmp_word (afterFirstEquals arg) "hole".toList
  have e7 : "capture".toList.length = 7 := rfl
  have e4a : "hide".toList.length = 4 := rfl
  have e4b : "hole".toList.length = 4 := rfl
  rw [e7] at h7
  rw [e4a] at h4a
  rw [e4b] at h4b
  unfold afterFirstEquals at h7 h4a h4b ⊢
  simp only [optionsParseSelection, strchr, h, decide_True, if_true, h7, h4a, h4b]

/-! ## Lemmas: `optionsParseThumbnail` -/

theorem x_not_mem_decimal (z : Int) : 'x' ∉ decimal z :=
  not_mem_decimal z 'x' (by decide) (by decide) (Or.inr (by decide))

/-- The handler `optionsParseThumbnail` on `<W>x<H>` for 32-bit `W` and `H`. -/
theorem optionsParseThumbnail_geometry (W H : Int) (o : ScrotOptions)
    (hW : -2147483648 ≤ W ∧ W ≤ 2147483647) (hH : -2147483648 ≤ H ∧ H ≤ 2147483647) :
    optionsParseThumbnail (decimal W ++ 'x' :: decimal H) o
      = .ok { o with thumbWidth := if W < 0 then 1 else W,
                     thumbHeight := if H < 0 then 1 else H,
                     thumb := if (if W < 0 then 1 else W) = 0 ∧ (if H < 0 then 1 else H) = 0
                              then 0 else 1 } := by
  simp [optionsParseThumbnail, strchr,
    strtok_token_delim 'x' _ _ (x_not_mem_decimal W) (decimal_ne_nil W),
    strtok_token_end 'x' _ (x_not_mem_decimal H) (decimal_ne_nil H),
    parse_decimal_exact W hW, parse_decimal_exact H hH]

/-! ## Lemmas: strings without a number -/

theorem digitValue_lt_ten_iff (c : Char) : digitValue c < 10 ↔ isdigit c = true := by
  simp only [digitValue, isdigit, decide_eq_true_eq]
  split_ifs <;> omega

/-- A string that does not begin with a decimal integer is refused by the
decimal parser as "not a number". -/
theorem parse_notANumber (t : List Char) (h : ¬ ∃ v, beginsWithInteger t v) :
    optionsParseRequiredDecimal (some t) = .error .notANumber := by
  have ht := List.takeWhile_append_dropWhile isspace t
  have hws : ∀ c ∈ t.takeWhile isspace, isspace c = true :=
    fun c hc => List.mem_takeWhile_imp hc
  have hx : (t.dropWhile isspace).takeWhile isspace = [] := by
    cases hd : t.dropWhile isspace with
    | nil => rfl
    | cons c cs =>
      have := List.head_dropWhile_not isspace t (by rw [hd]; simp)
      simp only [hd, List.head_cons] at this
      simp [List.takeWhile_cons, this]
  generalize t.dropWhile isspace = x at ht hx
  generalize t.takeWhile isspace = ws at ht hws
  subst ht
  unfold optionsParseRequiredDecimal
  rw [parse_whitespace ws x 10 hws]
  obtain ⟨sg, hsg⟩ := sign_split x
  obtain ⟨dl, hdl, hds⟩ := digits_of_takeWhile (x.drop (signLength x))
  have hsplit := List.takeWhile_append_dropWhile (fun c => decide (digitValue c < 10))
    (x.drop (signLength x))
  by_cases hnil : dl = []
  · rw [hnil] at hds
    simp only [List.map_nil] at hds
    simp [parseRequiredNumber, strtol_no_digits x hx hds]
  · exfalso
    apply h
    have hrest : ∀ c ∈ ((x.drop (signLength x)).dropWhile
        (fun c => decide (digitValue c < 10))).head?, ¬ digitValue c < 10 := by
      intro c hc
      cases hd : (x.drop (signLength x)).dropWhile (fun c => decide (digitValue c < 10)) with
      | nil => rw [hd] at hc; simp at hc
      | cons a as =>
        have := List.head_dropWhile_not (fun c => decide (digitValue c < 10))
          (x.drop (signLength x)) (by rw [hd]; simp)
        simp only [hd, List.head_cons] at this
        rw [hd] at hc
        simp only [List.head?_cons, Option.mem_def, Option.some.injEq] at hc
        rw [← hc]
        simpa using this
    rw [hds] at hsplit
    have hxe : x = numeral sg dl ++ (x.drop (signLength x)).dropWhile
        (fun c => decide (digitValue c < 10)) := by
      rw [numeral, List.append_assoc, hsplit]
      exact hsg
    exact ⟨numeralValue sg dl, ws, sg, dl, _, hws, hnil, hdl, hrest, by rw [← hxe], rfl⟩

/-! ## Lemmas: `optionsParseLine` on two lists in a row, and the stored mode -/

/-- On a suboption followed by a comma `getsubopt` returns what it returns on
the suboption alone, and leaves the text after the comma. -/
theorem getsubopt_comma (p r : List Char) (v : Option (List Char)) (hp : ',' ∉ p)
    (hne : p ≠ []) :
    getsubopt (p ++ ',' :: r) token v
        = ⟨(getsubopt p token v).index, (getsubopt p token v).value, r⟩
    ∧ (getsubopt p token v).subopts = [] := by
  have hin : ∀ x ∈ p, (fun c => decide (c ≠ ',')) x = true := by
    intro x hx
    have : x ≠ ',' := fun he => hp (he ▸ hx)
    simpa using this
  have h1 := takeWhile_append_stop _ p (',' :: r) hin (by simp)
  have h2 := dropWhile_append_stop _ p (',' :: r) hin (by simp)
  have h3 := takeWhile_append_stop _ p [] hin (by simp)
  have h4 := dropWhile_append_stop _ p [] hin (by simp)
  rw [List.append_nil] at h3 h4
  have hne2 : p ++ ',' :: r ≠ [] := by simp
  unfold getsubopt
  rw [if_neg hne, if_neg hne2]
  simp only [h1, h2, h3, h4]
  cases matchToken token (List.takeWhile (fun c => decide (c ≠ '=')) p) <;> simp

/-- Parsing `a,b` is parsing `a` and then, if that succeeded, `b`, when no
piece of `a` between commas is empty. -/
theorem optionsParseLine_append (n : Nat) :
    ∀ (a b : List Char) (o : ScrotOptions), a.length ≤ n → (∀ t ∈ commaPieces a, t ≠ []) →
      optionsParseLine (a ++ ',' :: b) o =
        match optionsParseLine a o with
        | .error e => .error e
        | .ok o1 => optionsParseLine b o1 := by
  induction n with
  | zero =>
    intro a b o hl ha
    have hs : a = [] := List.length_eq_zero.1 (by omega)
    subst hs
    exact absurd rfl (ha [] (by simp [commaPieces]))
  | succ n ih =>
    intro a b o hl ha
    have hane : a ≠ [] := by
      rintro rfl
      exact absurd rfl (ha [] (by simp [commaPieces]))
    have hsplit := List.takeWhile_append_dropWhile (fun c => decide (c ≠ ',')) a
    have hno := takeWhile_no_comma a
    rcases dropWhile_comma_cases a with hd | ⟨a1, hd⟩
    · rw [hd, List.append_nil] at hsplit
      rw [hsplit] at hno
      obtain ⟨g1, g2⟩ := getsubopt_comma a b none hno hane
      rw [optionsParseLine_step _ o (by simp), optionsParseLine_step a o hane, g1, g2]
      cases optionsParseLineCase (getsubopt a token none).index (getsubopt a token none).value o with
      | error e => rfl
      | ok o1 => simp [optionsParseLine_nil]
    · rw [hd] at hsplit
      generalize a.takeWhile (fun c => decide (c ≠ ',')) = p at hsplit hno
      subst hsplit
      have hcp := commaPieces_comma p a1 hno
      have hpne : p ≠ [] := ha p (by rw [hcp]; exact List.mem_cons_self _ _)
      have ha1 : ∀ t ∈ commaPieces a1, t ≠ [] :=
        fun t ht => ha t (by rw [hcp]; exact List.mem_cons_of_mem _ ht)
      have hl1 : a1.length ≤ n := by
        simp only [List.length_append, List.length_cons] at hl
        omega
      obtain ⟨g1, _⟩ := getsubopt_comma p (a1 ++ ',' :: b) none hno hpne
      obtain ⟨g2, _⟩ := getsubopt_comma p a1 none hno hpne
      rw [List.append_assoc, List.cons_append, optionsParseLine_step _ o (by simp), g1,
        optionsParseLine_step (p ++ ',' :: a1) o (by simp), g2]
      cases optionsParseLineCase (getsubopt p token none).index (getsubopt p token none).value o with
      | error e => rfl
      | ok o1 => exact ih a1 b o1 hl1 ha1

/-- A stored line mode is well-formed when it begins with `classic` or with `edge`. -/
theorem optionsParseLineCase_lineMode (index : Option Nat) (value : Option (List Char))
    (o o1 : ScrotOptions) (h : optionsParseLineCase index value o = .ok o1) :
    o1.lineMode = o.lineMode
      ∨ ∃ v, o1.lineMode = some v ∧ ("classic".toList <+: v ∨ "edge".toList <+: v) := by
  have hc := fun v => strncmp_word v "classic".toList
  have he := fun v => strncmp_word v "edge".toList
  have e7 : "classic".toList.length = 7 := rfl
  have e4 : "edge".toList.length = 4 := rfl
  rw [e7] at hc
  rw [e4] at he
  cases value with
  | none =>
    unfold optionsParseLineCase at h
    split at h <;> simp [optionsParseIsString] at h
  | some v =>
    unfold optionsParseLineCase at h
    split at h
    all_goals try dsimp only at h
    all_goals try split_ifs at h
    all_goals try first
      | (simp at h; done)
      | (simp only [Except.ok.injEq] at h; subst h; left; rfl)
    · cases hp : optionsParseRequiredDecimal (some v) with
      | error e1 => rw [hp] at h; simp at h
      | ok w =>
        rw [hp] at h
        simp only at h
        split_ifs at h
        simp only [Except.ok.injEq] at h
        subst h
        left; rfl
    · rename_i hvalid
      simp only [Except.ok.injEq] at h
      subst h
      right
      refine ⟨v, rfl, ?_⟩
      simp only [LINE_MODE_CLASSIC, LINE_MODE_CLASSIC_LEN, LINE_MODE_EDGE, LINE_MODE_EDGE_LEN,
        Option.getD_some, hc, he, not_not] at hvalid
      exact hvalid
    · cases hp : optionsParseRequiredDecimal (some v) with
      | error e1 => rw [hp] at h; simp at h
      | ok w =>
        rw [hp] at h
        simp only [Except.ok.injEq] at h
        subst h
        left; rfl

theorem optionsParseLine_lineMode (n : Nat) :
    ∀ (s : List Char) (o o2 : ScrotOptions), s.length ≤ n → optionsParseLine s o = .ok o2 →
      o2.lineMode = o.lineMode
        ∨ ∃ v, o2.lineMode = some v ∧ ("classic".toList <+: v ∨ "edge".toList <+: v) := by
  induction n with
  | zero =>
    intro s o o2 hl h
    have hs : s = [] := List.length_eq_zero.1 (by omega)
    subst hs
    simp only [optionsParseLine_nil, Except.ok.injEq] at h
    left; rw [h]
  | succ n ih =>
    intro s o o2 hl h
    by_cases hs : s = []
    · subst hs
      simp only [optionsParseLine_nil, Except.ok.injEq] at h
      left; rw [h]
    · rw [optionsParseLine_step s o hs] at h
      have hlen := getsubopt_length s token none hs
      cases hc : optionsParseLineCase (getsubopt s token none).index
          (getsubopt s token none).value o with
      | error e1 => rw [hc] at h; simp at h
      | ok o1 =>
        rw [hc] at h
        simp only at h
        rcases ih _ o1 o2 (by omega) h with h2 | h2
        · rcases optionsParseLineCase_lineMode _ _ o o1 hc with h1 | h1
          · left; rw [h2, h1]
          · right; rw [h2]; exact h1
        · right; exact h2

/-! ## Lemmas: `nameThumbnail` -/

theorem strrchr_none_iff (s : List Char) (c : Char) : strrchr s c = none ↔ c ∉ s := by
  induction s with
  | nil => simp [strrchr]
  | cons a as ih =>
    rw [strrchr]
    cases h : strrchr as c with
    | some k =>
      have : c ∈ as := by
        by_contra hc
        rw [ih.2 hc] at h
        exact absurd h (by simp)
      simp [this]
    | none =>
      have hc := ih.1 h
      by_cases hac : a = c
      · simp [hac]
      · have hca : c ≠ a := fun he => hac he.symm
        simp [hac, hc, hca]

/-- The offset `strrchr` returns splits the string at its last `c`. -/
theorem strrchr_some (s : List Char) (c : Char) (k : Nat) (h : strrchr s c = some k) :
    ∃ pre post, s = pre ++ c :: post ∧ c ∉ post ∧ k = pre.length := by
  induction s generalizing k with
  | nil => simp [strrchr] at h
  | cons a as ih =>
    rw [strrchr] at h
    cases h1 : strrchr as c with
    | some j =>
      rw [h1] at h
      simp only [Option.some.injEq] at h
      obtain ⟨pre, post, e, hp, hj⟩ := ih j h1
      exact ⟨a :: pre, post, by rw [e]; rfl, hp, by rw [← h, hj]; rfl⟩
    | none =>
      rw [h1] at h
      simp only at h
      split_ifs at h with hac
      simp only [Option.some.injEq] at h
      exact ⟨[], as, by rw [hac]; rfl, (strrchr_none_iff as c).1 h1, by rw [← h]; rfl⟩

theorem strrchr_split (pre post : List Char) (c : Char) (hp : c ∉ post) :
    strrchr (pre ++ c :: post) c = some pre.length := by
  induction pre with
  | nil =>
    simp only [List.nil_append, strrchr, (strrchr_none_iff post c).2 hp, if_true, List.length_nil]
  | cons a as ih =>
    rw [List.cons_append, strrchr, ih]
    rfl

theorem take_length_takeWhile {α : Type} (p : α → Bool) (l : List α) :
    l.take (l.takeWhile p).length = l.takeWhile p := by
  induction l with
  | nil => rfl
  | cons a l ih =>
    by_cases h : p a = true
    · simp [List.takeWhile_cons, h, ih]
    · simp [List.takeWhile_cons, h]

theorem cstring_append_NUL (s rest : List Char) (hs : NUL ∉ s) :
    cstring (s ++ NUL :: rest) = s := by
  unfold cstring
  apply takeWhile_append_stop
  · intro x hx
    have : x ≠ NUL := fun he => hs (he ▸ hx)
    simpa using this
  · intro x hx
    simp at hx
    simp [← hx]

theorem cstring_no_NUL (buffer : List Char) : NUL ∉ cstring buffer := by
  intro h
  have := List.mem_takeWhile_imp h
  simp at this

/-- What a successful `strcat` leaves in the array. -/
theorem strcat_ok (dst src r : List Char) (h : strcat dst src = .ok r) (hsrc : NUL ∉ src) :
    cstring r = cstring dst ++ src ∧ r.length = dst.length
      ∧ (cstring dst).length + src.length + 1 ≤ dst.length := by
  unfold strcat at h
  dsimp only at h
  split_ifs at h with hl
  simp only [Except.ok.injEq] at h
  have ht : dst.take (cstring dst).length = cstring dst := take_length_takeWhile _ dst
  rw [ht] at h
  have hn : NUL ∉ cstring dst ++ src := by
    intro hm
    rcases List.mem_append.1 hm with h1 | h1
    · exact cstring_no_NUL dst h1
    · exact hsrc h1
  refine ⟨?_, ?_, hl⟩
  · rw [← h]
    exact cstring_append_NUL _ _ hn
  · rw [← h]
    simp only [List.length_append, List.length_cons, List.length_drop]
    omega

theorem NUL_not_mem_thumb : NUL ∉ "-thumb".toList := by decide

/-- When `nameThumbnail` returns, it returns the thumbnail name. -/
theorem nameThumbnail_ok (heap : Option (Nat → Char)) (name r : List Char) (hn : NUL ∉ name)
    (h : nameThumbnail heap name = .ok r) : r = thumbnailName name := by
  unfold nameThumbnail at h
  dsimp only at h
  cases heap with
  | none => simp [malloc] at h
  | some bytes =>
    simp only [malloc, Option.map_some'] at h
    have hlen : ((List.range (name.length + 7)).map bytes).length = name.length + 7 := by simp
    generalize (List.range (name.length + 7)).map bytes = newTitle at h hlen
    unfold thumbnailName
    cases hd : strrchr name '.' with
    | none =>
      rw [hd] at h
      simp only [Except.ok.injEq] at h
      rw [← h]
      unfold snprintfThumb
      have e6 : "-thumb".toList.length = 6 := rfl
      have ht : (name ++ "-thumb".toList).take (name.length + 7 - 1) = name ++ "-thumb".toList := by
        apply List.take_of_length_le
        simp only [List.length_append, e6]
        omega
      simp only [ht]
      apply cstring_append_NUL
      intro hm
      rcases List.mem_append.1 hm with h1 | h1
      · exact hn h1
      · exact NUL_not_mem_thumb h1
    | some k =>
      rw [hd] at h
      obtain ⟨pre, post, e, hpost, hk⟩ := strrchr_some name '.' k hd
      subst e
      subst hk
      have hpre : NUL ∉ pre := fun hm => hn (List.mem_append_left _ hm)
      have hsuf : NUL ∉ '.' :: post := fun hm =>
        hn (List.mem_append_right _ hm)
      simp only [strncpy, hlen, List.length_append, List.length_cons, List.take_left',
        List.drop_left'] at h
      rw [if_pos (by omega)] at h
      simp only at h
      have hz : pre.length - (pre.length + (post.length + 1)) = 0 := by omega
      rw [hz] at h
      simp only [List.replicate_zero, List.append_nil] at h
      cases h2 : strcat (pre ++ newTitle.drop pre.length) "-thumb".toList with
      | error e => rw [h2] at h; simp at h
      | ok t2 =>
        rw [h2] at h
        simp only at h
        cases h3 : strcat t2 ('.' :: post) with
        | error e => rw [h3] at h; simp at h
        | ok t3 =>
          rw [h3] at h
          simp only [Except.ok.injEq] at h
          obtain ⟨a1, a2, _⟩ := strcat_ok _ _ _ h2 NUL_not_mem_thumb
          obtain ⟨b1, _, b3⟩ := strcat_ok _ _ _ h3 hsuf
          have hc1 : cstring (pre ++ newTitle.drop pre.length)
              = pre ++ cstring (newTitle.drop pre.length) := by
            unfold cstring
            apply takeWhile_append_all
            intro x hx
            have : x ≠ NUL := fun he => hpre (he ▸ hx)
            simpa using this
          have e6 : "-thumb".toList.length = 6 := rfl
          rw [a1, a2] at b3
          simp only [hc1, List.length_append, List.length_cons, List.length_drop, hlen, e6] at b3
          have hnil : cstring (newTitle.drop pre.length) = [] :=
            List.length_eq_zero.1 (by omega)
          rw [← h, b1, a1, hc1, hnil, List.append_nil]
          simp

theorem strcat_returns (dst src : List Char)
    (h : (cstring dst).length + src.length + 1 ≤ dst.length) : ∃ r, strcat dst src = .ok r := by
  unfold strcat
  dsimp only
  rw [if_pos h]
  exact ⟨_, rfl⟩

/-- The function `nameThumbnail` returns the thumbnail name when `malloc` succeeds and, for a
name with a `.`, the byte of the block at the offset of the last `.` happens
to be NUL. -/
theorem nameThumbnail_returns (bytes : Nat → Char) (name : List Char) (hn : NUL ∉ name)
    (hb : ∀ k, strrchr name '.' = some k → bytes k = NUL) :
    nameThumbnail (some bytes) name = .ok (thumbnailName name) := by
  suffices hs : ∃ r, nameThumbnail (some bytes) name = .ok r by
    obtain ⟨r, hr⟩ := hs
    rw [hr, nameThumbnail_ok (some bytes) name r hn hr]
  unfold nameThumbnail
  dsimp only
  simp only [malloc, Option.map_some']
  cases hd : strrchr name '.' with
  | none => exact ⟨_, rfl⟩
  | some k =>
    obtain ⟨pre, post, e, hpost, hk⟩ := strrchr_some name '.' k hd
    have hbk := hb k hd
    subst e
    subst hk
    have hpre : NUL ∉ pre := fun hm => hn (List.mem_append_left _ hm)
    have hsuf : NUL ∉ '.' :: post := fun hm => hn (List.mem_append_right _ hm)
    have hlen : ((List.range ((pre ++ '.' :: post).length + 7)).map bytes).length
        = (pre ++ '.' :: post).length + 7 := by simp
    have hlt : pre.length < ((List.range ((pre ++ '.' :: post).length + 7)).map bytes).length := by
      rw [hlen]
      simp
      omega
    have hdrop := List.drop_eq_getElem_cons hlt
    have hget : ((List.range ((pre ++ '.' :: post).length + 7)).map bytes)[pre.length]
        = NUL := by
      simp [hbk]
    rw [hget] at hdrop
    generalize (List.range ((pre ++ '.' :: post).length + 7)).map bytes = newTitle
      at hlen hdrop hlt
    simp only [strncpy, hlen, List.length_append, List.length_cons, List.take_left']
    rw [if_pos (by omega)]
    simp only
    have hz : pre.length - (pre.length + (post.length + 1)) = 0 := by omega
    rw [hz, hdrop]
    simp only [List.replicate_zero, List.append_nil]
    have e6 : "-thumb".toList.length = 6 := rfl
    have hc1 : cstring (pre ++ NUL :: newTitle.drop (pre.length + 1)) = pre :=
      cstring_append_NUL _ _ hpre
    have hl1 : (pre ++ NUL :: newTitle.drop (pre.length + 1)).length
        = pre.length + (post.length + 1) + 7 := by
      simp only [List.length_append, List.length_cons, List.length_drop, hlen]
      omega
    obtain ⟨t2, h2⟩ := strcat_returns (pre ++ NUL :: newTitle.drop (pre.length + 1))
      "-thumb".toList (by rw [hc1, hl1, e6]; omega)
    obtain ⟨a1, a2, _⟩ := strcat_ok _ _ _ h2 NUL_not_mem_thumb
    obtain ⟨t3, h3⟩ := strcat_returns t2 ('.' :: post) (by
      rw [a1, a2, hc1, hl1]
      simp only [List.length_append, List.length_cons, e6]
      omega)
    rw [h2]
    simp only
    rw [List.drop_left' rfl, h3]
    exact ⟨_, rfl⟩

theorem thumbnailName_length (a : List Char) : (thumbnailName a).length = a.length + 6 := by
  have e6 : "-thumb".toList.length = 6 := rfl
  unfold thumbnailName
  cases hd : strrchr a '.' with
  | none => simp [e6]
  | some k =>
    obtain ⟨pre, post, e, _, hk⟩ := strrchr_some a '.' k hd
    subst e
    subst hk
    simp [e6]
    omega

theorem dot_not_mem_thumb : '.' ∉ "-thumb".toList := by decide

/-- The position of the last `.` in a thumbnail name. -/
theorem strrchr_thumbnailName (a : List Char) :
    strrchr (thumbnailName a) '.' = (strrchr a '.').map (fun k => k + 6) := by
  unfold thumbnailName
  cases hd : strrchr a '.' with
  | none =>
    have ha := (strrchr_none_iff a '.').1 hd
    simp only [Option.map_none']
    rw [strrchr_none_iff]
    intro hm
    rcases List.mem_append.1 hm with h1 | h1
    · exact ha h1
    · exact dot_not_mem_thumb h1
  | some k =>
    obtain ⟨pre, post, e, hp, hk⟩ := strrchr_some a '.' k hd
    subst e
    subst hk
    simp only [List.take_left', List.drop_left', Option.map_some']
    have := strrchr_split (pre ++ "-thumb".toList) post '.' hp
    rw [this]
    simp

theorem thumbnailName_injective (a b : List Char) (h : thumbnailName a = thumbnailName b) :
    a = b := by
  have hs : strrchr (thumbnailName a) '.' = strrchr (thumbnailName b) '.' := by rw [h]
  rw [strrchr_thumbnailName, strrchr_thumbnailName] at hs
  unfold thumbnailName at h
  cases ha : strrchr a '.' with
  | none =>
    cases hb : strrchr b '.' with
    | none =>
      rw [ha, hb] at h
      exact List.append_cancel_right h
    | some j => rw [ha, hb] at hs; simp at hs
  | some k =>
    cases hb : strrchr b '.' with
    | none => rw [ha, hb] at hs; simp at hs
    | some j =>
      rw [ha, hb] at hs h
      simp only [Option.map_some', Option.some.injEq, add_left_inj] at hs
      subst hs
      obtain ⟨pre, post, e, _, hk⟩ := strrchr_some a '.' k ha
      obtain ⟨pre2, post2, e2, _, hk2⟩ := strrchr_some b '.' k hb
      subst e
      subst e2
      subst hk
      have hk3 : pre.length = pre2.length := hk2
      have t1 : (pre ++ '.' :: post).take pre.length = pre := List.take_left' rfl
      have d1 : (pre ++ '.' :: post).drop pre.length = '.' :: post := List.drop_left' rfl
      have t2 : (pre2 ++ '.' :: post2).take pre.length = pre2 := List.take_left' hk3.symm
      have d2 : (pre2 ++ '.' :: post2).drop pre.length = '.' :: post2 :=
        List.drop_left' hk3.symm
      dsimp only at h
      rw [t1, d1, t2, d2, List.append_assoc, List.append_assoc] at h
      obtain ⟨h1, h2⟩ := List.append_inj h hk3
      rw [h1, List.append_cancel_left h2]

/-! ## Lemmas: last write wins -/

theorem fieldRule_trans {α : Type} {x y x1 y1 x2 y2 : α} (h1 : fieldRule x y x1 y1)
    (h2 : fieldRule x1 y1 x2 y2) : fieldRule x y x2 y2 := by
  unfold fieldRule at *
  rcases h2 with h2 | ⟨h2, h3⟩
  · exact Or.inl h2
  · rcases h1 with h1 | ⟨h1, h4⟩
    · exact Or.inl (by rw [h2, h3, h1])
    · exact Or.inr ⟨by rw [h2, h1], by rw [h3, h4]⟩

theorem fieldRule_kept {α : Type} (x y : α) : fieldRule x y x y :=
  Or.inr ⟨rfl, rfl⟩

theorem fieldRule_set {α : Type} (x y v : α) : fieldRule x y v v :=
  Or.inl rfl

theorem lastWriteWins_trans {c d c1 d1 c2 d2 : ScrotOptions} (h1 : LastWriteWins c d c1 d1)
    (h2 : LastWriteWins c1 d1 c2 d2) : LastWriteWins c d c2 d2 :=
  ⟨fieldRule_trans h1.delay h2.delay,
   fieldRule_trans h1.countdown h2.countdown,
   fieldRule_trans h1.focused h2.focused,
   fieldRule_trans h1.quality h2.quality,
   fieldRule_trans h1.border h2.border,
   fieldRule_trans h1.silent h2.silent,
   fieldRule_trans h1.multidisp h2.multidisp,
   fieldRule_trans h1.thumb h2.thumb,
   fieldRule_trans h1.thumbWidth h2.thumbWidth,
   fieldRule_trans h1.thumbHeight h2.thumbHeight,
   fieldRule_trans h1.pointer h2.pointer,
   fieldRule_trans h1.freeze h2.freeze,
   fieldRule_trans h1.overwrite h2.overwrite,
   fieldRule_trans h1.lineStyle h2.lineStyle,
   fieldRule_trans h1.lineWidth h2.lineWidth,
   fieldRule_trans h1.lineOpacity h2.lineOpacity,
   fieldRule_trans h1.lineColor h2.lineColor,
   fieldRule_trans h1.lineMode h2.lineMode,
   fieldRule_trans h1.stack h2.stack,
   fieldRule_trans h1.exec h2.exec,
   fieldRule_trans h1.display h2.display,
   fieldRule_trans h1.note h2.note,
   fieldRule_trans h1.window h2.window,
   fieldRule_trans h1.windowClassName h2.windowClassName,
   fieldRule_trans h1.script h2.script,
   fieldRule_trans h1.autoselect h2.autoselect,
   fieldRule_trans h1.autoselectX h2.autoselectX,
   fieldRule_trans h1.autoselectY h2.autoselectY,
   fieldRule_trans h1.autoselectW h2.autoselectW,
   fieldRule_trans h1.autoselectH h2.autoselectH,
   fieldRule_trans h1.select h2.select⟩

theorem lastWriteWins_refl (c d : ScrotOptions) : LastWriteWins c d c d :=
  ⟨fieldRule_kept _ _,
   fieldRule_kept _ _,
   fieldRule_kept _ _,
   fieldRule_kept _ _,
   fieldRule_kept _ _,
   fieldRule_kept _ _,
   fieldRule_kept _ _,
   fieldRule_kept _ _,
   fieldRule_kept _ _,
   fieldRule_kept _ _,
   fieldRule_kept _ _,
   fieldRule_kept _ _,
   fieldRule_kept _ _,
   fieldRule_kept _ _,
   fieldRule_kept _ _,
   fieldRule_kept _ _,
   fieldRule_kept _ _,
   fieldRule_kept _ _,
   fieldRule_kept _ _,
   fieldRule_kept _ _,
   fieldRule_kept _ _,
   fieldRule_kept _ _,
   fieldRule_kept _ _,
   fieldRule_kept _ _,
   fieldRule_kept _ _,
   fieldRule_kept _ _,
   fieldRule_kept _ _,
   fieldRule_kept _ _,
   fieldRule_kept _ _,
   fieldRule_kept _ _,
   fieldRule_kept _ _⟩

theorem overwrites_trans {c d c1 d1 c2 d2 : ScrotOptions} (h1 : Overwrites c d c1 d1)
    (h2 : Overwrites c1 d1 c2 d2) : Overwrites c d c2 d2 :=
  ⟨lastWriteWins_trans h1.1 h2.1, h2.2.1.trans h1.2.1, h2.2.2.1.trans h1.2.2.1, h2.2.2.2.1.trans h1.2.2.2.1,
   h2.2.2.2.2.trans h1.2.2.2.2⟩

theorem overwrites_refl (c d : ScrotOptions) : Overwrites c d c d :=
  ⟨lastWriteWins_refl c d, rfl, rfl, rfl, rfl⟩

/-- The `switch` of `optionsParseLine` overwrites: the field it stores into
gets a value that comes from the suboption alone. -/
theorem optionsParseLineCase_overwrites (index : Option Nat) (value : Option (List Char))
    (c d c1 d1 : ScrotOptions) (hc : optionsParseLineCase index value c = .ok c1)
    (hd : optionsParseLineCase index value d = .ok d1) : Overwrites c d c1 d1 := by
  cases value with
  | none =>
    unfold optionsParseLineCase at hc
    split at hc <;> simp [optionsParseIsString] at hc
  | some v =>
    unfold optionsParseLineCase at hc hd
    split at hc
    all_goals dsimp only at hc hd
    all_goals try split_ifs at hc hd
    all_goals try first
      | (simp at hc; done)
      | (simp only [Except.ok.injEq] at hc hd; subst hc; subst hd
         exact ⟨by constructor <;> simp [fieldRule], rfl, rfl, rfl, rfl⟩)
    all_goals
      cases hp : optionsParseRequiredDecimal (some v) with
      | error e1 => rw [hp] at hc; simp at hc
      | ok w =>
        rw [hp] at hc hd
        simp only at hc hd
        try split_ifs at hc hd
        simp only [Except.ok.injEq] at hc hd
        subst hc
        subst hd
        exact ⟨by constructor <;> simp [fieldRule], rfl, rfl, rfl, rfl⟩

theorem optionsParseLine_overwrites (n : Nat) :
    ∀ (s : List Char) (c d c2 d2 : ScrotOptions), s.length ≤ n →
      optionsParseLine s c = .ok c2 → optionsParseLine s d = .ok d2 → Overwrites c d c2 d2 := by
  induction n with
  | zero =>
    intro s c d c2 d2 hl hc hd
    have hs : s = [] := List.length_eq_zero.1 (by omega)
    subst hs
    simp only [optionsParseLine_nil, Except.ok.injEq] at hc hd
    subst hc
    subst hd
    exact overwrites_refl c d
  | succ n ih =>
    intro s c d c2 d2 hl hc hd
    by_cases hs : s = []
    · subst hs
      simp only [optionsParseLine_nil, Except.ok.injEq] at hc hd
      subst hc
      subst hd
      exact overwrites_refl c d
    · rw [optionsParseLine_step s c hs] at hc
      rw [optionsParseLine_step s d hs] at hd
      have hlen := getsubopt_length s token none hs
      cases h1 : optionsParseLineCase (getsubopt s token none).index
          (getsubopt s token none).value c with
      | error e1 => rw [h1] at hc; simp at hc
      | ok c1 =>
        cases h2 : optionsParseLineCase (getsubopt s token none).index
            (getsubopt s token none).value d with
        | error e1 => rw [h2] at hd; simp at hd
        | ok d1 =>
          rw [h1] at hc
          rw [h2] at hd
          simp only at hc hd
          exact overwrites_trans (optionsParseLineCase_overwrites _ _ c d c1 d1 h1 h2)
            (ih _ c1 d1 c2 d2 (by omega) hc hd)

theorem optionsParseSelection_overwrites (optarg : Option (List Char))
    (c d c1 d1 : ScrotOptions) (hc : optionsParseSelection optarg c = .ok c1)
    (hd : optionsParseSelection optarg d = .ok d1) : Overwrites c d c1 d1 := by
  unfold optionsParseSelection at hc hd
  cases optarg with
  | none =>
    simp only [Except.ok.injEq] at hc hd
    subst hc
    subst hd
    exact ⟨by constructor <;> simp [fieldRule], rfl, rfl, rfl, rfl⟩
  | some arg =>
    dsimp only at hc hd
    split_ifs at hc hd
    all_goals
      simp only [Except.ok.injEq] at hc hd
      subst hc
      subst hd
      exact ⟨by constructor <;> simp [fieldRule], rfl, rfl, rfl, rfl⟩

theorem optionsParseThumbnail_overwrites (optarg : List Char)
    (c d c1 d1 : ScrotOptions) (hc : optionsParseThumbnail optarg c = .ok c1)
    (hd : optionsParseThumbnail optarg d = .ok d1) : Overwrites c d c1 d1 := by
  unfold optionsParseThumbnail at hc hd
  split_ifs at hc hd
  · dsimp only at hc hd
    cases h1 : optionsParseRequiredDecimal (strtok optarg ['x']).token with
    | error e => rw [h1] at hc; simp at hc
    | ok w1 =>
      rw [h1] at hc hd
      dsimp only at hc hd
      cases h2 : (strtok (strtok optarg ['x']).save ['x']).token with
      | none =>
        rw [h2] at hc hd
        simp only [Except.ok.injEq] at hc hd
        subst hc
        subst hd
        exact ⟨by constructor <;> simp [fieldRule], rfl, rfl, rfl, rfl⟩
      | some tok =>
        rw [h2] at hc hd
        dsimp only at hc hd
        cases h3 : optionsParseRequiredDecimal (some (strtok optarg ['x']).start) with
        | error e => rw [h3] at hc; simp at hc
        | ok w =>
          rw [h3] at hc hd
          dsimp only at hc hd
          cases h4 : optionsParseRequiredDecimal (some tok) with
          | error e => rw [h4] at hc; simp at hc
          | ok h =>
            rw [h4] at hc hd
            simp only [Except.ok.injEq] at hc hd
            subst hc
            subst hd
            exact ⟨by constructor <;> simp [fieldRule], rfl, rfl, rfl, rfl⟩
  · cases h1 : optionsParseRequiredDecimal (some optarg) with
    | error e => rw [h1] at hc; simp at hc
    | ok t =>
      rw [h1] at hc hd
      simp only [Except.ok.injEq] at hc hd
      subst hc
      subst hd
      exact ⟨by constructor <;> simp [fieldRule], rfl, rfl, rfl, rfl⟩

theorem optionsParseAutoselect_overwrites (optarg : List Char)
    (c d c1 d1 : ScrotOptions) (hc : optionsParseAutoselect optarg c = .ok c1)
    (hd : optionsParseAutoselect optarg d = .ok d1) : Overwrites c d c1 d1 := by
  rw [optionsParseAutoselect_fields] at hc hd
  split_ifs at hc hd
  cases hf : fields optarg with
  | nil => rw [hf] at hc; simp at hc
  | cons t ts =>
    rw [hf] at hc hd
    dsimp only at hc hd
    cases hp : optionsParseRequiredDecimal (some t) with
    | error e => rw [hp] at hc; simp at hc
    | ok v =>
      rw [hp] at hc hd
      dsimp only at hc hd
      cases hs : storeDimensions ts [v] with
      | error e => rw [hs] at hc; simp at hc
      | ok dims =>
        rw [hs] at hc hd
        dsimp only at hc hd
        split at hc
        · simp only [Except.ok.injEq] at hc hd
          subst hc
          subst hd
          exact ⟨by constructor <;> simp [fieldRule], rfl, rfl, rfl, rfl⟩
        · simp at hc

theorem optionsParseWindowClassName_overwrites (optarg : Option (List Char))
    (c d c1 d1 : ScrotOptions) (hc : optionsParseWindowClassName optarg c = .ok c1)
    (hd : optionsParseWindowClassName optarg d = .ok d1) : Overwrites c d c1 d1 := by
  unfold optionsParseWindowClassName at hc hd
  cases optarg with
  | none => simp at hc
  | some name =>
    dsimp only at hc hd
    split_ifs at hc hd
    all_goals
      simp only [Except.ok.injEq] at hc hd
      subst hc
      subst hd
      exact ⟨by constructor <;> simp [fieldRule], rfl, rfl, rfl, rfl⟩

theorem optionsParseNote_overwrites (n1 n2 : List Char → Option Failure) (optarg : List Char)
    (c d c1 d1 : ScrotOptions) (hc : optionsParseNote n1 optarg c = .ok c1)
    (hd : optionsParseNote n2 optarg d = .ok d1) : Overwrites c d c1 d1 := by
  unfold optionsParseNote at hc hd
  split_ifs at hc hd
  cases h1 : n1 optarg with
  | some e => rw [h1] at hc; simp at hc
  | none =>
    cases h2 : n2 optarg with
    | some e => rw [h2] at hd; simp at hd
    | none =>
      rw [h1] at hc
      rw [h2] at hd
      simp only [Except.ok.injEq] at hc hd
      subst hc
      subst hd
      exact ⟨by constructor <;> simp [fieldRule], rfl, rfl, rfl, rfl⟩

/-- Every case of the `switch` of `optionsParse` overwrites: the fields it
stores into get values that come from the option and its argument alone, and
`outputFile` and `thumbFile` are left as they were. -/
theorem optionsParseSwitch_overwrites (n1 n2 : List Char → Option Failure) (r : GetoptReturn)
    (c d c1 d1 : ScrotOptions) (hc : optionsParseSwitch n1 r c = .ok c1)
    (hd : optionsParseSwitch n2 r d = .ok d1) : Overwrites c d c1 d1 := by
  obtain ⟨ch, arg⟩ := r
  by_cases h_h : ch = 'h'
  · subst h_h
    have e : ∀ n o, optionsParseSwitch n ⟨'h', arg⟩ o = .error .exitSuccess := fun _ _ => rfl
    rw [e] at hc
    simp at hc
  by_cases h_v : ch = 'v'
  · subst h_v
    have e : ∀ n o, optionsParseSwitch n ⟨'v', arg⟩ o = .error .exitSuccess := fun _ _ => rfl
    rw [e] at hc
    simp at hc
  by_cases h_b : ch = 'b'
  · subst h_b
    have e : ∀ n o, optionsParseSwitch n ⟨'b', arg⟩ o = .ok { o with border := 1 } :=
      fun _ _ => rfl
    rw [e] at hc hd
    simp only [Except.ok.injEq] at hc hd
    subst hc
    subst hd
    exact ⟨by constructor <;> simp [fieldRule], rfl, rfl, rfl, rfl⟩
  by_cases h_d : ch = 'd'
  · subst h_d
    have e : ∀ n o, optionsParseSwitch n ⟨'d', arg⟩ o
        = (match optionsParseRequiredDecimal arg with
           | .error e => .error e
           | .ok n => .ok { o with delay := nonNegativeNumber n }) := fun _ _ => rfl
    rw [e] at hc hd
    cases hp : optionsParseRequiredDecimal arg with
    | error e1 => rw [hp] at hc; simp at hc
    | ok w =>
      rw [hp] at hc hd
      simp only [Except.ok.injEq] at hc hd
      subst hc
      subst hd
      exact ⟨by constructor <;> simp [fieldRule], rfl, rfl, rfl, rfl⟩
  by_cases h_e : ch = 'e'
  · subst h_e
    have e : ∀ n o, optionsParseSwitch n ⟨'e', arg⟩ o
        = withOptarg arg (fun a => .ok { o with exec := some a }) := fun _ _ => rfl
    rw [e] at hc hd
    cases arg with
    | none => simp [withOptarg] at hc
    | some a =>
      simp only [withOptarg] at hc hd
      simp only [Except.ok.injEq] at hc hd
      subst hc
      subst hd
      exact ⟨by constructor <;> simp [fieldRule], rfl, rfl, rfl, rfl⟩
  by_cases h_m : ch = 'm'
  · subst h_m
    have e : ∀ n o, optionsParseSwitch n ⟨'m', arg⟩ o = .ok { o with multidisp := 1 } :=
      fun _ _ => rfl
    rw [e] at hc hd
    simp only [Except.ok.injEq] at hc hd
    subst hc
    subst hd
    exact ⟨by constructor <;> simp [fieldRule], rfl, rfl, rfl, rfl⟩
  by_cases h_q : ch = 'q'
  · subst h_q
    have e : ∀ n o, optionsParseSwitch n ⟨'q', arg⟩ o
        = (match optionsParseRequiredDecimal arg with
           | .error e => .error e
           | .ok n => .ok { o with quality := n }) := fun _ _ => rfl
    rw [e] at hc hd
    cases hp : optionsParseRequiredDecimal arg with
    | error e1 => rw [hp] at hc; simp at hc
    | ok w =>
      rw [hp] at hc hd
      simp only [Except.ok.injEq] at hc hd
      subst hc
      subst hd
      exact ⟨by constructor <;> simp [fieldRule], rfl, rfl, rfl, rfl⟩
  by_cases h_s : ch = 's'
  · subst h_s
    have e : ∀ n o, optionsParseSwitch n ⟨'s', arg⟩ o = optionsParseSelection arg o := fun _ _ => rfl
    rw [e] at hc hd
    exact optionsParseSelection_overwrites _ _ _ _ _ hc hd
  by_cases h_u : ch = 'u'
  · subst h_u
    have e : ∀ n o, optionsParseSwitch n ⟨'u', arg⟩ o = .ok { o with focused := 1 } :=
      fun _ _ => rfl
    rw [e] at hc hd
    simp only [Except.ok.injEq] at hc hd
    subst hc
    subst hd
    exact ⟨by constructor <;> simp [fieldRule], rfl, rfl, rfl, rfl⟩
  by_cases h_c : ch = 'c'
  · subst h_c
    have e : ∀ n o, optionsParseSwitch n ⟨'c', arg⟩ o = .ok { o with countdown := 1 } :=
      fun _ _ => rfl
    rw [e] at hc hd
    simp only [Except.ok.injEq] at hc hd
    subst hc
    subst hd
    exact ⟨by constructor <;> simp [fieldRule], rfl, rfl, rfl, rfl⟩
  by_cases h_t : ch = 't'
  · subst h_t
    have e : ∀ n o, optionsParseSwitch n ⟨'t', arg⟩ o
        = withOptarg arg (fun a => optionsParseThumbnail a o) := fun _ _ => rfl
    rw [e] at hc hd
    cases arg with
    | none => simp [withOptarg] at hc
    | some a =>
      simp only [withOptarg] at hc hd
      exact optionsParseThumbnail_overwrites _ _ _ _ _ hc hd
  by_cases h_z : ch = 'z'
  · subst h_z
    have e : ∀ n o, optionsParseSwitch n ⟨'z', arg⟩ o = .ok { o with silent := 1 } :=
      fun _ _ => rfl
    rw [e] at hc hd
    simp only [Except.ok.injEq] at hc hd
    subst hc
    subst hd
    exact ⟨by constructor <;> simp [fieldRule], rfl, rfl, rfl, rfl⟩
  by_cases h_p : ch = 'p'
  · subst h_p
    have e : ∀ n o, optionsParseSwitch n ⟨'p', arg⟩ o = .ok { o with pointer := 1 } :=
      fun _ _ => rfl
    rw [e] at hc hd
    simp only [Except.ok.injEq] at hc hd
    subst hc
    subst hd
    exact ⟨by constructor <;> simp [fieldRule], rfl, rfl, rfl, rfl⟩
  by_cases h_f : ch = 'f'
  · subst h_f
    have e : ∀ n o, optionsParseSwitch n ⟨'f', arg⟩ o = .ok { o with freeze := 1 } :=
      fun _ _ => rfl
    rw [e] at hc hd
    simp only [Except.ok.injEq] at hc hd
    subst hc
    subst hd
    exact ⟨by constructor <;> simp [fieldRule], rfl, rfl, rfl, rfl⟩
  by_cases h_o : ch = 'o'
  · subst h_o
    have e : ∀ n o, optionsParseSwitch n ⟨'o', arg⟩ o = .ok { o with overwrite := 1 } :=
      fun _ _ => rfl
    rw [e] at hc hd
    simp only [Except.ok.injEq] at hc hd
    subst hc
    subst hd
    exact ⟨by constructor <;> simp [fieldRule], rfl, rfl, rfl, rfl⟩
  by_cases h_a : ch = 'a'
  · subst h_a
    have e : ∀ n o, optionsParseSwitch n ⟨'a', arg⟩ o
        = withOptarg arg (fun a => optionsParseAutoselect a o) := fun _ _ => rfl
    rw [e] at hc hd
    cases arg with
    | none => simp [withOptarg] at hc
    | some a =>
      simp only [withOptarg] at hc hd
      exact optionsParseAutoselect_overwrites _ _ _ _ _ hc hd
  by_cases h_upD : ch = 'D'
  · subst h_upD
    have e : ∀ n o, optionsParseSwitch n ⟨'D', arg⟩ o
        = withOptarg arg (fun a => optionsParseDisplay a o) := fun _ _ => rfl
    rw [e] at hc hd
    cases arg with
    | none => simp [withOptarg] at hc
    | some a =>
      simp only [withOptarg] at hc hd
      simp only [optionsParseDisplay] at hc hd
      simp only [Except.ok.injEq] at hc hd
      subst hc
      subst hd
      exact ⟨by constructor <;> simp [fieldRule], rfl, rfl, rfl, rfl⟩
  by_cases h_n : ch = 'n'
  · subst h_n
    have e : ∀ n o, optionsParseSwitch n ⟨'n', arg⟩ o
        = withOptarg arg (fun a => optionsParseNote n a o) := fun _ _ => rfl
    rw [e] at hc hd
    cases arg with
    | none => simp [withOptarg] at hc
    | some a =>
      simp only [withOptarg] at hc hd
      exact optionsParseNote_overwrites _ _ _ _ _ _ _ hc hd
  by_cases h_l : ch = 'l'
  · subst h_l
    have e : ∀ n o, optionsParseSwitch n ⟨'l', arg⟩ o
        = withOptarg arg (fun a => optionsParseLine a o) := fun _ _ => rfl
    rw [e] at hc hd
    cases arg with
    | none => simp [withOptarg] at hc
    | some a =>
      simp only [withOptarg] at hc hd
      exact optionsParseLine_overwrites _ _ _ _ _ _ (le_refl _) hc hd
  by_cases h_k : ch = 'k'
  · subst h_k
    have e : ∀ n o, optionsParseSwitch n ⟨'k', arg⟩ o = .ok { o with stack := 1 } :=
      fun _ _ => rfl
    rw [e] at hc hd
    simp only [Except.ok.injEq] at hc hd
    subst hc
    subst hd
    exact ⟨by constructor <;> simp [fieldRule], rfl, rfl, rfl, rfl⟩
  by_cases h_upC : ch = 'C'
  · subst h_upC
    have e : ∀ n o, optionsParseSwitch n ⟨'C', arg⟩ o = optionsParseWindowClassName arg o := fun _ _ => rfl
    rw [e] at hc hd
    exact optionsParseWindowClassName_overwrites _ _ _ _ _ hc hd
  by_cases h_upS : ch = 'S'
  · subst h_upS
    have e : ∀ n o, optionsParseSwitch n ⟨'S', arg⟩ o
        = withOptarg arg (fun a => .ok { o with script := some a }) := fun _ _ => rfl
    rw [e] at hc hd
    cases arg with
    | none => simp [withOptarg] at hc
    | some a =>
      simp only [withOptarg] at hc hd
      simp only [Except.ok.injEq] at hc hd
      subst hc
      subst hd
      exact ⟨by constructor <;> simp [fieldRule], rfl, rfl, rfl, rfl⟩
  by_cases h_w : ch = 'w'
  · subst h_w
    have e : ∀ n o, optionsParseSwitch n ⟨'w', arg⟩ o
        = (match optionsParseRequiredNumber arg with
           | .error e => .error e
           | .ok n => .ok { o with window := n }) := fun _ _ => rfl
    rw [e] at hc hd
    cases hp : optionsParseRequiredNumber arg with
    | error e1 => rw [hp] at hc; simp at hc
    | ok w =>
      rw [hp] at hc hd
      simp only [Except.ok.injEq] at hc hd
      subst hc
      subst hd
      exact ⟨by constructor <;> simp [fieldRule], rfl, rfl, rfl, rfl⟩
  by_cases h_question : ch = '?'
  · subst h_question
    have e : ∀ n o, optionsParseSwitch n ⟨'?', arg⟩ o = .error .unknownOption := fun _ _ => rfl
    rw [e] at hc
    simp at hc
  have e : ∀ n o, optionsParseSwitch n ⟨ch, arg⟩ o = .ok o := by
    intro n o
    simp only [optionsParseSwitch, h_h, h_v, h_b, h_d, h_e, h_m, h_q, h_s, h_u, h_c, h_t, h_z, h_p, h_f, h_o, h_a, h_upD, h_n, h_l, h_k, h_upC, h_upS, h_w, h_question, if_false]
  rw [e] at hc hd
  simp only [Except.ok.injEq] at hc hd
  subst hc
  subst hd
  exact overwrites_refl c d

theorem optionsParseOptions_overwrites (n1 n2 : List Char → Option Failure)
    (rs : List GetoptReturn) :
    ∀ (c d c2 d2 : ScrotOptions), optionsParseOptions n1 rs c = .ok c2 →
      optionsParseOptions n2 rs d = .ok d2 → Overwrites c d c2 d2 := by
  induction rs with
  | nil =>
    intro c d c2 d2 hc hd
    simp only [optionsParseOptions, Except.ok.injEq] at hc hd
    subst hc
    subst hd
    exact overwrites_refl c d
  | cons r rs ih =>
    intro c d c2 d2 hc hd
    rw [optionsParseOptions] at hc hd
    cases h1 : optionsParseSwitch n1 r c with
    | error e => rw [h1] at hc; simp at hc
    | ok c1 =>
      cases h2 : optionsParseSwitch n2 r d with
      | error e => rw [h2] at hd; simp at hd
      | ok d1 =>
        rw [h1] at hc
        rw [h2] at hd
        simp only at hc hd
        exact overwrites_trans (optionsParseSwitch_overwrites n1 n2 r c d c1 d1 h1 h2)
          (ih c1 d1 c2 d2 hc hd)

/-- The options leave `outputFile` and `thumbFile` as they were. -/
theorem optionsParseOptions_files (n1 : List Char → Option Failure) (rs : List GetoptReturn)
    (c c2 : ScrotOptions) (hc : optionsParseOptions n1 rs c = .ok c2) :
    c2.outputFile = c.outputFile ∧ c2.thumbFile = c.thumbFile :=
  ⟨(optionsParseOptions_overwrites n1 n1 rs c c c2 c2 hc hc).2.1,
   (optionsParseOptions_overwrites n1 n1 rs c c c2 c2 hc hc).2.2.1⟩

/-! ## Lemmas: the leftovers of `optionsParse` -/

theorem lastWriteWins_files {c d c1 d1 : ScrotOptions} (h : LastWriteWins c d c1 d1)
    (f1 t1 f2 t2 : Option (List Char)) :
    LastWriteWins c d { c1 with outputFile := f1, thumbFile := t1 }
      { d1 with outputFile := f2, thumbFile := t2 } :=
  ⟨h.delay,
   h.countdown,
   h.focused,
   h.quality,
   h.border,
   h.silent,
   h.multidisp,
   h.thumb,
   h.thumbWidth,
   h.thumbHeight,
   h.pointer,
   h.freeze,
   h.overwrite,
   h.lineStyle,
   h.lineWidth,
   h.lineOpacity,
   h.lineColor,
   h.lineMode,
   h.stack,
   h.exec,
   h.display,
   h.note,
   h.window,
   h.windowClassName,
   h.script,
   h.autoselect,
   h.autoselectX,
   h.autoselectY,
   h.autoselectW,
   h.autoselectH,
   h.select⟩

/-- Once `outputFile` is set, every leftover argument is only reported. -/
theorem optionsParseLeftovers_set (heap : Option (Nat → Char)) (l : List (List Char)) :
    ∀ (o : ScrotOptions) (warned : List (List Char)) (f : List Char), o.outputFile = some f →
      optionsParseLeftovers heap l o warned = .ok (o, warned ++ l) := by
  induction l with
  | nil => intro o warned f _; simp [optionsParseLeftovers]
  | cons arg rest ih =>
    intro o warned f hf
    rw [optionsParseLeftovers]
    simp only [hf]
    rw [ih o (warned ++ [arg]) f hf]
    simp

/-- The first leftover argument when `outputFile` is not set. -/
theorem optionsParseLeftovers_first (heap : Option (Nat → Char)) (first : List Char)
    (rest : List (List Char)) (o : ScrotOptions) (warned : List (List Char))
    (h : o.outputFile = none) :
    optionsParseLeftovers heap (first :: rest) o warned =
      if first.length > 256 then .error .filenameTooLong
      else if o.thumb ≠ 0 then
        match nameThumbnail heap first with
        | .error e => .error e
        | .ok t => .ok ({ o with outputFile := some first, thumbFile := some t }, warned ++ rest)
      else .ok ({ o with outputFile := some first }, warned ++ rest) := by
  rw [optionsParseLeftovers]
  simp only [h, MAX_OUTPUT_FILENAME]
  split_ifs
  · rfl
  · cases nameThumbnail heap first with
    | error e => rfl
    | ok t => exact optionsParseLeftovers_set heap rest _ warned first rfl
  · exact optionsParseLeftovers_set heap rest _ warned first rfl

/-- The leftovers change `outputFile` and `thumbFile` only. -/
theorem optionsParseLeftovers_others (heap : Option (Nat → Char)) (l : List (List Char))
    (o o2 : ScrotOptions) (warned w2 : List (List Char))
    (h : optionsParseLeftovers heap l o warned = .ok (o2, w2)) :
    o2 = { o with outputFile := o2.outputFile, thumbFile := o2.thumbFile } := by
  cases l with
  | nil =>
    simp only [optionsParseLeftovers, Except.ok.injEq, Prod.mk.injEq] at h
    rw [← h.1]
  | cons first rest =>
    cases hf : o.outputFile with
    | some f =>
      rw [optionsParseLeftovers_set heap _ o warned f hf] at h
      simp only [Except.ok.injEq, Prod.mk.injEq] at h
      rw [← h.1]
    | none =>
      rw [optionsParseLeftovers_first heap first rest o warned hf] at h
      split_ifs at h
      · cases hn : nameThumbnail heap first with
        | error e => rw [hn] at h; simp at h
        | ok t =>
          rw [hn] at h
          simp only [Except.ok.injEq, Prod.mk.injEq] at h
          rw [← h.1]
      · simp only [Except.ok.injEq, Prod.mk.injEq] at h
        rw [← h.1]

/-! ## Lemmas: assignments -/

theorem assign_nil (o : ScrotOptions) : assign [] o = o := rfl

theorem assign_cons (a : Assignment) (l : List Assignment) (o : ScrotOptions) :
    assign (a :: l) o = assign l (a.set o) := rfl

theorem assign_append (l1 l2 : List Assignment) (o : ScrotOptions) :
    assign (l1 ++ l2) o = assign l2 (assign l1 o) := by
  simp [assign, List.foldl_append]

theorem Field.kept_refl (f : Field) (o : ScrotOptions) : f.kept o o := by
  cases f <;> rfl

theorem Field.kept_trans (f : Field) (x y z : ScrotOptions) (h1 : f.kept x y)
    (h2 : f.kept y z) : f.kept x z := by
  cases f <;> exact Eq.trans h2 h1

/-- An assignment leaves the fields other than its own as they were. -/
theorem Assignment.kept_set (b : Assignment) (f : Field) (o : ScrotOptions)
    (h : b.field ≠ f) : f.kept o (b.set o) := by
  cases b <;> cases f <;> first | rfl | exact absurd rfl h

/-- After an assignment its field holds its value. -/
theorem Assignment.holds_set (a : Assignment) (o : ScrotOptions) : a.holds (a.set o) := by
  cases a <;> rfl

theorem Assignment.holds_of_kept (a : Assignment) (x y : ScrotOptions)
    (h : a.field.kept x y) (hx : a.holds x) : a.holds y := by
  cases a <;> exact Eq.trans h hx

theorem Assignment.set_files (a : Assignment) (o : ScrotOptions) :
    (a.set o).outputFile = o.outputFile ∧ (a.set o).thumbFile = o.thumbFile := by
  cases a <;> exact ⟨rfl, rfl⟩

theorem Field.kept_files (f : Field) (x y : ScrotOptions) (file thumb : Option (List Char))
    (h : f.kept x y) : f.kept x { y with outputFile := file, thumbFile := thumb } := by
  cases f <;> exact h

/-- The fields no assignment of a list is for are left as they were. -/
theorem assign_kept (f : Field) (l : List Assignment) :
    ∀ o : ScrotOptions, (∀ b ∈ l, b.field ≠ f) → f.kept o (assign l o) := by
  induction l with
  | nil => intro o _; exact f.kept_refl o
  | cons b l ih =>
    intro o h
    rw [assign_cons]
    exact f.kept_trans _ _ _ (b.kept_set f o (h b (List.mem_cons_self _ _)))
      (ih (b.set o) (fun x hx => h x (List.mem_cons_of_mem _ hx)))

/-- Last write wins: after a list of assignments, an assignment of the list
that no later one of the same field follows holds. -/
theorem assign_last (pre post : List Assignment) (a : Assignment) (o : ScrotOptions)
    (h : ∀ b ∈ post, b.field ≠ a.field) : a.holds (assign (pre ++ a :: post) o) := by
  rw [assign_append, assign_cons]
  exact a.holds_of_kept _ _ (assign_kept a.field post _ h) (a.holds_set _)

theorem assign_files (l : List Assignment) :
    ∀ o : ScrotOptions, (assign l o).outputFile = o.outputFile
      ∧ (assign l o).thumbFile = o.thumbFile := by
  induction l with
  | nil => intro o; exact ⟨rfl, rfl⟩
  | cons b l ih =>
    intro o
    rw [assign_cons]
    exact ⟨(ih _).1.trans (b.set_files o).1, (ih _).2.trans (b.set_files o).2⟩

/-! ## Lemmas: what the handlers store is what their arguments supply -/

theorem matchToken_token (name : List Char) :
    matchToken token name =
      if name = "style".toList then some 0
      else if name = "width".toList then some 1
      else if name = "color".toList then some 2
      else if name = "opacity".toList then some 3
      else if name = "mode".toList then some 4
      else none := by
  simp only [token, matchToken]
  split_ifs <;> rfl

/-- The `switch` of `optionsParseLine` stores what the suboption supplies. -/
theorem optionsParseLineCase_supplies (s : List Char) (o o1 : ScrotOptions) (hs : s ≠ [])
    (h : optionsParseLineCase (getsubopt s token none).index (getsubopt s token none).value o
      = .ok o1) :
    o1 = assign (suboptionSupplies (s.takeWhile (fun c => decide (c ≠ ',')))) o := by
  obtain ⟨hi, _, hv⟩ := getsubopt_spec s hs
  obtain ⟨⟨i, hidx⟩, v, hval, hvne⟩ := optionsParseLineCase_ok _ _ o o1 h
  have hv2 := hv ⟨i, hidx⟩
  rw [hval] at h hv2
  rw [hi, matchToken_token] at h
  generalize s.takeWhile (fun c => decide (c ≠ ',')) = t at h hv2 ⊢
  have hvt : suboptionValue t = v := by
    split_ifs at hv2
    exact (Option.some.inj hv2).symm
  have h4 := strncmp_word v "dash".toList
  have h5 := strncmp_word v "solid".toList
  rw [show "dash".toList.length = 4 from rfl] at h4
  rw [show "solid".toList.length = 5 from rfl] at h5
  have hstr : optionsParseIsString (some v) = true := by
    simp [optionsParseIsString, hvne]
  unfold suboptionSupplies
  rw [hvt]
  split_ifs at h ⊢
  all_goals simp only [optionsParseLineCase, hstr, not_true_eq_false, if_false, h4, h5,
    Option.getD_some] at h
  all_goals try split_ifs at h
  all_goals try first
    | (simp at h; done)
    | (simp only [Except.ok.injEq] at h; subst h; rfl)
  all_goals
    cases hp : optionsParseRequiredDecimal (some v) with
    | error e1 => rw [hp] at h; simp at h
    | ok w =>
      rw [hp] at h
      simp only at h
      try split_ifs at h
      simp only [Except.ok.injEq] at h
      subst h
      rfl

theorem suboptionSupplies_nil : suboptionSupplies [] = [] := by
  rfl

/-- Source and specification of `--line` agree: `optionsParseLine` stores
what the suboptions of its argument supply, from left to right. -/
theorem optionsParseLine_supplies (n : Nat) :
    ∀ (s : List Char) (o o2 : ScrotOptions), s.length ≤ n →
      optionsParseLine s o = .ok o2 → o2 = assign (lineSupplies s) o := by
  induction n with
  | zero =>
    intro s o o2 hl h
    have hs : s = [] := List.length_eq_zero.1 (by omega)
    subst hs
    simp only [optionsParseLine_nil, Except.ok.injEq] at h
    subst h
    rfl
  | succ n ih =>
    intro s o o2 hl h
    by_cases hs : s = []
    · subst hs
      simp only [optionsParseLine_nil, Except.ok.injEq] at h
      subst h
      rfl
    · rw [optionsParseLine_step s o hs] at h
      have hlen := getsubopt_length s token none hs
      have hsub := (getsubopt_spec s hs).2.1
      cases h1 : optionsParseLineCase (getsubopt s token none).index
          (getsubopt s token none).value o with
      | error e1 => rw [h1] at h; simp at h
      | ok o1 =>
        rw [h1] at h
        simp only at h
        have e1 := optionsParseLineCase_supplies s o o1 hs h1
        have e2 := ih _ o1 o2 (by omega) h
        have hsplit := List.takeWhile_append_dropWhile (fun c => decide (c ≠ ',')) s
        have hno := takeWhile_no_comma s
        rw [hsub] at e2
        rcases dropWhile_comma_cases s with hd | ⟨a1, hd⟩
        · rw [hd, List.append_nil] at hsplit
          rw [hd] at e2
          rw [hsplit] at e1 hno
          have hcp := commaPieces_no_comma s hno
          rw [e2, e1]
          simp [lineSupplies, hcp, commaPieces, suboptionSupplies_nil, assign_append, assign_nil]
        · rw [hd] at hsplit e2
          generalize s.takeWhile (fun c => decide (c ≠ ',')) = p at hsplit hno e1
          subst hsplit
          have hcp := commaPieces_comma p a1 hno
          rw [e2, e1]
          simp [lineSupplies, hcp, assign_append]

/-- Source and specification of `--select` agree. -/
theorem optionsParseSelection_supplies (optarg : Option (List Char)) (o o1 : ScrotOptions)
    (h : optionsParseSelection optarg o = .ok o1) : o1 = assign (selectSupplies optarg) o := by
  cases optarg with
  | none =>
    simp only [optionsParseSelection, Except.ok.injEq] at h
    subst h
    rfl
  | some arg =>
    have h7 := strncmp_word (if '=' ∈ arg then afterFirstEquals arg else arg) "capture".toList
    have h4a := strncmp_word (if '=' ∈ arg then afterFirstEquals arg else arg) "hide".toList
    have h4b := strncmp_word (if '=' ∈ arg then afterFirstEquals arg else arg) "hole".toList
    rw [show "capture".toList.length = 7 from rfl] at h7
    rw [show "hide".toList.length = 4 from rfl] at h4a
    rw [show "hole".toList.length = 4 from rfl] at h4b
    have hv : (if strchr arg '=' = true then (arg.dropWhile (fun c => decide (c ≠ '='))).drop 1
        else arg) = (if '=' ∈ arg then afterFirstEquals arg else arg) := by
      simp [strchr, afterFirstEquals]
    simp only [optionsParseSelection, hv, h7, h4a, h4b] at h
    simp only [selectSupplies]
    generalize (if '=' ∈ arg then afterFirstEquals arg else arg) = value at h ⊢
    split_ifs at h ⊢
    all_goals first
      | (simp at h; done)
      | (simp only [Except.ok.injEq] at h; subst h; rfl)

/-- Source and specification of `--thumb` agree. -/
theorem optionsParseThumbnail_supplies (optarg : List Char) (o o1 : ScrotOptions)
    (h : optionsParseThumbnail optarg o = .ok o1) : o1 = assign (thumbSupplies optarg) o := by
  unfold optionsParseThumbnail at h
  unfold thumbSupplies
  by_cases hx : 'x' ∈ optarg
  · have hx2 : strchr optarg 'x' = true := by simp [strchr, hx]
    rw [if_pos hx2] at h
    rw [if_pos hx]
    dsimp only at h
    cases h1 : optionsParseRequiredDecimal (strtok optarg ['x']).token with
    | error e => rw [h1] at h; simp at h
    | ok w1 =>
      rw [h1] at h
      dsimp only at h
      cases h2 : (strtok (strtok optarg ['x']).save ['x']).token with
      | none =>
        rw [h2] at h
        simp only [Except.ok.injEq] at h
        subst h
        rfl
      | some tok =>
        rw [h2] at h
        dsimp only at h ⊢
        cases h3 : optionsParseRequiredDecimal (some (strtok optarg ['x']).start) with
        | error e => rw [h3] at h; simp at h
        | ok w =>
          rw [h3] at h
          dsimp only at h
          cases h4 : optionsParseRequiredDecimal (some tok) with
          | error e => rw [h4] at h; simp at h
          | ok ht =>
            rw [h4] at h
            simp only [Except.ok.injEq] at h
            subst h
            have e : (if (if w < 0 then 1 else w) = 0 ∧ (if ht < 0 then 1 else ht) = 0 then (0 : Int)
                else 1) = (if w = 0 ∧ ht = 0 then 0 else 1) := by
              split_ifs <;> first | rfl | omega
            simp only [e]
            rfl
  · have hx2 : ¬ strchr optarg 'x' = true := by simp [strchr, hx]
    rw [if_neg hx2] at h
    rw [if_neg hx]
    cases h1 : optionsParseRequiredDecimal (some optarg) with
    | error e => rw [h1] at h; simp at h
    | ok t =>
      rw [h1] at h
      simp only [Except.ok.injEq] at h
      subst h
      have e : (if t < 1 then (1 : Int) else if t > 100 then 100 else t) = max 1 (min t 100) := by
        split_ifs <;> omega
      simp only [e]
      rfl

theorem storeDimensions_values (ts : List (List Char)) :
    ∀ (dims out : List Int), storeDimensions ts dims = .ok out →
      dims.map Except.ok ++ ts.map (fun t => optionsParseRequiredDecimal (some t))
        = out.map Except.ok := by
  induction ts with
  | nil =>
    intro dims out h
    simp only [storeDimensions, Except.ok.injEq] at h
    subst h
    simp
  | cons t ts ih =>
    intro dims out h
    unfold storeDimensions at h
    cases hp : optionsParseRequiredDecimal (some t) with
    | error e => rw [hp] at h; simp at h
    | ok v =>
      rw [hp] at h
      dsimp only at h
      split_ifs at h
      have := ih _ _ h
      rw [← this]
      simp [hp]

/-- Source and specification of `--autoselect` agree. -/
theorem optionsParseAutoselect_supplies (optarg : List Char) (o o1 : ScrotOptions)
    (h : optionsParseAutoselect optarg o = .ok o1) :
    o1 = assign (autoselectSupplies optarg) o := by
  rw [optionsParseAutoselect_fields] at h
  split_ifs at h
  cases hf : fields optarg with
  | nil => rw [hf] at h; simp at h
  | cons t ts =>
    rw [hf] at h
    dsimp only at h
    cases hp : optionsParseRequiredDecimal (some t) with
    | error e => rw [hp] at h; simp at h
    | ok v =>
      rw [hp] at h
      dsimp only at h
      cases hs : storeDimensions ts [v] with
      | error e => rw [hs] at h; simp at h
      | ok dims =>
        rw [hs] at h
        dsimp only at h
        have hv := storeDimensions_values ts [v] dims hs
        split at h
        next x y w ht =>
          simp only [Except.ok.injEq] at h
          subst h
          have hm : (fields optarg).map (fun t => optionsParseRequiredDecimal (some t))
              = [.ok x, .ok y, .ok w, .ok ht] := by
            rw [hf, List.map_cons, hp]
            simpa using hv
          unfold autoselectSupplies
          rw [hm]
          rfl
        next => simp at h

theorem nonNegativeNumber_max (n : Int) : nonNegativeNumber n = max n 0 := by
  unfold nonNegativeNumber
  split_ifs <;> omega

/-- Source and specification of the options agree: every case of the `switch`
of `optionsParse` stores what the option supplies. -/
theorem optionsParseSwitch_supplies (n1 : List Char → Option Failure) (r : GetoptReturn)
    (o o1 : ScrotOptions) (h : optionsParseSwitch n1 r o = .ok o1) :
    o1 = assign (supplies r) o := by
  obtain ⟨ch, arg⟩ := r
  by_cases h_h : ch = 'h'
  · subst h_h
    have e : ∀ n o, optionsParseSwitch n ⟨'h', arg⟩ o = .error .exitSuccess := fun _ _ => rfl
    rw [e] at h
    simp at h
  by_cases h_v : ch = 'v'
  · subst h_v
    have e : ∀ n o, optionsParseSwitch n ⟨'v', arg⟩ o = .error .exitSuccess := fun _ _ => rfl
    rw [e] at h
    simp at h
  by_cases h_b : ch = 'b'
  · subst h_b
    have e : ∀ n o, optionsParseSwitch n ⟨'b', arg⟩ o = .ok { o with border := 1 } :=
      fun _ _ => rfl
    have s : supplies ⟨'b', arg⟩ = [.border 1] := rfl
    rw [e] at h
    rw [s]
    simp only [Except.ok.injEq] at h
    subst h
    rfl
  by_cases h_d : ch = 'd'
  · subst h_d
    have e : ∀ n o, optionsParseSwitch n ⟨'d', arg⟩ o
        = (match optionsParseRequiredDecimal arg with
           | .error e => .error e
           | .ok n => .ok { o with delay := nonNegativeNumber n }) := fun _ _ => rfl
    have s : supplies ⟨'d', arg⟩
        = (match optionsParseRequiredDecimal arg with
           | .ok n => [.delay (max n 0)]
           | .error _ => []) := rfl
    rw [e] at h
    rw [s]
    cases hp : optionsParseRequiredDecimal arg with
    | error e1 => rw [hp] at h; simp at h
    | ok w =>
      rw [hp] at h
      simp only [Except.ok.injEq, nonNegativeNumber_max] at h
      subst h
      rfl
  by_cases h_e : ch = 'e'
  · subst h_e
    have e : ∀ n o, optionsParseSwitch n ⟨'e', arg⟩ o
        = withOptarg arg (fun a => .ok { o with exec := some a }) := fun _ _ => rfl
    have s : supplies ⟨'e', arg⟩ = [.exec arg] := rfl
    rw [e] at h
    rw [s]
    cases arg with
    | none => simp [withOptarg] at h
    | some a =>
      simp only [withOptarg, Except.ok.injEq] at h
      subst h
      rfl
  by_cases h_m : ch = 'm'
  · subst h_m
    have e : ∀ n o, optionsParseSwitch n ⟨'m', arg⟩ o = .ok { o with multidisp := 1 } :=
      fun _ _ => rfl
    have s : supplies ⟨'m', arg⟩ = [.multidisp 1] := rfl
    rw [e] at h
    rw [s]
    simp only [Except.ok.injEq] at h
    subst h
    rfl
  by_cases h_q : ch = 'q'
  · subst h_q
    have e : ∀ n o, optionsParseSwitch n ⟨'q', arg⟩ o
        = (match optionsParseRequiredDecimal arg with
           | .error e => .error e
           | .ok n => .ok { o with quality := n }) := fun _ _ => rfl
    have s : supplies ⟨'q', arg⟩
        = (match optionsParseRequiredDecimal arg with
           | .ok n => [.quality (n)]
           | .error _ => []) := rfl
    rw [e] at h
    rw [s]
    cases hp : optionsParseRequiredDecimal arg with
    | error e1 => rw [hp] at h; simp at h
    | ok w =>
      rw [hp] at h
      simp only [Except.ok.injEq] at h
      subst h
      rfl
  by_cases h_s : ch = 's'
  · subst h_s
    have e : ∀ n o, optionsParseSwitch n ⟨'s', arg⟩ o = optionsParseSelection arg o :=
      fun _ _ => rfl
    have s : supplies ⟨'s', arg⟩ = selectSupplies arg := rfl
    rw [e] at h
    rw [s]
    exact optionsParseSelection_supplies arg o o1 h
  by_cases h_u : ch = 'u'
  · subst h_u
    have e : ∀ n o, optionsParseSwitch n ⟨'u', arg⟩ o = .ok { o with focused := 1 } :=
      fun _ _ => rfl
    have s : supplies ⟨'u', arg⟩ = [.focused 1] := rfl
    rw [e] at h
    rw [s]
    simp only [Except.ok.injEq] at h
    subst h
    rfl
  by_cases h_c : ch = 'c'
  · subst h_c
    have e : ∀ n o, optionsParseSwitch n ⟨'c', arg⟩ o = .ok { o with countdown := 1 } :=
      fun _ _ => rfl
    have s : supplies ⟨'c', arg⟩ = [.countdown 1] := rfl
    rw [e] at h
    rw [s]
    simp only [Except.ok.injEq] at h
    subst h
    rfl
  by_cases h_t : ch = 't'
  · subst h_t
    have e : ∀ n o, optionsParseSwitch n ⟨'t', arg⟩ o
        = withOptarg arg (fun a => optionsParseThumbnail a o) := fun _ _ => rfl
    have s : supplies ⟨'t', arg⟩ = thumbSupplies (arg.getD []) := rfl
    rw [e] at h
    rw [s]
    cases arg with
    | none => simp [withOptarg] at h
    | some a =>
      simp only [withOptarg] at h
      exact optionsParseThumbnail_supplies a o o1 h
  by_cases h_z : ch = 'z'
  · subst h_z
    have e : ∀ n o, optionsParseSwitch n ⟨'z', arg⟩ o = .ok { o with silent := 1 } :=
      fun _ _ => rfl
    have s : supplies ⟨'z', arg⟩ = [.silent 1] := rfl
    rw [e] at h
    rw [s]
    simp only [Except.ok.injEq] at h
    subst h
    rfl
  by_cases h_p : ch = 'p'
  · subst h_p
    have e : ∀ n o, optionsParseSwitch n ⟨'p', arg⟩ o = .ok { o with pointer := 1 } :=
      fun _ _ => rfl
    have s : supplies ⟨'p', arg⟩ = [.pointer 1] := rfl
    rw [e] at h
    rw [s]
    simp only [Except.ok.injEq] at h
    subst h
    rfl
  by_cases h_f : ch = 'f'
  · subst h_f
    have e : ∀ n o, optionsParseSwitch n ⟨'f', arg⟩ o = .ok { o with freeze := 1 } :=
      fun _ _ => rfl
    have s : supplies ⟨'f', arg⟩ = [.freeze 1] := rfl
    rw [e] at h
    rw [s]
    simp only [Except.ok.injEq] at h
    subst h
    rfl
  by_cases h_o : ch = 'o'
  · subst h_o
    have e : ∀ n o, optionsParseSwitch n ⟨'o', arg⟩ o = .ok { o with overwrite := 1 } :=
      fun _ _ => rfl
    have s : supplies ⟨'o', arg⟩ = [.overwrite 1] := rfl
    rw [e] at h
    rw [s]
    simp only [Except.ok.injEq] at h
    subst h
    rfl
  by_cases h_a : ch = 'a'
  · subst h_a
    have e : ∀ n o, optionsParseSwitch n ⟨'a', arg⟩ o
        = withOptarg arg (fun a => optionsParseAutoselect a o) := fun _ _ => rfl
    have s : supplies ⟨'a', arg⟩ = autoselectSupplies (arg.getD []) := rfl
    rw [e] at h
    rw [s]
    cases arg with
    | none => simp [withOptarg] at h
    | some a =>
      simp only [withOptarg] at h
      exact optionsParseAutoselect_supplies a o o1 h
  by_cases h_upD : ch = 'D'
  · subst h_upD
    have e : ∀ n o, optionsParseSwitch n ⟨'D', arg⟩ o
        = withOptarg arg (fun a => optionsParseDisplay a o) := fun _ _ => rfl
    have s : supplies ⟨'D', arg⟩ = [.display (arg.map (fun a => a.take 256))] := rfl
    rw [e] at h
    rw [s]
    cases arg with
    | none => simp [withOptarg] at h
    | some a =>
      simp only [withOptarg, optionsParseDisplay, Except.ok.injEq] at h
      subst h
      rfl
  by_cases h_n : ch = 'n'
  · subst h_n
    have e : ∀ n o, optionsParseSwitch n ⟨'n', arg⟩ o
        = withOptarg arg (fun a => optionsParseNote n a o) := fun _ _ => rfl
    have s : supplies ⟨'n', arg⟩ = [.note arg] := rfl
    rw [e] at h
    rw [s]
    cases arg with
    | none => simp [withOptarg] at h
    | some a =>
      simp only [withOptarg, optionsParseNote] at h
      split_ifs at h
      cases hn : n1 a with
      | some e1 => rw [hn] at h; simp at h
      | none =>
        rw [hn] at h
        simp only [Except.ok.injEq] at h
        subst h
        rfl
  by_cases h_l : ch = 'l'
  · subst h_l
    have e : ∀ n o, optionsParseSwitch n ⟨'l', arg⟩ o
        = withOptarg arg (fun a => optionsParseLine a o) := fun _ _ => rfl
    have s : supplies ⟨'l', arg⟩ = lineSupplies (arg.getD []) := rfl
    rw [e] at h
    rw [s]
    cases arg with
    | none => simp [withOptarg] at h
    | some a =>
      simp only [withOptarg] at h
      exact optionsParseLine_supplies a.length a o o1 (le_refl _) h
  by_cases h_k : ch = 'k'
  · subst h_k
    have e : ∀ n o, optionsParseSwitch n ⟨'k', arg⟩ o = .ok { o with stack := 1 } :=
      fun _ _ => rfl
    have s : supplies ⟨'k', arg⟩ = [.stack 1] := rfl
    rw [e] at h
    rw [s]
    simp only [Except.ok.injEq] at h
    subst h
    rfl
  by_cases h_upC : ch = 'C'
  · subst h_upC
    have e : ∀ n o, optionsParseSwitch n ⟨'C', arg⟩ o = optionsParseWindowClassName arg o :=
      fun _ _ => rfl
    rw [e] at h
    cases arg with
    | none => simp [optionsParseWindowClassName] at h
    | some name =>
      have s : supplies ⟨'C', some name⟩
          = if name ≠ [] then [.windowClassName (some (name.take 80))] else [] := rfl
      rw [s]
      simp only [optionsParseWindowClassName] at h
      split_ifs at h with hne
      · simp only [Except.ok.injEq] at h
        subst h
        rw [if_pos hne]
        rfl
      · simp only [Except.ok.injEq] at h
        subst h
        rw [if_neg hne]
        rfl
  by_cases h_upS : ch = 'S'
  · subst h_upS
    have e : ∀ n o, optionsParseSwitch n ⟨'S', arg⟩ o
        = withOptarg arg (fun a => .ok { o with script := some a }) := fun _ _ => rfl
    have s : supplies ⟨'S', arg⟩ = [.script arg] := rfl
    rw [e] at h
    rw [s]
    cases arg with
    | none => simp [withOptarg] at h
    | some a =>
      simp only [withOptarg, Except.ok.injEq] at h
      subst h
      rfl
  by_cases h_w : ch = 'w'
  · subst h_w
    have e : ∀ n o, optionsParseSwitch n ⟨'w', arg⟩ o
        = (match optionsParseRequiredNumber arg with
           | .error e => .error e
           | .ok n => .ok { o with window := n }) := fun _ _ => rfl
    have s : supplies ⟨'w', arg⟩
        = (match optionsParseRequiredNumber arg with
           | .ok n => [.window (n)]
           | .error _ => []) := rfl
    rw [e] at h
    rw [s]
    cases hp : optionsParseRequiredNumber arg with
    | error e1 => rw [hp] at h; simp at h
    | ok w =>
      rw [hp] at h
      simp only [Except.ok.injEq] at h
      subst h
      rfl
  by_cases h_question : ch = '?'
  · subst h_question
    have e : ∀ n o, optionsParseSwitch n ⟨'?', arg⟩ o = .error .unknownOption := fun _ _ => rfl
    rw [e] at h
    simp at h
  have e : ∀ n o, optionsParseSwitch n ⟨ch, arg⟩ o = .ok o := by
    intro n o
    simp only [optionsParseSwitch, h_h, h_v, h_b, h_d, h_e, h_m, h_q, h_s, h_u, h_c, h_t, h_z, h_p, h_f, h_o, h_a, h_upD, h_n, h_l, h_k, h_upC, h_upS, h_w, h_question, if_false]
  have s : supplies ⟨ch, arg⟩ = [] := by
    simp only [supplies, h_b, h_d, h_e, h_m, h_q, h_s, h_u, h_c, h_t, h_z, h_p, h_f, h_o, h_a, h_upD, h_n, h_l, h_k, h_upC, h_upS, h_w, if_false]
  rw [e] at h
  rw [s]
  simp only [Except.ok.injEq] at h
  subst h
  rfl

/-- The loop over the options stores what the options supply, in their order. -/
theorem optionsParseOptions_supplies (n1 : List Char → Option Failure) (rs : List GetoptReturn) :
    ∀ (o o1 : ScrotOptions), optionsParseOptions n1 rs o = .ok o1 →
      o1 = assign (rs.flatMap supplies) o := by
  induction rs with
  | nil =>
    intro o o1 h
    simp only [optionsParseOptions, Except.ok.injEq] at h
    subst h
    rfl
  | cons r rs ih =>
    intro o o1 h
    unfold optionsParseOptions at h
    cases h1 : optionsParseSwitch n1 r o with
    | error e => rw [h1] at h; simp at h
    | ok o2 =>
      rw [h1] at h
      simp only at h
      rw [ih o2 o1 h, optionsParseSwitch_supplies n1 r o o2 h1, List.flatMap_cons, assign_append]

theorem Assignment.holds_files (a : Assignment) (x : ScrotOptions)
    (file thumb : Option (List Char)) (h : a.holds x) :
    a.holds { x with outputFile := file, thumbFile := thumb } := by
  cases a <;> exact h

/-! ## The claims -/

/-- C1: for every decimal numeral (an optional sign followed by one or more
digits), `optionsParseRequiredDecimal` returns exactly the value of the numeral
when that value lies in `[-2^31, 2^31-1]`, and ends in the range error
(`err "error strtol"`) when it lies outside, never returning a wrapped or
truncated value. -/
theorem C1_decimal_exact_or_range_error (sg : Sign) (ds : List Nat) (hne : ds ≠ [])
    (hd : ∀ d ∈ ds, d < 10) :
    (-2147483648 ≤ numeralValue sg ds ∧ numeralValue sg ds ≤ 2147483647 →
        optionsParseRequiredDecimal (some (numeral sg ds)) = .ok (numeralValue sg ds))
    ∧ (¬ (-2147483648 ≤ numeralValue sg ds ∧ numeralValue sg ds ≤ 2147483647) →
        optionsParseRequiredDecimal (some (numeral sg ds)) = .error .errorStrtol) := by
  have h := parse_numeral sg ds [] hne hd (by simp)
  simp only [List.append_nil, INT_MIN, INT_MAX] at h
  constructor
  · intro hv
    rw [h, if_pos hv]
  · intro hv
    rw [h, if_neg hv]

/-- C1, at the numerals `-2147483648` (the least value that fits) and
`2147483648` (the first that does not). -/
theorem C1_decimal_exact_or_range_error_witness :
    ([2, 1, 4, 7, 4, 8, 3, 6, 4, 8] ≠ [] ∧ ∀ d ∈ [2, 1, 4, 7, 4, 8, 3, 6, 4, 8], d < 10)
    ∧ optionsParseRequiredDecimal (some "-2147483648".toList) = .ok (-2147483648)
    ∧ optionsParseRequiredDecimal (some "2147483648".toList) = .error .errorStrtol :=
  ⟨⟨by decide, by decide⟩,
   (C1_decimal_exact_or_range_error .minus [2, 1, 4, 7, 4, 8, 3, 6, 4, 8]
      (by decide) (by decide)).1 (by decide),
   (C1_decimal_exact_or_range_error .none [2, 1, 4, 7, 4, 8, 3, 6, 4, 8]
      (by decide) (by decide)).2 (by decide)⟩

/-- C2: for all integers `n`, `lo`, `hi` with `lo <= hi`,
`optionsParseRequireRange n lo hi` is `lo` when `n < lo`, `hi` when `n > hi`
and `n` otherwise, so the result always lies in `[lo, hi]`. -/
theorem C2_require_range_clamps (n lo hi : Int) (h : lo ≤ hi) :
    (n < lo → optionsParseRequireRange n lo hi = lo)
    ∧ (n > hi → optionsParseRequireRange n lo hi = hi)
    ∧ (lo ≤ n ∧ n ≤ hi → optionsParseRequireRange n lo hi = n)
    ∧ lo ≤ optionsParseRequireRange n lo hi ∧ optionsParseRequireRange n lo hi ≤ hi := by
  unfold optionsParseRequireRange
  refine ⟨?_, ?_, ?_, ?_, ?_⟩ <;> intros <;> split_ifs <;> omega

/-- C2, at `n = 150`, `lo = 1`, `hi = 100`. -/
theorem C2_require_range_clamps_witness :
    (1 : Int) ≤ 100 ∧ optionsParseRequireRange 150 1 100 = 100 :=
  ⟨by decide, (C2_require_range_clamps 150 1 100 (by decide)).2.1 (by decide)⟩

/-- C3: for every width `w` in `[1,8]` and every 32-bit opacity `o`,
`optionsParseLine` on `style=dash,width=<w>,opacity=<o>` (the numbers in
their decimal rendering) succeeds, and the configuration it leaves has
`lineStyle` dashed, `lineWidth = w`, `lineOpacity = o` and every other field,
`lineColor` and `lineMode` among them, as before. -/
theorem C3_line_style_width_opacity (w o : Int) (c : ScrotOptions)
    (hw : 1 ≤ w ∧ w ≤ 8) (ho : -2147483648 ≤ o ∧ o ≤ 2147483647) :
    optionsParseLine
        ("style=dash,width=".toList ++ decimal w ++ ",opacity=".toList ++ decimal o) c
      = .ok { c with lineStyle := LineOnOffDash, lineWidth := w, lineOpacity := o } := by
  obtain ⟨sw, dw, hew, hnw, hdw, hvw⟩ := decimal_spec w
  obtain ⟨so, dop, heo, hno, hdo, hvo⟩ := decimal_spec o
  have hcw : ',' ∉ decimal w := not_mem_decimal w ',' (by decide) (by decide) (Or.inl (by decide))
  have hco : ',' ∉ decimal o := not_mem_decimal o ',' (by decide) (by decide) (Or.inl (by decide))
  have e1 : "style=dash,width=".toList ++ decimal w ++ ",opacity=".toList ++ decimal o
      = "style".toList ++ '=' :: "dash".toList ++
          ',' :: ("width".toList ++ '=' :: decimal w ++
            ',' :: ("opacity".toList ++ '=' :: decimal o)) := by
    simp
  rw [e1, optionsParseLine_comma 0 _ _ _ (by decide) (by decide) (by decide) (by decide),
    optionsParseLineCase_style_dash]
  simp only []
  rw [optionsParseLine_comma 1 _ _ _ (by decide) (by decide) (by decide) hcw]
  rw [hew, optionsParseLineCase_width sw dw hnw hdw
    (by rw [hvw]; simp only [INT_MIN, INT_MAX]; omega), hvw, if_neg (by omega)]
  simp only []
  rw [optionsParseLine_last 3 _ _ (by decide) (by decide) (by decide) hco]
  rw [heo, optionsParseLineCase_opacity so dop hno hdo
    (by rw [hvo]; simp only [INT_MIN, INT_MAX]; omega), hvo]

/-- C3, at `style=dash,width=3,opacity=50` on the initial configuration. -/
theorem C3_line_style_width_opacity_witness :
    ((1 : Int) ≤ 3 ∧ (3 : Int) ≤ 8) ∧ ((-2147483648 : Int) ≤ 50 ∧ (50 : Int) ≤ 2147483647)
    ∧ optionsParseLine "style=dash,width=3,opacity=50".toList opt
        = .ok { opt with lineStyle := LineOnOffDash, lineWidth := 3, lineOpacity := 50 } :=
  ⟨by decide, by decide, C3_line_style_width_opacity 3 50 opt (by decide) (by decide)⟩

/-- C4: for every decimal numeral whose value `w` fits 32 bits,
`optionsParseLine` on `width=<numeral>` succeeds if and only if `1 <= w <= 8`,
then storing `w` as `lineWidth`; for `w <= 0` and for `w > 8` it ends in the
fatal error "Value of the range (1..8)". -/
theorem C4_line_width_range (sg : Sign) (ds : List Nat) (c : ScrotOptions) (hne : ds ≠ [])
    (hd : ∀ d ∈ ds, d < 10)
    (hv : -2147483648 ≤ numeralValue sg ds ∧ numeralValue sg ds ≤ 2147483647) :
    ((∃ c1, optionsParseLine ("width=".toList ++ numeral sg ds) c = .ok c1)
        ↔ (1 ≤ numeralValue sg ds ∧ numeralValue sg ds ≤ 8))
    ∧ (1 ≤ numeralValue sg ds ∧ numeralValue sg ds ≤ 8 →
        optionsParseLine ("width=".toList ++ numeral sg ds) c
          = .ok { c with lineWidth := numeralValue sg ds })
    ∧ (numeralValue sg ds ≤ 0 ∨ numeralValue sg ds > 8 →
        optionsParseLine ("width=".toList ++ numeral sg ds) c = .error .widthRange
          ∧ Failure.isFatal .widthRange = true) := by
  have hcw : ',' ∉ numeral sg ds :=
    not_mem_numeral sg ds hd ',' (by decide) (by decide) (Or.inl (by decide))
  have e1 : "width=".toList ++ numeral sg ds = "width".toList ++ '=' :: numeral sg ds := by
    simp
  have h : optionsParseLine ("width=".toList ++ numeral sg ds) c
      = if numeralValue sg ds ≤ 0 ∨ numeralValue sg ds > 8 then .error .widthRange
        else .ok { c with lineWidth := numeralValue sg ds } := by
    rw [e1, optionsParseLine_last 1 _ _ (by decide) (by decide) (by decide) hcw,
      optionsParseLineCase_width sg ds hne hd hv]
  rw [h]
  refine ⟨⟨?_, ?_⟩, ?_, ?_⟩
  · rintro ⟨c1, hc1⟩
    split_ifs at hc1 with hr
    · omega
  · intro hr
    rw [if_neg (by omega)]
    exact ⟨_, rfl⟩
  · intro hr
    rw [if_neg (by omega)]
  · intro hr
    rw [if_pos hr]
    exact ⟨rfl, rfl⟩

/-- C4, at `width=9`, which is fatal. -/
theorem C4_line_width_range_witness :
    ([9] ≠ [] ∧ (∀ d ∈ [9], d < 10)
      ∧ (-2147483648 ≤ numeralValue .none [9] ∧ numeralValue .none [9] ≤ 2147483647))
    ∧ optionsParseLine "width=9".toList opt = .error .widthRange :=
  ⟨⟨by decide, by decide, by decide⟩,
   ((C4_line_width_range .none [9] opt (by decide) (by decide) (by decide)).2.2
      (Or.inr (by decide))).1⟩

/-- C5 as stated fails: in `width=3,` the piece after the last comma is empty,
so its key is none of the five, yet `optionsParseLine` succeeds (the loop
stops at the end of the string and never sees that piece). -/
theorem C5_trailing_comma_accepted :
    (∃ t ∈ commaPieces "width=3,".toList, illFormed t)
    ∧ optionsParseLine "width=3,".toList opt = .ok { opt with lineWidth := 3 } :=
  ⟨⟨[], by decide, Or.inl (by decide)⟩, by decide⟩

/-- C5, amended: for every `--line` argument, `optionsParseLine` fails fatally
whenever some comma-separated piece of the argument, an empty piece at the
very end apart, has a key that is not one of `style`, `width`, `color`,
`opacity`, `mode`, or has one of those keys but no `=` or nothing after the
`=`. -/
theorem C5_line_illFormed_fatal (arg : List Char) (c : ScrotOptions)
    (h : ∃ t ∈ suboptions arg, illFormed t) :
    ∃ f, optionsParseLine arg c = .error f ∧ f.isFatal = true := by
  cases hp : optionsParseLine arg c with
  | error f => exact ⟨f, rfl, optionsParseLine_error_fatal arg.length arg c f (le_refl _) hp⟩
  | ok c2 =>
    obtain ⟨t, ht, hbad⟩ := h
    exact absurd hbad (optionsParseLine_ok_wellFormed arg.length arg c c2 (le_refl _) hp t ht)

/-- C5 amended, at `style=dash,,width=3` (an empty suboption in the middle). -/
theorem C5_line_illFormed_fatal_witness :
    (∃ t ∈ suboptions "style=dash,,width=3".toList, illFormed t)
    ∧ ∃ f, optionsParseLine "style=dash,,width=3".toList opt = .error f ∧ f.isFatal = true :=
  ⟨⟨[], by decide, Or.inl (by decide)⟩,
   C5_line_illFormed_fatal "style=dash,,width=3".toList opt ⟨[], by decide, Or.inl (by decide)⟩⟩

/-- C6: for all 32-bit values `x`, `y`, `w`, `h`, `optionsParseAutoselect` on
their decimal renderings joined by commas succeeds and sets `autoselect = 1`,
`autoselectX = x`, `autoselectY = y`, `autoselectW = w`, `autoselectH = h`,
leaving the other fields as they were. -/
theorem C6_autoselect_four_numbers (x y w h : Int) (c : ScrotOptions)
    (hx : -2147483648 ≤ x ∧ x ≤ 2147483647) (hy : -2147483648 ≤ y ∧ y ≤ 2147483647)
    (hw : -2147483648 ≤ w ∧ w ≤ 2147483647) (hh : -2147483648 ≤ h ∧ h ≤ 2147483647) :
    optionsParseAutoselect
        (decimal x ++ ',' :: (decimal y ++ ',' :: (decimal w ++ ',' :: decimal h))) c
      = .ok { c with autoselect := 1, autoselectX := x, autoselectY := y,
                     autoselectW := w, autoselectH := h } := by
  rw [optionsParseAutoselect_fields, if_pos (by simp),
    fields_four _ _ _ _ (comma_not_mem_decimal x) (comma_not_mem_decimal y)
      (comma_not_mem_decimal w) (comma_not_mem_decimal h) (decimal_ne_nil x) (decimal_ne_nil y)
      (decimal_ne_nil w) (decimal_ne_nil h)]
  simp [storeDimensions, parse_decimal_exact x hx, parse_decimal_exact y hy,
    parse_decimal_exact w hw, parse_decimal_exact h hh]

/-- C6, at `10,20,30,40` on the initial configuration. -/
theorem C6_autoselect_four_numbers_witness :
    (((-2147483648 : Int) ≤ 10 ∧ (10 : Int) ≤ 2147483647)
      ∧ ((-2147483648 : Int) ≤ 20 ∧ (20 : Int) ≤ 2147483647)
      ∧ ((-2147483648 : Int) ≤ 30 ∧ (30 : Int) ≤ 2147483647)
      ∧ ((-2147483648 : Int) ≤ 40 ∧ (40 : Int) ≤ 2147483647))
    ∧ optionsParseAutoselect "10,20,30,40".toList opt
        = .ok { opt with autoselect := 1, autoselectX := 10, autoselectY := 20,
                         autoselectW := 30, autoselectH := 40 } :=
  ⟨by decide,
   C6_autoselect_four_numbers 10 20 30 40 opt (by decide) (by decide) (by decide) (by decide)⟩

/-- C7 as stated fails: `10,,20,30,40` splits on commas into five pieces, one
of them empty, and in `10x,20,30,40` the piece `10x` is not a decimal
integer, yet `optionsParseAutoselect` succeeds on both (`strtok` passes over
empty pieces, `strtol` stops at the first character that is no digit). -/
theorem C7_five_pieces_accepted :
    (commaPieces "10,,20,30,40".toList).length = 5
    ∧ optionsParseAutoselect "10,,20,30,40".toList opt
        = .ok { opt with autoselect := 1, autoselectX := 10, autoselectY := 20,
                         autoselectW := 30, autoselectH := 40 }
    ∧ commaPieces "10x,20,30,40".toList
        = ["10x".toList, "20".toList, "30".toList, "40".toList]
    ∧ (∀ sg ds, (∀ d ∈ ds, d < 10) → "10x".toList ≠ numeral sg ds)
    ∧ optionsParseAutoselect "10x,20,30,40".toList opt
        = .ok { opt with autoselect := 1, autoselectX := 10, autoselectY := 20,
                         autoselectW := 30, autoselectH := 40 } := by
  refine ⟨by decide, by decide, by decide, ?_, by decide⟩
  intro sg ds hd he
  have hx : 'x' ∈ numeral sg ds := he ▸ (by decide : 'x' ∈ "10x".toList)
  exact not_mem_numeral sg ds hd 'x' (by decide) (by decide) (Or.inr (by decide)) hx

/-- C7, amended: `optionsParseAutoselect` succeeds only when the argument has
a comma and exactly four fields (non-empty pieces between commas), each of
which begins with a decimal integer that fits 32 bits (white space before
the integer and text after it are allowed); an argument with no comma is
fatal ("invalid format"), and so is an argument with a comma and one, two or
three fields. -/
theorem C7_autoselect_needs_four_fields (arg : List Char) (c : ScrotOptions) :
    (∀ c2, optionsParseAutoselect arg c = .ok c2 →
        ',' ∈ arg ∧ (fields arg).length = 4
          ∧ ∀ t ∈ fields arg,
              ∃ v, beginsWithInteger t v ∧ -2147483648 ≤ v ∧ v ≤ 2147483647)
    ∧ (',' ∉ arg → optionsParseAutoselect arg c = .error .autoselectFormat
          ∧ Failure.isFatal .autoselectFormat = true)
    ∧ (',' ∈ arg → 1 ≤ (fields arg).length → (fields arg).length < 4 →
        ∃ f, optionsParseAutoselect arg c = .error f ∧ f.isFatal = true) := by
  rw [optionsParseAutoselect_fields]
  refine ⟨?_, ?_, ?_⟩
  · intro c2 h
    split_ifs at h with hc
    refine ⟨hc, ?_⟩
    cases hf : fields arg with
    | nil => rw [hf] at h; simp at h
    | cons t ts =>
      rw [hf] at h
      simp only at h
      cases hp : optionsParseRequiredDecimal (some t) with
      | error e => rw [hp] at h; simp at h
      | ok v =>
        rw [hp] at h
        simp only at h
        cases hs : storeDimensions ts [v] with
        | error e => rw [hs] at h; simp at h
        | ok dims =>
          rw [hs] at h
          simp only at h
          obtain ⟨h1, h2⟩ := storeDimensions_ok ts [v] dims hs
          have hd4 : dims.length = 4 := by
            split at h
            · rfl
            · simp at h
          refine ⟨by simp at h1 ⊢; omega, ?_⟩
          intro u hu
          rcases List.mem_cons.1 hu with rfl | hu
          · exact ⟨v, beginsWithInteger_of_parse _ v hp⟩
          · obtain ⟨v2, hv2⟩ := h2 u hu
            exact ⟨v2, beginsWithInteger_of_parse u v2 hv2⟩
  · intro hc
    rw [if_neg hc]
    exact ⟨rfl, rfl⟩
  · intro hc h1 h4
    rw [if_pos hc]
    cases hf : fields arg with
    | nil => rw [hf] at h1; simp at h1
    | cons t ts =>
      rw [hf] at h4
      simp only [List.length_cons] at h4
      simp only
      cases hp : optionsParseRequiredDecimal (some t) with
      | error e => exact ⟨e, rfl, parseRequiredNumber_error_fatal t 10 e hp⟩
      | ok v =>
        simp only
        cases hs : storeDimensions ts [v] with
        | error e =>
          exact ⟨e, rfl, storeDimensions_error_fatal ts [v] e hs (by simp; omega)⟩
        | ok dims =>
          obtain ⟨h1, _⟩ := storeDimensions_ok ts [v] dims hs
          simp only [List.length_singleton] at h1
          refine ⟨.autoselectArguments, ?_, rfl⟩
          dsimp only
          split
          · simp at h1; omega
          · rfl

/-- C7 amended, at `10,20,30` (three fields), which is fatal. -/
theorem C7_autoselect_needs_four_fields_witness :
    (',' ∈ "10,20,30".toList ∧ 1 ≤ (fields "10,20,30".toList).length
      ∧ (fields "10,20,30".toList).length < 4)
    ∧ ∃ f, optionsParseAutoselect "10,20,30".toList opt = .error f ∧ f.isFatal = true :=
  ⟨by decide,
   (C7_autoselect_needs_four_fields "10,20,30".toList opt).2.2
     (by decide) (by decide) (by decide)⟩

/-- C8 as stated fails: `2147483648x1` has the form `<W>x<H>` with decimal
integers `W = 2147483648 >= 1` and `H = 1 >= 1`, and `optionsParseThumbnail`
ends in the range error of the decimal parser instead of storing them. -/
theorem C8_thumbnail_width_out_of_range :
    optionsParseThumbnail "2147483648x1".toList opt = .error .errorStrtol := by
  decide

/-- C8, amended: for every argument without the character `x` on which the
decimal parser returns `n`, `optionsParseThumbnail` sets `thumb` to `n`
clamped into `[1,100]` and leaves `thumbWidth`, `thumbHeight` and the rest
unchanged; for every argument `<W>x<H>` with `W` and `H` in `[1, 2^31-1]`
in their decimal rendering it sets `thumbWidth = W`, `thumbHeight = H` and
`thumb = 1`. -/
theorem C8_thumbnail_percentage_or_geometry (arg : List Char) (n W H : Int) (c : ScrotOptions)
    (hx : 'x' ∉ arg) (hn : optionsParseRequiredDecimal (some arg) = .ok n)
    (hW : 1 ≤ W ∧ W ≤ 2147483647) (hH : 1 ≤ H ∧ H ≤ 2147483647) :
    optionsParseThumbnail arg c
        = .ok { c with thumb := if n < 1 then 1 else if n > 100 then 100 else n }
    ∧ optionsParseThumbnail (decimal W ++ 'x' :: decimal H) c
        = .ok { c with thumbWidth := W, thumbHeight := H, thumb := 1 } := by
  constructor
  · simp [optionsParseThumbnail, strchr, hx, hn]
  · have hxW : 'x' ∉ decimal W :=
      not_mem_decimal W 'x' (by decide) (by decide) (Or.inr (by decide))
    have hxH : 'x' ∉ decimal H :=
      not_mem_decimal H 'x' (by decide) (by decide) (Or.inr (by decide))
    have hpW := parse_decimal_exact W ⟨by omega, hW.2⟩
    have hpH := parse_decimal_exact H ⟨by omega, hH.2⟩
    have hW0 : ¬ W < 0 := by omega
    have hH0 : ¬ H < 0 := by omega
    have hWne : W ≠ 0 := by omega
    simp [optionsParseThumbnail, strchr, strtok_token_delim 'x' _ _ hxW (decimal_ne_nil W),
      strtok_token_end 'x' _ hxH (decimal_ne_nil H), hpW, hpH, hW0, hH0, hWne]

/-- C8 amended, at `50` (percentage 50) and `200x100` (width 200, height
100) on the initial configuration. -/
theorem C8_thumbnail_percentage_or_geometry_witness :
    ('x' ∉ "50".toList ∧ optionsParseRequiredDecimal (some "50".toList) = .ok 50
      ∧ ((1 : Int) ≤ 200 ∧ (200 : Int) ≤ 2147483647) ∧ ((1 : Int) ≤ 100 ∧ (100 : Int) ≤ 2147483647))
    ∧ optionsParseThumbnail "50".toList opt = .ok { opt with thumb := 50 }
    ∧ optionsParseThumbnail "200x100".toList opt
        = .ok { opt with thumbWidth := 200, thumbHeight := 100, thumb := 1 } :=
  ⟨by decide,
   C8_thumbnail_percentage_or_geometry "50".toList 50 200 100 opt
     (by decide) (by decide) (by decide) (by decide)⟩

/-- C9 (defect in the code): `nameThumbnail` copies the part of `shot.png`
before the dot with `strncpy`, which writes no NUL, into a block `malloc`
did not clear, and then calls `strcat` on it. On a block filled with `A` the
first `strcat` finds no NUL inside the block and leaves it (undefined
behaviour) instead of giving `shot-thumb.png`; only on a block that happens
to hold NUL bytes is the result `shot-thumb.png`. The path for names without
a dot (`snprintf`) gives `shotnoext-thumb` whatever the block holds. -/
theorem C9_nameThumbnail_unterminated_copy :
    nameThumbnail (some (fun _ => 'A')) "shot.png".toList = .error .outOfBounds
    ∧ nameThumbnail (some (fun _ => NUL)) "shot.png".toList = .ok "shot-thumb.png".toList
    ∧ nameThumbnail (some (fun _ => 'A')) "shotnoext".toList = .ok "shotnoext-thumb".toList := by
  decide

/-- C10: `optionsParseSelection` with an absent argument sets `select` to
capture; with an argument that has no `=` it succeeds if and only if the
argument begins with `capture`, `hide` or `hole`, storing the mode of that
name, and ends in the fatal error "Unknown value for suboption" for every
other argument. -/
theorem C10_selection_modes (arg : List Char) (c : ScrotOptions) (h : '=' ∉ arg) :
    optionsParseSelection none c = .ok { c with select := some .capture }
    ∧ ((∃ c2, optionsParseSelection (some arg) c = .ok c2)
        ↔ ("capture".toList <+: arg ∨ "hide".toList <+: arg ∨ "hole".toList <+: arg))
    ∧ ("capture".toList <+: arg →
        optionsParseSelection (some arg) c = .ok { c with select := some .capture })
    ∧ ("hide".toList <+: arg →
        optionsParseSelection (some arg) c = .ok { c with select := some .hide })
    ∧ ("hole".toList <+: arg →
        optionsParseSelection (some arg) c = .ok { c with select := some .hole })
    ∧ (¬ ("capture".toList <+: arg ∨ "hide".toList <+: arg ∨ "hole".toList <+: arg) →
        optionsParseSelection (some arg) c = .error .selectUnknownValue
          ∧ Failure.isFatal .selectUnknownValue = true) := by
  have h7 := strncmp_word arg "capture".toList
  have h4a := strncmp_word arg "hide".toList
  have h4b := strncmp_word arg "hole".toList
  have e7 : "capture".toList.length = 7 := rfl
  have e4a : "hide".toList.length = 4 := rfl
  have e4b : "hole".toList.length = 4 := rfl
  rw [e7] at h7
  rw [e4a] at h4a
  rw [e4b] at h4b
  have hval : optionsParseSelection (some arg) c =
      if "capture".toList <+: arg then .ok { c with select := some .capture }
      else if "hide".toList <+: arg then .ok { c with select := some .hide }
      else if "hole".toList <+: arg then .ok { c with select := some .hole }
      else .error .selectUnknownValue := by
    simp only [optionsParseSelection, strchr, h, decide_False, Bool.false_eq_true, if_false, h7,
      h4a, h4b]
  have hch : "capture".toList <+: arg → ¬ "hide".toList <+: arg := by
    intro h1 h2
    have a1 := List.prefix_iff_eq_take.1 h1
    have a2 := List.prefix_iff_eq_take.1 h2
    rw [e7] at a1
    rw [e4a] at a2
    have : (arg.take 7).take 4 = arg.take 4 := by rw [List.take_take]; rfl
    rw [← a1, ← a2] at this
    exact absurd this (by decide)
  have hco : "capture".toList <+: arg → ¬ "hole".toList <+: arg := by
    intro h1 h2
    have a1 := List.prefix_iff_eq_take.1 h1
    have a2 := List.prefix_iff_eq_take.1 h2
    rw [e7] at a1
    rw [e4b] at a2
    have : (arg.take 7).take 4 = arg.take 4 := by rw [List.take_take]; rfl
    rw [← a1, ← a2] at this
    exact absurd this (by decide)
  have hho : "hide".toList <+: arg → ¬ "hole".toList <+: arg := by
    intro h1 h2
    have a1 := List.prefix_iff_eq_take.1 h1
    have a2 := List.prefix_iff_eq_take.1 h2
    rw [e4a] at a1
    rw [e4b] at a2
    rw [← a2] at a1
    exact absurd a1 (by decide)
  rw [hval]
  refine ⟨rfl, ⟨?_, ?_⟩, ?_, ?_, ?_, ?_⟩
  · rintro ⟨c2, hc2⟩
    split_ifs at hc2 with g1 g2 g3
    · exact Or.inl g1
    · exact Or.inr (Or.inl g2)
    · exact Or.inr (Or.inr g3)
  · rintro (g | g | g)
    · rw [if_pos g]; exact ⟨_, rfl⟩
    · rw [if_neg (fun g1 => hch g1 g), if_pos g]; exact ⟨_, rfl⟩
    · rw [if_neg (fun g1 => hco g1 g), if_neg (fun g1 => hho g1 g), if_pos g]; exact ⟨_, rfl⟩
  · intro g
    rw [if_pos g]
  · intro g
    rw [if_neg (fun g1 => hch g1 g), if_pos g]
  · intro g
    rw [if_neg (fun g1 => hco g1 g), if_neg (fun g1 => hho g1 g), if_pos g]
  · intro g
    rw [if_neg (fun g1 => g (Or.inl g1)), if_neg (fun g1 => g (Or.inr (Or.inl g1))),
      if_neg (fun g1 => g (Or.inr (Or.inr g1)))]
    exact ⟨rfl, rfl⟩

/-- C10, at `hide`, which stores the hide mode, and at `bogus`, which is fatal. -/
theorem C10_selection_modes_witness :
    ('=' ∉ "hide".toList ∧ '=' ∉ "bogus".toList)
    ∧ optionsParseSelection (some "hide".toList) opt = .ok { opt with select := some .hide }
    ∧ optionsParseSelection (some "bogus".toList) opt = .error .selectUnknownValue :=
  ⟨by decide,
   (C10_selection_modes "hide".toList opt (by decide)).2.2.2.1 (by decide),
   ((C10_selection_modes "bogus".toList opt (by decide)).2.2.2.2.2 (by decide)).1⟩

/-- C12: for every non-empty class name `optionsParseWindowClassName` does not
fail and stores the first `min(length, 80)` characters of the name, which is
the name itself when it has at most 80 characters; for the empty string it
leaves the configuration, `windowClassName` included, unchanged. -/
theorem C12_window_class_name_truncated (name : List Char) (c : ScrotOptions) :
    (name ≠ [] →
        optionsParseWindowClassName (some name) c
            = .ok { c with windowClassName := some (name.take 80) }
          ∧ (name.take 80).length = min name.length 80
          ∧ name.take 80 <+: name
          ∧ (name.length ≤ 80 → name.take 80 = name))
    ∧ optionsParseWindowClassName (some []) c = .ok c := by
  refine ⟨?_, by simp [optionsParseWindowClassName]⟩
  intro h
  refine ⟨by simp [optionsParseWindowClassName, h, MAX_LEN_WINDOW_CLASS_NAME], ?_,
    List.take_prefix _ _, fun hl => List.take_of_length_le hl⟩
  rw [List.length_take, Nat.min_comm]

/-- C12, at the class name `xterm`. -/
theorem C12_window_class_name_truncated_witness :
    "xterm".toList ≠ []
    ∧ optionsParseWindowClassName (some "xterm".toList) opt
        = .ok { opt with windowClassName := some "xterm".toList } :=
  ⟨by decide, ((C12_window_class_name_truncated "xterm".toList opt).1 (by decide)).1⟩

/-- C14 as stated fails: in `x=hide=y` the text after the last `=` is `y`,
which names no mode, yet `optionsParseSelection` succeeds with the hide mode;
in `a=b=hide` the text after the last `=` is `hide`, yet the call is fatal.
The code takes the text after the first `=` (`strchr`). -/
theorem C14_last_equals_not_used :
    afterLastEquals "x=hide=y".toList = "y".toList ∧ ¬ namesMode "y".toList
    ∧ optionsParseSelection (some "x=hide=y".toList) opt = .ok { opt with select := some .hide }
    ∧ afterLastEquals "a=b=hide".toList = "hide".toList ∧ namesMode "hide".toList
    ∧ optionsParseSelection (some "a=b=hide".toList) opt = .error .selectUnknownValue := by
  decide

/-- C14, amended: for every supplied `--select` argument that contains one or
more `=`, `optionsParseSelection` interprets only the text after the first
`=`: it succeeds exactly when that text begins with `capture`, `hide` or
`hole`, storing the mode of that name, whatever precedes the first `=`, and
is fatal otherwise. -/
theorem C14_selection_after_first_equals (arg : List Char) (c : ScrotOptions) (h : '=' ∈ arg) :
    ((∃ c2, optionsParseSelection (some arg) c = .ok c2) ↔ namesMode (afterFirstEquals arg))
    ∧ ("capture".toList <+: afterFirstEquals arg →
        optionsParseSelection (some arg) c = .ok { c with select := some .capture })
    ∧ ("hide".toList <+: afterFirstEquals arg →
        optionsParseSelection (some arg) c = .ok { c with select := some .hide })
    ∧ ("hole".toList <+: afterFirstEquals arg →
        optionsParseSelection (some arg) c = .ok { c with select := some .hole })
    ∧ (¬ namesMode (afterFirstEquals arg) →
        optionsParseSelection (some arg) c = .error .selectUnknownValue
          ∧ Failure.isFatal .selectUnknownValue = true) := by
  have hch := capture_excludes_hide (afterFirstEquals arg)
  have hco := capture_excludes_hole (afterFirstEquals arg)
  have hho := hide_excludes_hole (afterFirstEquals arg)
  rw [optionsParseSelection_equals arg c h]
  unfold namesMode
  refine ⟨⟨?_, ?_⟩, ?_, ?_, ?_, ?_⟩
  · rintro ⟨c2, hc2⟩
    split_ifs at hc2 with g1 g2 g3
    · exact Or.inl g1
    · exact Or.inr (Or.inl g2)
    · exact Or.inr (Or.inr g3)
  · rintro (g | g | g)
    · rw [if_pos g]; exact ⟨_, rfl⟩
    · rw [if_neg (fun g1 => hch g1 g), if_pos g]; exact ⟨_, rfl⟩
    · rw [if_neg (fun g1 => hco g1 g), if_neg (fun g1 => hho g1 g), if_pos g]; exact ⟨_, rfl⟩
  · intro g
    rw [if_pos g]
  · intro g
    rw [if_neg (fun g1 => hch g1 g), if_pos g]
  · intro g
    rw [if_neg (fun g1 => hco g1 g), if_neg (fun g1 => hho g1 g), if_pos g]
  · intro g
    rw [if_neg (fun g1 => g (Or.inl g1)), if_neg (fun g1 => g (Or.inr (Or.inl g1))),
      if_neg (fun g1 => g (Or.inr (Or.inr g1)))]
    exact ⟨rfl, rfl⟩

/-- C14 amended, at `=hide` (what `-s=hide` hands over), which stores the
hide mode. -/
theorem C14_selection_after_first_equals_witness :
    '=' ∈ "=hide".toList
    ∧ optionsParseSelection (some "=hide".toList) opt = .ok { opt with select := some .hide } :=
  ⟨by decide, (C14_selection_after_first_equals "=hide".toList opt (by decide)).2.2.1 (by decide)⟩

/-- C16 as stated fails: on `0x5` the call succeeds and stores the width 0,
not `max(0, 1) = 1`; only a negative dimension is replaced by 1. -/
theorem C16_zero_width_kept :
    optionsParseThumbnail "0x5".toList opt
        = .ok { opt with thumbWidth := 0, thumbHeight := 5, thumb := 1 }
    ∧ max (0 : Int) 1 ≠ 0 := by
  decide

/-- C16, amended: for every `--thumb` argument `<W>x<H>` with 32-bit `W` and
`H` in their decimal rendering, `optionsParseThumbnail` succeeds; a negative
dimension is stored as 1 and any other as it is (0 included); `thumb` is 0
when both stored dimensions are 0 and 1 otherwise. -/
theorem C16_thumbnail_geometry_negative_to_one (W H : Int) (c : ScrotOptions)
    (hW : -2147483648 ≤ W ∧ W ≤ 2147483647) (hH : -2147483648 ≤ H ∧ H ≤ 2147483647) :
    ∃ c2, optionsParseThumbnail (decimal W ++ 'x' :: decimal H) c = .ok c2
      ∧ c2.thumbWidth = (if W < 0 then 1 else W)
      ∧ c2.thumbHeight = (if H < 0 then 1 else H)
      ∧ c2.thumb = (if c2.thumbWidth = 0 ∧ c2.thumbHeight = 0 then 0 else 1)
      ∧ (W = 0 ∧ H = 0 → c2.thumb = 0) := by
  refine ⟨_, optionsParseThumbnail_geometry W H c hW hH, rfl, rfl, rfl, ?_⟩
  rintro ⟨rfl, rfl⟩
  simp

/-- C16 amended, at `-3x0` (width stored as 1, height 0, thumbnail on) and
at `0x0` (thumbnail off). -/
theorem C16_thumbnail_geometry_negative_to_one_witness :
    (((-2147483648 : Int) ≤ -3 ∧ (-3 : Int) ≤ 2147483647)
      ∧ ((-2147483648 : Int) ≤ 0 ∧ (0 : Int) ≤ 2147483647))
    ∧ (∃ c2, optionsParseThumbnail (decimal (-3) ++ 'x' :: decimal 0) opt = .ok c2
        ∧ c2.thumbWidth = (if (-3 : Int) < 0 then 1 else -3)
        ∧ c2.thumbHeight = (if (0 : Int) < 0 then 1 else 0)
        ∧ c2.thumb = (if c2.thumbWidth = 0 ∧ c2.thumbHeight = 0 then 0 else 1)
        ∧ ((-3 : Int) = 0 ∧ (0 : Int) = 0 → c2.thumb = 0))
    ∧ decimal (-3) ++ 'x' :: decimal 0 = "-3x0".toList
    ∧ optionsParseThumbnail "-3x0".toList opt
        = .ok { opt with thumbWidth := 1, thumbHeight := 0, thumb := 1 }
    ∧ optionsParseThumbnail "0x0".toList opt
        = .ok { opt with thumbWidth := 0, thumbHeight := 0, thumb := 0 } :=
  ⟨by decide, C16_thumbnail_geometry_negative_to_one (-3) 0 opt (by decide) (by decide),
   by decide, by decide, by decide⟩

/-- C17 (defect in the code): `parseRequiredNumber` asserts that its string
is not `NULL` ("Caller should never send NULL here"), but two callers pass it
what `strtok` returns without a test. On the argument `,`
`optionsParseAutoselect` and on the argument `x` `optionsParseThumbnail` get
`NULL` from `strtok` (the string holds delimiters only) and the assertion
fails; on `10x` the second `strtok` also returns `NULL`, which is tested. -/
theorem C17_null_reaches_assert :
    (strtok ",".toList [',']).token = none
    ∧ optionsParseAutoselect ",".toList opt = .error .assertion
    ∧ (strtok "x".toList ['x']).token = none
    ∧ optionsParseThumbnail "x".toList opt = .error .assertion
    ∧ optionsParseThumbnail "10x".toList opt = .ok { opt with thumbWidth := 10 } := by
  decide

/-- C18: for every string made of a decimal numeral whose value fits 32 bits
followed by a suffix that does not start with a digit,
`optionsParseRequiredDecimal` succeeds and returns the value of the numeral,
ignoring the suffix; for every string that does not begin with a decimal
integer (white space skipped, as `strtol` does), the empty string among
them, it ends in the fatal error "the option is not a number". -/
theorem C18_suffix_ignored_no_number_fatal (sg : Sign) (ds : List Nat) (suffix t : List Char)
    (hne : ds ≠ []) (hd : ∀ d ∈ ds, d < 10)
    (hv : -2147483648 ≤ numeralValue sg ds ∧ numeralValue sg ds ≤ 2147483647)
    (hs : ∀ c ∈ suffix.head?, isdigit c = false)
    (ht : ¬ ∃ v, beginsWithInteger t v) :
    optionsParseRequiredDecimal (some (numeral sg ds ++ suffix)) = .ok (numeralValue sg ds)
    ∧ (optionsParseRequiredDecimal (some t) = .error .notANumber
        ∧ Failure.isFatal .notANumber = true)
    ∧ optionsParseRequiredDecimal (some []) = .error .notANumber := by
  refine ⟨?_, ⟨parse_notANumber t ht, rfl⟩, by decide⟩
  have hr : ∀ c ∈ suffix.head?, ¬ digitValue c < 10 := by
    intro c hc hlt
    have := hs c hc
    rw [(digitValue_lt_ten_iff c).1 hlt] at this
    exact absurd this (by decide)
  rw [parse_numeral sg ds suffix hne hd hr, if_pos (by simpa [INT_MIN, INT_MAX] using hv)]

/-- C18, at `10abc`, which gives 10, and at `abc`, which is fatal. -/
theorem C18_suffix_ignored_no_number_fatal_witness :
    ([1, 0] ≠ [] ∧ (∀ d ∈ [1, 0], d < 10)
      ∧ (-2147483648 ≤ numeralValue .none [1, 0] ∧ numeralValue .none [1, 0] ≤ 2147483647)
      ∧ (∀ c ∈ "abc".toList.head?, isdigit c = false)
      ∧ ¬ ∃ v, beginsWithInteger "abc".toList v)
    ∧ optionsParseRequiredDecimal (some "10abc".toList) = .ok 10
    ∧ optionsParseRequiredDecimal (some "abc".toList) = .error .notANumber :=
  have hno : ¬ ∃ v, beginsWithInteger "abc".toList v := by
    rintro ⟨v, hv⟩
    have h := parse_beginsWithInteger "abc".toList v hv
    have h2 : optionsParseRequiredDecimal (some "abc".toList) = .error .notANumber := by decide
    rw [h2] at h
    split_ifs at h
    exact absurd h (by decide)
  have hw := C18_suffix_ignored_no_number_fatal .none [1, 0] "abc".toList "abc".toList
    (by decide) (by decide) (by decide) (by decide) hno
  ⟨⟨by decide, by decide, by decide, by decide, hno⟩, hw.1, hw.2.1.1⟩

/-- C15 as stated fails: `mode=edgexx` is accepted (the value is compared
with `edge` on its first 4 characters only) and the whole value `edgexx`,
which is neither `classic` nor `edge`, is stored as `lineMode`. -/
theorem C15_mode_stored_with_suffix :
    optionsParseLine "mode=edgexx".toList opt = .ok { opt with lineMode := some "edgexx".toList }
    ∧ "edgexx".toList ≠ "classic".toList ∧ "edgexx".toList ≠ "edge".toList := by
  decide

/-- C15, amended: `lineMode` always begins with `classic` or `edge`: it
starts as `classic`, and after every successful `optionsParseLine` call, for
every argument string, the stored `lineMode` is either the one stored before
the call or a string that begins with `classic` or with `edge`; so a
`lineMode` that begins with one of the two still does after the call. -/
theorem C15_lineMode_begins_with_mode (arg : List Char) (c c2 : ScrotOptions)
    (h : optionsParseLine arg c = .ok c2) :
    opt.lineMode = some "classic".toList
    ∧ namesLineMode opt.lineMode
    ∧ (c2.lineMode = c.lineMode ∨ namesLineMode c2.lineMode)
    ∧ (namesLineMode c.lineMode → namesLineMode c2.lineMode) := by
  have hm := optionsParseLine_lineMode arg.length arg c c2 (le_refl _) h
  refine ⟨rfl, ⟨"classic".toList, rfl, Or.inl (List.prefix_refl _)⟩, hm, ?_⟩
  intro hc
  rcases hm with h1 | h1
  · rw [h1]; exact hc
  · exact h1

/-- C15 amended, at `mode=edge,width=2` on the initial configuration. -/
theorem C15_lineMode_begins_with_mode_witness :
    optionsParseLine "mode=edge,width=2".toList opt
        = .ok { opt with lineMode := some "edge".toList, lineWidth := 2 }
    ∧ namesLineMode (some "edge".toList) :=
  have h : optionsParseLine "mode=edge,width=2".toList opt
      = .ok { opt with lineMode := some "edge".toList, lineWidth := 2 } := by decide
  ⟨h, (C15_lineMode_begins_with_mode "mode=edge,width=2".toList opt _ h).2.2.2
    ⟨"classic".toList, rfl, Or.inl (List.prefix_refl _)⟩⟩

/-- C19: `optionsParseLine` goes through its list from left to right, later
keys overwriting earlier ones: for all suboption strings `a` and `b`, `a`
having no empty piece between commas (so `a` is not empty), parsing `a`, a
comma and `b` gives the same outcome, the same final configuration or the
same fatal error, as parsing `a` and then, if that succeeded, parsing `b` on
the configuration `a` left. -/
theorem C19_line_left_to_right (a b : List Char) (c : ScrotOptions)
    (ha : ∀ t ∈ commaPieces a, t ≠ []) :
    optionsParseLine (a ++ ',' :: b) c =
      match optionsParseLine a c with
      | .error e => .error e
      | .ok c1 => optionsParseLine b c1 :=
  optionsParseLine_append a.length a b c (le_refl _) ha

/-- C19, at `width=2` and `width=5`: `width=2,width=5` leaves `lineWidth = 5`. -/
theorem C19_line_left_to_right_witness :
    (∀ t ∈ commaPieces "width=2".toList, t ≠ [])
    ∧ optionsParseLine ("width=2".toList ++ ',' :: "width=5".toList) opt
        = (match optionsParseLine "width=2".toList opt with
           | .error e => .error e
           | .ok c1 => optionsParseLine "width=5".toList c1)
    ∧ optionsParseLine "width=2,width=5".toList opt = .ok { opt with lineWidth := 5 } :=
  ⟨by decide, C19_line_left_to_right "width=2".toList "width=5".toList opt (by decide),
   by decide⟩

/-- Apart from the unterminated copy, `nameThumbnail` is injective and never
returns its input: for all file names `a` and `b` (strings without NUL),
whenever the calls on `a` and on `b` return inside the block, equal results
imply `a = b`, and the result for `a` differs from `a` (it is 6 characters
longer). The call on `a` does return, with the thumbnail name of `a`, on
every block whose byte at the offset of the last `.` of `a` is NUL. -/
theorem nameThumbnail_injective_of_returns (heap1 heap2 : Option (Nat → Char))
    (a b ra rb : List Char) (ha : NUL ∉ a) (hb : NUL ∉ b)
    (hra : nameThumbnail heap1 a = .ok ra) (hrb : nameThumbnail heap2 b = .ok rb) :
    (ra = rb → a = b) ∧ ra ≠ a ∧ ra.length = a.length + 6
    ∧ (∀ bytes : Nat → Char, (∀ k, strrchr a '.' = some k → bytes k = NUL) →
        nameThumbnail (some bytes) a = .ok (thumbnailName a)) := by
  have ea := nameThumbnail_ok heap1 a ra ha hra
  have eb := nameThumbnail_ok heap2 b rb hb hrb
  have hl := thumbnailName_length a
  rw [← ea] at hl
  refine ⟨?_, ?_, hl, fun bytes hbytes => nameThumbnail_returns bytes a ha hbytes⟩
  · intro h
    rw [ea, eb] at h
    exact thumbnailName_injective a b h
  · intro h
    rw [h] at hl
    omega

/-- C20 (defect in the code, the one of C9): on `shot.png` and a block that
`malloc` did not clear (15 bytes `A`), `strncpy` copies `shot` without a NUL
and the first `strcat` finds no NUL inside the block, so the call leaves the
block instead of returning `shot-thumb.png`. Run on the block together with
the memory that follows it (here 16 NUL bytes), the same three calls
(`strncpy`, `strcat`, `strcat`) append after the stale bytes and give
`shotAAAAAAAAAAA-thumb.png`, which is also the thumbnail name of the distinct
file name `shotAAAAAAAAAAA.png`: two output file names share a thumbnail
name. -/
theorem C20_nameThumbnail_overrun_collides :
    nameThumbnail (some (fun _ => 'A')) "shot.png".toList = .error .outOfBounds
    ∧ strrchr "shot.png".toList '.' = some 4
    ∧ malloc (some (fun _ => 'A')) ("shot.png".toList.length + 7) = some (List.replicate 15 'A')
    ∧ ((strncpy (List.replicate 15 'A' ++ List.replicate 16 NUL) "shot.png".toList 4).bind
        (fun t1 => (strcat t1 "-thumb".toList).bind
          (fun t2 => (strcat t2 ("shot.png".toList.drop 4)).map cstring)))
        = .ok "shotAAAAAAAAAAA-thumb.png".toList
    ∧ nameThumbnail (some (fun _ => NUL)) "shotAAAAAAAAAAA.png".toList
        = .ok "shotAAAAAAAAAAA-thumb.png".toList
    ∧ "shot.png".toList ≠ "shotAAAAAAAAAAA.png".toList := by
  decide

/-- C11 as stated fails: on `scrot -t 50 out.png` the output file name has 7
characters, yet the parse is fatal when `malloc` has no memory for the
thumbnail name, which is derived as soon as the output file is accepted
("Unable to allocate thumbnail"). -/
theorem C11_thumbnail_allocation_fatal :
    "out.png".toList.length ≤ 256
    ∧ optionsParse none (fun _ => none)
        ["scrot".toList, "-t".toList, "50".toList, "out.png".toList] opt
        = .error .allocateThumbnail
    ∧ Failure.isFatal .allocateThumbnail = true := by
  decide

/-- C11, amended: when `optionsParse` starts with `outputFile` unset, the
options of the argument vector are accepted (leaving the configuration `c1`)
and the vector has the positional arguments `first :: rest`, the parse is
fatal if `first` has more than 256 characters; otherwise `outputFile` becomes
`first`, provided that, when thumbnailing is on (`thumb` not 0),
`nameThumbnail` returns a name for it, which becomes `thumbFile`. Every later
positional argument is only reported (`rest` is the list of the warnings) and
changes neither the outcome nor `outputFile`. -/
theorem C11_first_positional_is_output_file (heap : Option (Nat → Char))
    (scrotNoteNew : List Char → Option Failure) (argv : List (List Char))
    (c c1 : ScrotOptions) (first : List Char) (rest : List (List Char))
    (hout : c.outputFile = none)
    (hflags : optionsParseOptions scrotNoteNew
        (getoptScan stropts lopts false (argv.drop 1)).1 c = .ok c1)
    (hpos : (getoptScan stropts lopts false (argv.drop 1)).2 = first :: rest) :
    (first.length > 256 →
        optionsParse heap scrotNoteNew argv c = .error .filenameTooLong
          ∧ Failure.isFatal .filenameTooLong = true)
    ∧ (first.length ≤ 256 → c1.thumb = 0 →
        optionsParse heap scrotNoteNew argv c = .ok ({ c1 with outputFile := some first }, rest))
    ∧ (first.length ≤ 256 → c1.thumb ≠ 0 → ∀ t, nameThumbnail heap first = .ok t →
        optionsParse heap scrotNoteNew argv c
          = .ok ({ c1 with outputFile := some first, thumbFile := some t }, rest)) := by
  have h1 : c1.outputFile = none := by
    rw [(optionsParseOptions_files scrotNoteNew _ c c1 hflags).1, hout]
  have h : optionsParse heap scrotNoteNew argv c
      = optionsParseLeftovers heap (first :: rest) c1 [] := by
    simp only [optionsParse, hflags, hpos]
  rw [h, optionsParseLeftovers_first heap first rest c1 [] h1]
  refine ⟨?_, ?_, ?_⟩
  · intro hl
    rw [if_pos hl]
    exact ⟨rfl, rfl⟩
  · intro hl ht
    rw [if_neg (by omega), if_neg (by simp [ht])]
    simp
  · intro hl ht t hn
    rw [if_neg (by omega), if_pos ht, hn]
    simp

/-- C11 amended, at `scrot out1.png out2.png` on the initial configuration:
`outputFile` is `out1.png`, `out2.png` is only reported. -/
theorem C11_first_positional_is_output_file_witness :
    (opt.outputFile = none
      ∧ optionsParseOptions (fun _ => none)
          (getoptScan stropts lopts false
            (["scrot".toList, "out1.png".toList, "out2.png".toList].drop 1)).1 opt = .ok opt
      ∧ (getoptScan stropts lopts false
          (["scrot".toList, "out1.png".toList, "out2.png".toList].drop 1)).2
          = "out1.png".toList :: ["out2.png".toList]
      ∧ "out1.png".toList.length ≤ 256 ∧ opt.thumb = 0)
    ∧ optionsParse none (fun _ => none)
        ["scrot".toList, "out1.png".toList, "out2.png".toList] opt
        = .ok ({ opt with outputFile := some "out1.png".toList }, ["out2.png".toList]) :=
  ⟨by decide,
   (C11_first_positional_is_output_file none (fun _ => none)
      ["scrot".toList, "out1.png".toList, "out2.png".toList] opt opt "out1.png".toList
      ["out2.png".toList] (by decide) (by decide) (by decide)).2.1 (by decide) (by decide)⟩

/-- C13 as stated fails: after `scrot a.png` has been parsed, parsing
`scrot b.png` on the same configuration leaves `outputFile = a.png`; the
positional argument of the second vector is only reported (`outputFile` is
stored only while it is unset). -/
theorem C13_output_file_not_replaced :
    optionsParse none (fun _ => none) ["scrot".toList, "a.png".toList] opt
        = .ok ({ opt with outputFile := some "a.png".toList }, [])
    ∧ optionsParse none (fun _ => none) ["scrot".toList, "b.png".toList]
          { opt with outputFile := some "a.png".toList }
        = .ok ({ opt with outputFile := some "a.png".toList }, ["b.png".toList])
    ∧ "a.png".toList ≠ "b.png".toList := by
  decide

/-- C13, amended: when an argument vector is parsed by `optionsParse` without
a fatal error on the configuration `c` a parse before it left, every field
other than `outputFile` and `thumbFile` obeys last write wins. The options of
the vector supply values for fields, in the order of the vector
(`vectorSupplies`: `-b` supplies `border = 1`, `-q 90` supplies
`quality = 90`, and so on); afterwards every field the vector supplies holds
the value the vector supplies for it last, and every field the vector does
not supply has the value it had in `c`. So the result does not depend on what
`c` held in the supplied fields: compared with the parse of the same vector
on any other configuration `d`, each field either agrees in both results or
is unchanged in both. An `outputFile` that is set is kept, together with
`thumbFile`, and the positional arguments of the vector are only reported; an
`outputFile` that is unset becomes the first positional argument, if there is
one. -/
theorem C13_last_write_wins_except_output_file (heap1 : Option (Nat → Char))
    (note1 : List Char → Option Failure) (argv : List (List Char))
    (c c2 : ScrotOptions) (w1 : List (List Char))
    (hc : optionsParse heap1 note1 argv c = .ok (c2, w1)) :
    (∀ pre a post, vectorSupplies argv = pre ++ a :: post →
        (∀ b ∈ post, b.field ≠ a.field) → a.holds c2)
    ∧ (∀ f : Field, (∀ b ∈ vectorSupplies argv, b.field ≠ f) → f.kept c c2)
    ∧ (∀ heap2 note2 d d2 w2, optionsParse heap2 note2 argv d = .ok (d2, w2) →
        LastWriteWins c d c2 d2)
    ∧ (∀ f, c.outputFile = some f →
        c2.outputFile = some f ∧ c2.thumbFile = c.thumbFile
          ∧ w1 = (getoptScan stropts lopts false (argv.drop 1)).2)
    ∧ (c.outputFile = none →
        c2.outputFile = (getoptScan stropts lopts false (argv.drop 1)).2.head?) := by
  unfold optionsParse at hc
  cases h1 : optionsParseOptions note1 (getoptScan stropts lopts false (argv.drop 1)).1 c with
  | error e => rw [h1] at hc; simp at hc
  | ok c1 =>
    rw [h1] at hc
    simp only at hc
    have hs : c1 = assign (vectorSupplies argv) c := optionsParseOptions_supplies note1 _ c c1 h1
    have e1 := optionsParseLeftovers_others heap1 _ c1 c2 [] w1 hc
    have hfiles := optionsParseOptions_files note1 _ c c1 h1
    refine ⟨?_, ?_, ?_, ?_, ?_⟩
    · intro pre a post hv hpost
      rw [e1]
      apply Assignment.holds_files
      rw [hs, hv]
      exact assign_last pre post a c hpost
    · intro f hf
      rw [e1]
      apply Field.kept_files
      rw [hs]
      exact assign_kept f _ c hf
    · intro heap2 note2 d d2 w2 hd
      unfold optionsParse at hd
      cases h2 : optionsParseOptions note2 (getoptScan stropts lopts false (argv.drop 1)).1 d with
      | error e => rw [h2] at hd; simp at hd
      | ok d1 =>
        rw [h2] at hd
        simp only at hd
        have ho := optionsParseOptions_overwrites note1 note2 _ c d c1 d1 h1 h2
        have e2 := optionsParseLeftovers_others heap2 _ d1 d2 [] w2 hd
        rw [e1, e2]
        exact lastWriteWins_files ho.1 _ _ _ _
    · intro f hf
      have hf1 : c1.outputFile = some f := by rw [hfiles.1, hf]
      rw [optionsParseLeftovers_set heap1 _ c1 [] f hf1] at hc
      simp only [Except.ok.injEq, Prod.mk.injEq, List.nil_append] at hc
      rw [← hc.1, ← hc.2]
      exact ⟨hf1, hfiles.2, rfl⟩
    · intro hn
      have hn1 : c1.outputFile = none := by rw [hfiles.1, hn]
      cases hl : (getoptScan stropts lopts false (argv.drop 1)).2 with
      | nil =>
        rw [hl] at hc
        simp only [optionsParseLeftovers, Except.ok.injEq, Prod.mk.injEq] at hc
        rw [← hc.1, hn1]
        rfl
      | cons first rest =>
        rw [hl, optionsParseLeftovers_first heap1 first rest c1 [] hn1] at hc
        split_ifs at hc
        · cases hn2 : nameThumbnail heap1 first with
          | error e => rw [hn2] at hc; simp at hc
          | ok t =>
            rw [hn2] at hc
            simp only [Except.ok.injEq, Prod.mk.injEq] at hc
            rw [← hc.1]
            rfl
        · simp only [Except.ok.injEq, Prod.mk.injEq] at hc
          rw [← hc.1]
          rfl

/-- C13 amended, at `scrot -q 90 -b b.png` parsed after `scrot -q 50 a.png`:
the vector supplies `quality = 90` and `border = 1`, which hold afterwards;
`delay`, which it does not supply, is kept; `outputFile` stays `a.png`. -/
theorem C13_last_write_wins_except_output_file_witness :
    (optionsParse none (fun _ => none)
        ["scrot".toList, "-q".toList, "50".toList, "a.png".toList] opt
        = .ok ({ opt with quality := 50, outputFile := some "a.png".toList }, [])
      ∧ optionsParse none (fun _ => none)
          ["scrot".toList, "-q".toList, "90".toList, "-b".toList, "b.png".toList]
          { opt with quality := 50, outputFile := some "a.png".toList }
          = .ok ({ opt with quality := 90, border := 1, outputFile := some "a.png".toList },
                 ["b.png".toList])
      ∧ vectorSupplies ["scrot".toList, "-q".toList, "90".toList, "-b".toList, "b.png".toList]
          = [.quality 90, .border 1])
    ∧ (Assignment.quality 90).holds
        { opt with quality := 90, border := 1, outputFile := some "a.png".toList }
    ∧ (Assignment.border 1).holds
        { opt with quality := 90, border := 1, outputFile := some "a.png".toList }
    ∧ Field.delay.kept { opt with quality := 50, outputFile := some "a.png".toList }
        { opt with quality := 90, border := 1, outputFile := some "a.png".toList } :=
  ⟨⟨by decide, by decide, rfl⟩,
   (C13_last_write_wins_except_output_file none (fun _ => none)
      ["scrot".toList, "-q".toList, "90".toList, "-b".toList, "b.png".toList]
      { opt with quality := 50, outputFile := some "a.png".toList }
      { opt with quality := 90, border := 1, outputFile := some "a.png".toList }
      ["b.png".toList] (by decide)).1 [] (.quality 90) [.border 1] rfl (by decide),
   (C13_last_write_wins_except_output_file none (fun _ => none)
      ["scrot".toList, "-q".toList, "90".toList, "-b".toList, "b.png".toList]
      { opt with quality := 50, outputFile := some "a.png".toList }
      { opt with quality := 90, border := 1, outputFile := some "a.png".toList }
      ["b.png".toList] (by decide)).1 [.quality 90] (.border 1) [] rfl (by decide),
   (C13_last_write_wins_except_output_file none (fun _ => none)
      ["scrot".toList, "-q".toList, "90".toList, "-b".toList, "b.png".toList]
      { opt with quality := 50, outputFile := some "a.png".toList }
      { opt with quality := 90, border := 1, outputFile := some "a.png".toList }
      ["b.png".toList] (by decide)).2.1 .delay (by decide)⟩

end Scrot
